import Mathlib

/-!
# csv2json: header paths to nested records

A shallow embedding of `transformToMap`, `arrayContentMatch`, `Convert`,
`saveToFile` and `downloadFromURL` of `src/csv2json.go`, together with the two
standard-library routines the conversion calls (`strconv.Atoi`,
`strconv.ParseBool`) and the byte-string primitives (`strings.Split`,
`strings.Index`, slicing).

Conventions.
* A Go string is a sequence of bytes.  It is embedded as a list of characters,
  one per byte; the code only ever inspects the ASCII bytes `.`, `[`, `]`,
  the sign characters and the decimal digits.
* `int` is the 64-bit signed integer of the usual hosts.
* A Go run-time panic is the `Except.error` outcome; a normal return carries the
  returned record slice and the returned `error` value.
* A `map[string]interface{}` is an association list with pairwise distinct
  keys, kept in insertion order.  The code never iterates over a map, so the
  order is not observable by the code itself.
-/

namespace Csv2json

/-- Go `string`: a sequence of bytes. -/
abbrev Str := List Char

/-- The run-time panics the code can raise. -/
inductive Panic where
  /-- Message `index out of range`: `src[0]`, `headers[i]`, `internalArray[arrayIndex]`. -/
  | indexOutOfRange
  /-- Message `slice bounds out of range`: `str[i+1 : j]` with `j < i+1`. -/
  | sliceBounds
  /-- Message `interface conversion`: a failed type assertion `x.(T)`. -/
  | interfaceConversion
  /-- Message `invalid memory address or nil pointer dereference`: the call
  `reflect.TypeOf(src).Kind()` with a nil `src`. -/
  | nilDereference
  deriving DecidableEq, Repr

/-- The dynamic values stored in a record (`interface{}` as the code fills it). -/
inductive Value where
  | int (n : Int)
  | bool (b : Bool)
  | str (s : Str)
  | arr (xs : List Value)
  | map (m : List (Str × Value))

/-- Go `map[string]interface{}`. -/
abbrev Record := List (Str × Value)

/-- Go `error` values. -/
abbrev GoError := String

/-! ## Standard library: `strconv` -/

/-- The two failure causes of `strconv` number parsing (`ErrSyntax`, `ErrRange`). -/
inductive NumError where
  | errSyntax
  | errRange
  deriving DecidableEq, Repr

/-- Width of `int` (`strconv.IntSize`). -/
def intSize : Nat := 64

/-- The constant `maxUint64`, `1<<64 - 1`. -/
def maxUint64 : Nat := 2 ^ 64 - 1

/-- Value of a decimal digit byte, `c - '0'`. -/
def digitVal (c : Char) : Nat := c.toNat - 48

/-- The digit loop of `strconv.ParseUint(s, 10, 0)`, started with accumulator `n`.
In base 10 every byte other than `0`..`9` is a syntax error (a letter gives a
digit value of at least 10, the base; an underscore is only read in base 0). -/
def parseUintLoop : Str → Nat → Nat × Option NumError
  | [], n => (n, none)
  | c :: cs, n =>
    if c.isDigit then
      -- cutoff = maxUint64/10 + 1: n*10 overflows
      if n ≥ maxUint64 / 10 + 1 then (maxUint64, some .errRange)
      else
        let n0 := n * 10
        let n1 := (n0 + digitVal c) % 2 ^ 64
        -- n+d overflows
        if n1 < n0 ∨ n1 > maxUint64 then (maxUint64, some .errRange)
        else parseUintLoop cs n1
    else (0, some .errSyntax)

/-- Go `strconv.ParseUint(s, 10, 0)`. -/
def parseUint (s : Str) : Nat × Option NumError :=
  if s = [] then (0, some .errSyntax) else parseUintLoop s 0

/-- Conversion `int64(un)` of an unsigned 64-bit value, and 64-bit wrap-around. -/
def wrapInt64 (z : Int) : Int := (z + 2 ^ 63) % 2 ^ 64 - 2 ^ 63

/-- Go `strconv.ParseInt(s, 10, 0)`. -/
def parseInt (s : Str) : Int × Option NumError :=
  match s with
  | [] => (0, some .errSyntax)
  | c :: cs =>
    let neg := c = '-'
    let body := if c = '+' ∨ c = '-' then cs else s
    match parseUint body with
    | (_, some .errSyntax) => (0, some .errSyntax)
    | (un, _) =>
      let cutoff : Nat := 2 ^ (intSize - 1)
      if ¬ neg ∧ un ≥ cutoff then ((cutoff : Int) - 1, some .errRange)
      else if neg ∧ un > cutoff then (-(cutoff : Int), some .errRange)
      else
        let n := wrapInt64 un
        (if neg then wrapInt64 (-n) else n, none)

/-- The digit loop of the fast path of `strconv.Atoi`; at most 18 digits are
read, so `n*10 + int(ch)` cannot overflow. -/
def atoiFastLoop : Str → Int → Option Int
  | [], n => some n
  | ch :: rest, n => if ch.isDigit then atoiFastLoop rest (n * 10 + digitVal ch) else none

/-- Go `strconv.Atoi(s)`: the parsed value and the error (`none` is `nil`). -/
def Atoi (s : Str) : Int × Option NumError :=
  let sLen := s.length
  if 0 < sLen ∧ sLen < 19 then
    -- fast path for small integers that fit the int type
    match s with
    | [] => (0, some .errSyntax)
    | s0 :: tl =>
      let body := if s0 = '-' ∨ s0 = '+' then tl else s
      if body.length < 1 then (0, some .errSyntax)
      else
        match atoiFastLoop body 0 with
        | none => (0, some .errSyntax)
        | some n => (if s0 = '-' then -n else n, none)
  else
    -- slow path for invalid, big, or underscored integers
    parseInt s

/-- Go `strconv.ParseBool(str)`: the value and whether an error is returned. -/
def ParseBool (str : Str) : Bool × Bool :=
  if str ∈ ["1".toList, "t".toList, "T".toList, "TRUE".toList, "true".toList, "True".toList] then
    (true, false)
  else if str ∈ ["0".toList, "f".toList, "F".toList, "FALSE".toList, "false".toList,
      "False".toList] then
    (false, false)
  else (false, true)

/-! ## Standard library: `strings` and slicing -/

/-- Go `strings.Index(s, string(c))` for a one-byte separator: the position of
the first occurrence, or `-1`. -/
def index (s : Str) (c : Char) : Int :=
  if s.indexOf c < s.length then (s.indexOf c : Int) else -1

/-- Go `strings.Split(s, string(sep))` for a one-byte separator: always at least
one piece. -/
def split (sep : Char) : Str → List Str
  | [] => [[]]
  | c :: cs =>
    if c = sep then [] :: split sep cs
    else
      match split sep cs with
      | [] => [[c]]
      | seg :: rest => (c :: seg) :: rest

/-- Go slice expression `str[lo:hi]` for `0 ≤ lo` and `hi ≤ len(str)`. -/
def slice (str : Str) (lo hi : Nat) : Except Panic Str :=
  if lo ≤ hi then .ok ((str.drop lo).take (hi - lo)) else .error .sliceBounds

/-! ## Maps -/

/-- Go `m[k]`; `none` is the `nil` interface an absent key yields. -/
def mapGet : Record → Str → Option Value
  | [], _ => none
  | (k, v) :: m, key => if k = key then some v else mapGet m key

/-- Go `m[k] = v`. -/
def mapSet : Record → Str → Value → Record
  | [], key, v => [(key, v)]
  | (k, w) :: m, key, v => if k = key then (k, v) :: m else (k, w) :: mapSet m key v

/-! ## The repository code -/

/-- Source `arrayContentMatch` (lines 218-228). -/
def arrayContentMatch (str : Str) : Except Panic (Str × Int) :=
  let i := index str '['
  if i ≥ 0 then
    let j := index str ']'
    if j ≥ 0 then
      match slice str (i.toNat + 1) j.toNat with
      | .error p => .error p
      | .ok content => .ok (str.take i.toNat, (Atoi content).1)
    else .ok (str, -1)
  else .ok (str, -1)

/-- The inner loop of `transformToMap` (lines 143-192) over the remaining
segments of one header, `internal` being the current container.  The result is
the container after the walk; a nested container that the code mutates through
its reference is rebuilt and stored back at the place it is referenced from. -/
def walk (field : Str) : List Str → Record → Except Panic Record
  | [], internal => .ok internal
  | val :: rest, internal =>
    match arrayContentMatch val with
    | .error p => .error p
    | .ok (key, arrayIndex) =>
      if arrayIndex ≠ -1 then
        -- lines 146-149: create the array when absent, then assert `[]interface{}`
        match (mapGet internal key).getD (.arr []) with
        | .arr internalArray =>
          if rest = [] then
            -- lines 150-167
            if (Atoi field).2 = none then
              .ok (mapSet internal key (.arr (internalArray ++ [.int (Atoi field).1])))
            else if field = "true".toList ∨ field = "false".toList then
              .ok (mapSet internal key (.arr (internalArray ++ [.bool (ParseBool field).1])))
            else
              .ok (mapSet internal key (.arr (internalArray ++ [.str field])))
          else
            -- lines 168-172
            let internalArray :=
              if arrayIndex ≥ internalArray.length then internalArray ++ [.map []]
              else internalArray
            if arrayIndex < 0 ∨ arrayIndex ≥ internalArray.length then
              .error .indexOutOfRange
            else
              match internalArray.get? arrayIndex.toNat with
              | some (.map m) =>
                match walk field rest m with
                | .error p => .error p
                | .ok m1 =>
                  .ok (mapSet internal key (.arr (internalArray.set arrayIndex.toNat (.map m1))))
              | _ => .error .interfaceConversion
        | _ => .error .interfaceConversion
      else
        if rest = [] then
          -- lines 174-186
          if (Atoi field).2 = none then
            .ok (mapSet internal key (.int (Atoi field).1))
          else if field = "true".toList ∨ field = "false".toList then
            .ok (mapSet internal key (.bool (ParseBool field).1))
          else
            .ok (mapSet internal key (.str field))
        else
          -- lines 187-190: create the map when absent, then assert the map type
          match (mapGet internal key).getD (.map []) with
          | .map m =>
            match walk field rest m with
            | .error p => .error p
            | .ok m1 => .ok (mapSet internal key (.map m1))
          | _ => .error .interfaceConversion

/-- The loop over the fields of one line (lines 137-193); `i` is the index of
the next field and `result` the record built so far. -/
def fillLine (headers : List Str) : List Str → Nat → Record → Except Panic Record
  | [], _, result => .ok result
  | field :: rest, i, result =>
    match headers.get? i with
    | none => .error .indexOutOfRange
    | some header =>
      match walk field (split '.' header) result with
      | .error p => .error p
      | .ok result1 => fillLine headers rest (i + 1) result1

/-- The loop over the data lines (lines 135-195), `results` being the records
appended so far. -/
def convertLines (headers : List Str) : List (List Str) → List Record → Except Panic (List Record)
  | [], results => .ok results
  | line :: lines, results =>
    match fillLine headers line 0 [] with
    | .error p => .error p
    | .ok result => convertLines headers lines (results ++ [result])

/-- Source `transformToMap` (lines 132-198): the records and the `error`
value it returns, or the panic it raises. -/
def transformToMap (src : List (List Str)) : Except Panic (List Record × Option GoError) :=
  match src with
  | [] => .error .indexOutOfRange
  | headers :: lines =>
    match convertLines headers lines [] with
    | .error p => .error p
    | .ok results => .ok (results, none)

/-! ## The repository code: `Convert` and `saveToFile`

The collaborators outside the repository (the JSON encoder, the file system,
the HTTP client and the CSV reader) are parameters.  The effect on the file
system is the list of the calls of `os.WriteFile`, threaded through the
functions.  The mutex of `Convert` is not modelled: one conversion runs at a
time.  `src` is any interface value, given by its dynamic type (`Src`). -/

/-- The collaborators of the I/O code. -/
structure Collaborators where
  /-- Go `json.MarshalIndent(data, "", "\t")`. -/
  marshalIndent : List Record → Except GoError Str
  /-- Go `os.WriteFile(dest, bytes, 0644)`: the returned error. -/
  writeFile : Str → Str → Option GoError
  /-- Go `httpClient.Get(url)`: the response body. -/
  httpGet : Str → Except GoError Str
  /-- Go `os.Open(path)`: the file content. -/
  openFile : Str → Except GoError Str
  /-- Go `csv.NewReader(r).ReadAll()`. -/
  readAll : Str → Except GoError (List (List Str))

/-- A call of `os.WriteFile`: the path and the bytes. -/
abbrev FileWrite := Str × Str

/-- The ways a call of `Convert` ends without returning. -/
inductive Abort where
  /-- A run-time panic of the conversion. -/
  | runtime (p : Panic)
  /-- The call `panic(err)`, line 82. -/
  | panicErr (err : GoError)
  /-- The call `log.Fatal(err)`, lines 89 and 123: the process exits. -/
  | fatal (err : GoError)

/-- The dynamic type of the `src` argument of `Convert`. -/
inductive Src where
  /-- A `[][]string`. -/
  | rows (data : List (List Str))
  /-- A `string`. -/
  | text (s : Str)
  /-- A value of another type whose kind is a slice of slices of a string kind
  (a defined type such as `type T [][]string`): it passes the `reflect.Kind`
  tests of lines 33-35, and the assertion `src.([][]string)` fails. -/
  | rowsKind
  /-- A value of another type whose kind is `string` (a defined type such as
  `type T string`): it passes the test of line 55, and the assertion
  `src.(string)` fails. -/
  | textKind
  /-- The nil interface value: `reflect.TypeOf(src)` is nil and the call of
  `Kind` at line 33 panics. -/
  | untyped
  /-- A value of a type of any other kind. -/
  | other

/-- Source `saveToFile` (lines 201-215): the returned error and the calls of
`os.WriteFile` so far. -/
def saveToFile (env : Collaborators) (data : List Record) (dest : Str)
    (writes : List FileWrite) : Option GoError × List FileWrite :=
  match env.marshalIndent data with
  | .error err => (some err, writes)
  | .ok bytes => (env.writeFile dest bytes, writes ++ [(dest, bytes)])

/-- Source `downloadFromURL` (lines 111-128). -/
def downloadFromURL (env : Collaborators) (url : Str) :
    Except Abort (List (List Str) × Option GoError) :=
  match env.httpGet url with
  | .error err => .ok ([], some err)
  | .ok body =>
    match env.readAll body with
    | .error err => .error (.fatal err)
    | .ok data => .ok (data, none)

/-- The tail every branch of `Convert` shares (lines 37-49, 61-74, 91-103):
convert the rows, return the records when `dest` is empty, save them and
return nil records otherwise.  A nil slice is the empty list. -/
def convertRows (env : Collaborators) (data : List (List Str)) (dest : Str)
    (writes : List FileWrite) :
    List FileWrite × Except Abort (List Record × Option GoError) :=
  match transformToMap data with
  | .error p => (writes, .error (.runtime p))
  | .ok (result, err) =>
    if err ≠ none then (writes, .ok ([], err))
    else if dest = [] then (writes, .ok (result, none))
    else
      match saveToFile env result dest writes with
      | (some err, writes1) => (writes1, .ok ([], some err))
      | (none, writes1) => (writes1, .ok ([], none))

/-- Source `Convert` (lines 29-107): the calls of `os.WriteFile` after the
call, and the returned records and error or the way the call aborts. -/
def Convert (env : Collaborators) (src : Src) (dest : Str) (writes : List FileWrite) :
    List FileWrite × Except Abort (List Record × Option GoError) :=
  match src with
  | .rows data => convertRows env data dest writes
  | .text s =>
    if "http".toList.isPrefixOf s ∨ "https".toList.isPrefixOf s then
      match downloadFromURL env s with
      | .error a => (writes, .error a)
      | .ok (_, some err) => (writes, .ok ([], some err))
      | .ok (resp, none) => convertRows env resp dest writes
    else
      match env.openFile s with
      | .error err => (writes, .error (.panicErr err))
      | .ok content =>
        match env.readAll content with
        | .error err => (writes, .error (.fatal err))
        | .ok data => convertRows env data dest writes
  | .rowsKind => (writes, .error (.runtime .interfaceConversion))
  | .textKind => (writes, .error (.runtime .interfaceConversion))
  | .untyped => (writes, .error (.runtime .nilDereference))
  | .other => (writes, .ok ([], some "invalid src type"))

/-! ## Specification-side notions -/

/-- Value of a digit string read after the accumulator `n`. -/
def decFold (ds : Str) (n : Nat) : Nat := ds.foldl (fun a c => a * 10 + digitVal c) n

/-- A non-empty string of decimal digits. -/
def isDigits (ds : Str) : Prop := ds ≠ [] ∧ ∀ c ∈ ds, c.isDigit = true

instance (ds : Str) : Decidable (isDigits ds) :=
  inferInstanceAs (Decidable (ds ≠ [] ∧ ∀ c ∈ ds, c.isDigit = true))

/-- The integer a string denotes as a base-10 literal of the 64-bit `int`: an
optional sign `-` or `+`, then one or more decimal digits, the value within
`-2^63 .. 2^63-1`. -/
def signedDecimal? (s : Str) : Option Int :=
  match s with
  | [] => none
  | c :: cs =>
    if c = '-' then
      if isDigits cs ∧ decFold cs 0 ≤ 2 ^ 63 then some (-(decFold cs 0 : Int)) else none
    else if c = '+' then
      if isDigits cs ∧ decFold cs 0 < 2 ^ 63 then some (decFold cs 0 : Int) else none
    else
      if isDigits s ∧ decFold s 0 < 2 ^ 63 then some (decFold s 0 : Int) else none

/-- The outcomes of a failed integer parse: an error with the value `0` (syntax)
or a bound of the 64-bit range. -/
def IsParseFailure (r : Int × Option NumError) : Prop :=
  ∃ e, r = (0, some e) ∨ r = (2 ^ 63 - 1, some e) ∨ r = (-(2 ^ 63), some e)

/-- Scalar coercion as the specification words it: integer first, then the two
boolean literals, otherwise the string itself. -/
def coerce (raw : Str) : Value :=
  match signedDecimal? raw with
  | some n => .int n
  | none =>
    if raw = "true".toList then .bool true
    else if raw = "false".toList then .bool false
    else .str raw

/-- Digit byte of a value below ten. -/
def digitChar (d : Nat) : Char := Char.ofNat (48 + d)

/-- Canonical decimal digits of a natural number. -/
def renderNat (n : Nat) : Str :=
  if n < 10 then [digitChar n] else renderNat (n / 10) ++ [digitChar (n % 10)]
termination_by n
decreasing_by omega

/-- Textual form of a scalar: an integer in canonical decimal form, a boolean as
`true` or `false`, a string as itself. -/
def render : Value → Str
  | .int n => if n < 0 then '-' :: renderNat n.natAbs else renderNat n.natAbs
  | .bool b => if b then "true".toList else "false".toList
  | .str s => s
  | .arr _ => []
  | .map _ => []

/-- The integer syntax of the specification text: an optional leading `-`, then
one or more decimal digits, the value within the 64-bit range. -/
def minusDecimal? (s : Str) : Option Int :=
  match s with
  | [] => none
  | c :: cs =>
    if c = '-' then
      if isDigits cs ∧ decFold cs 0 ≤ 2 ^ 63 then some (-(decFold cs 0 : Int)) else none
    else
      if isDigits s ∧ decFold s 0 < 2 ^ 63 then some (decFold s 0 : Int) else none

/-- Reading a path back: follow the keys through the nested maps of a record;
the value at the last key is the result. -/
def lookupPath : Record → List Str → Option Value
  | _, [] => none
  | m, [k] => mapGet m k
  | m, k :: k2 :: rest =>
    match mapGet m k with
    | some (.map m1) => lookupPath m1 (k2 :: rest)
    | _ => none

/-- Segments that carry no array marker. -/
def Plain (segs : List Str) : Prop := ∀ s ∈ segs, arrayContentMatch s = .ok (s, -1)

/-- The keys before the last one of a path are absent or hold maps, all the
way down: the walk of the path meets no value of another kind. -/
def Walkable : List Str → Record → Prop
  | [], _ => True
  | [_], _ => True
  | k :: k2 :: rest, m =>
    match mapGet m k with
    | none => True
    | some (.map m1) => Walkable (k2 :: rest) m1
    | some _ => False

/-- Paths that are pairwise unrelated by the prefix order. -/
def PrefixFree (paths : List (List Str)) : Prop :=
  paths.Pairwise (fun p q => ¬ p <+: q ∧ ¬ q <+: p)

/-- In record `m` the maps along the keys `P` lead to a container in which the
key `k` is present with a value of the wrong kind: not an array when
`wantArr`, not a map otherwise; or a key of `P` is present with a value that is
no map. -/
def Conflict (wantArr : Bool) : List Str → Str → Record → Prop
  | [], k, m =>
    match mapGet m k with
    | none => False
    | some (.arr _) => wantArr = false
    | some (.map _) => wantArr = true
    | some _ => True
  | p :: P, k, m =>
    match mapGet m p with
    | none => False
    | some (.map m1) => Conflict wantArr P k m1
    | some _ => True

/-- The header reaches key `k` in the container below the segments `P` as an
array: its segments are read like `P` (the same keys and indexes, segment by
segment), then comes a bracketed segment read with key `k` and an index, then
any further segments. -/
def ArrayAt (P : List Str) (k : Str) (header : Str) : Prop :=
  ∃ P1 seg idx tail, split '.' header = P1 ++ seg :: tail ∧
    P1.map arrayContentMatch = P.map arrayContentMatch ∧
    arrayContentMatch seg = .ok (k, idx) ∧ idx ≠ -1

/-- The header reaches key `k` in the container below the segments `P` as a
map: its segments are read like `P`, then comes `k` itself, then at least one
further segment. -/
def MapAt (P : List Str) (k : Str) (header : Str) : Prop :=
  ∃ P1 tail, tail ≠ [] ∧ split '.' header = P1 ++ k :: tail ∧
    P1.map arrayContentMatch = P.map arrayContentMatch

/-- The header reaches key `k` below the segments `P` as an array (`asArr`) or
as a map. -/
def Reaches (asArr : Bool) (P : List Str) (k : Str) (header : Str) : Prop :=
  match asArr with
  | true => ArrayAt P k header
  | false => MapAt P k header

/-- Reading a header path back in a record: a segment without array index
leads into the map at its key, a segment with index `k` into element `k` of the
array at its key, and the last segment, which carries no index, names the key
whose value is the result. -/
def lookupHeader : Record → List Str → Option Value
  | _, [] => none
  | m, [seg] =>
    match arrayContentMatch seg with
    | .ok (key, idx) => if idx = -1 then mapGet m key else none
    | .error _ => none
  | m, seg :: seg2 :: rest =>
    match arrayContentMatch seg with
    | .ok (key, idx) =>
      if idx = -1 then
        match mapGet m key with
        | some (.map m1) => lookupHeader m1 (seg2 :: rest)
        | _ => none
      else if idx < 0 then none
      else
        match mapGet m key with
        | some (.arr xs) =>
          match xs.get? idx.toNat with
          | some (.map m1) => lookupHeader m1 (seg2 :: rest)
          | _ => none
        | _ => none
    | .error _ => none

/-- Array `ys` continues array `xs`: it is at least as long, and at every
position of `xs` it holds the same value, or a map where `xs` holds a map. -/
def Grows (xs ys : List Value) : Prop :=
  xs.length ≤ ys.length ∧
  ∀ i, i < xs.length →
    ys.get? i = xs.get? i ∨
      ∃ m1 m2, xs.get? i = some (.map m1) ∧ ys.get? i = some (.map m2)

/-- Value `v'` continues value `v`: a scalar is unchanged, an array is continued
by an array (`Grows`), a map is still a map. -/
def Continues : Value → Value → Prop
  | .arr xs, v' => ∃ ys, v' = .arr ys ∧ Grows xs ys
  | .map _, v' => ∃ m2, v' = .map m2
  | .int n, v' => v' = .int n
  | .bool b, v' => v' = .bool b
  | .str s, v' => v' = .str s

/-- The header with segments `segs` ends on the path `path`: its segments
before the last one are read like the first segments of the path (same key, same
index), and its last segment is read with the index -1 (as a bracket-free
segment is, or a segment `k[-1]`) and with the key of the path segment at its
position.  The terminal write of such a header assigns to a key the path leads
through. -/
def Disturbs : List Str → List Str → Prop
  | [], _ => False
  | [seg], path =>
    match path with
    | [] => False
    | s :: _ =>
      match arrayContentMatch seg, arrayContentMatch s with
      | .ok (key, idx), .ok (key1, _) => idx = -1 ∧ key = key1
      | _, _ => False
  | seg :: x2 :: xrest, path =>
    match path with
    | s :: h2 :: hrest =>
      arrayContentMatch seg = arrayContentMatch s ∧ Disturbs (x2 :: xrest) (h2 :: hrest)
    | _ => False

/-- What a path segment leads to in a container: nothing yet, a value the walk
of the segment as a non-final segment panics on, or the map it descends into. -/
inductive Step where
  | absent
  | blocked
  | into (m1 : Record)

/-- Where the non-final segment `s` leads in the container `m`, read as the
walk reads it: without array index into the map at its key, with array index
into the map that is the element at the index of the array at its key. -/
def stepInto (s : Str) (m : Record) : Step :=
  match arrayContentMatch s with
  | .error _ => .blocked
  | .ok (key, idx) =>
    match mapGet m key with
    | none => .absent
    | some v =>
      if idx = -1 then
        match v with
        | .map m1 => .into m1
        | _ => .blocked
      else
        match v with
        | .arr xs =>
          if idx < 0 then .blocked
          else
            match xs.get? idx.toNat with
            | none => .absent
            | some (.map m1) => .into m1
            | some _ => .blocked
        | _ => .blocked

/-- The conflict of `Conflict`, for a container reached through any segments
`P`, with or without array index. -/
def PathConflict (wantArr : Bool) : List Str → Str → Record → Prop
  | [], k, m => Conflict wantArr [] k m
  | s :: P, k, m =>
    match stepInto s m with
    | .absent => False
    | .blocked => True
    | .into m1 => PathConflict wantArr P k m1

/-- What a successful walk leaves of where a segment leads: a blocked segment
stays blocked, and a segment that led into a map is blocked or leads into the
map a walk has made of that map. -/
def StepKept (field : Str) (st st' : Step) : Prop :=
  (st = .blocked → st' = .blocked) ∧
  (∀ m1, st = .into m1 →
    st' = .blocked ∨ ∃ rest m2, walk field rest m1 = .ok m2 ∧ st' = .into m2)

/-! ## Properties: `strconv.Atoi` -/

theorem digitVal_le (c : Char) (h : c.isDigit = true) : digitVal c ≤ 9 := by
  unfold Char.isDigit at h
  simp only [ge_iff_le, Bool.and_eq_true, decide_eq_true_eq] at h
  obtain ⟨h1, h2⟩ := h
  have h1' : (48 : Nat) ≤ c.val.toNat := h1
  have h2' : c.val.toNat ≤ 57 := h2
  unfold digitVal Char.toNat
  omega

theorem decFold_ge (ds : Str) : ∀ n, n ≤ decFold ds n := by
  induction ds with
  | nil => intro n; simp [decFold]
  | cons c cs ih =>
    intro n
    have := ih (n * 10 + digitVal c)
    simp only [decFold, List.foldl_cons] at this ⊢
    omega

theorem parseUintLoop_digits (ds : Str) (hd : ∀ c ∈ ds, c.isDigit = true) :
    ∀ n, n < 2 ^ 64 →
      parseUintLoop ds n =
        if decFold ds n < 2 ^ 64 then (decFold ds n, none) else (maxUint64, some .errRange) := by
  induction ds with
  | nil => intro n hn; simp only [parseUintLoop, decFold, List.foldl_nil, if_pos hn]
  | cons c cs ih =>
    intro n hn
    have hc : c.isDigit = true := hd c (List.mem_cons_self _ _)
    have hcs : ∀ x ∈ cs, x.isDigit = true := fun x hx => hd x (List.mem_cons_of_mem _ hx)
    have hdv := digitVal_le c hc
    have hge := decFold_ge cs (n * 10 + digitVal c)
    have hstep : decFold (c :: cs) n = decFold cs (n * 10 + digitVal c) := by
      simp [decFold]
    rw [hstep]
    simp only [parseUintLoop, hc, if_true, maxUint64]
    by_cases h1 : n ≥ (2 ^ 64 - 1) / 10 + 1
    · rw [if_pos h1, if_neg (by omega)]
    · rw [if_neg h1]
      by_cases h2 : n * 10 + digitVal c < 2 ^ 64
      · have hmod : (n * 10 + digitVal c) % 2 ^ 64 = n * 10 + digitVal c := Nat.mod_eq_of_lt h2
        simp only [hmod]
        rw [if_neg (by omega)]
        exact ih hcs _ h2
      · have hmod : (n * 10 + digitVal c) % 2 ^ 64 = n * 10 + digitVal c - 2 ^ 64 := by
          omega
        simp only [hmod]
        rw [if_pos (by omega), if_neg (by omega)]

theorem parseUintLoop_nondigit (ds : Str) (hd : ¬ ∀ c ∈ ds, c.isDigit = true) :
    ∀ n, parseUintLoop ds n = (0, some .errSyntax) ∨
      parseUintLoop ds n = (maxUint64, some .errRange) := by
  induction ds with
  | nil => exact absurd (fun c hc => by simp at hc) hd
  | cons c cs ih =>
    intro n
    by_cases hc : c.isDigit = true
    · have hcs : ¬ ∀ x ∈ cs, x.isDigit = true := by
        intro h
        apply hd
        intro x hx
        rcases List.mem_cons.1 hx with rfl | hx
        · exact hc
        · exact h x hx
      simp only [parseUintLoop, hc, if_true]
      split
      · exact Or.inr rfl
      · split
        · exact Or.inr rfl
        · exact ih hcs _
    · simp [parseUintLoop, hc]

theorem decFold_cons (c : Char) (cs : Str) (n : Nat) :
    decFold (c :: cs) n = decFold cs (n * 10 + digitVal c) := rfl

theorem decFold_lt (ds : Str) (hd : ∀ c ∈ ds, c.isDigit = true) :
    ∀ n, decFold ds n < (n + 1) * 10 ^ ds.length := by
  induction ds with
  | nil => intro n; simp [decFold]
  | cons c cs ih =>
    intro n
    have hdv := digitVal_le c (hd c (List.mem_cons_self _ _))
    have h := ih (fun x hx => hd x (List.mem_cons_of_mem _ hx)) (n * 10 + digitVal c)
    rw [decFold_cons, List.length_cons, pow_succ]
    calc decFold cs (n * 10 + digitVal c)
        < (n * 10 + digitVal c + 1) * 10 ^ cs.length := h
      _ ≤ ((n + 1) * 10) * 10 ^ cs.length := Nat.mul_le_mul_right _ (by omega)
      _ = (n + 1) * (10 ^ cs.length * 10) := by ring

theorem atoiFastLoop_eq (ds : Str) :
    ∀ n : Nat, atoiFastLoop ds (n : Int) =
      if ∀ c ∈ ds, c.isDigit = true then some ((decFold ds n : Nat) : Int) else none := by
  induction ds with
  | nil => intro n; simp [atoiFastLoop, decFold]
  | cons c cs ih =>
    intro n
    by_cases hc : c.isDigit = true
    · have h := ih (n * 10 + digitVal c)
      simp only [atoiFastLoop, hc, if_true, decFold_cons]
      push_cast at h
      rw [h]
      simp [hc]
    · simp [atoiFastLoop, hc]

theorem parseUint_digits (ds : Str) (h : isDigits ds) :
    parseUint ds =
      if decFold ds 0 < 2 ^ 64 then (decFold ds 0, none) else (maxUint64, some .errRange) := by
  unfold parseUint
  rw [if_neg h.1]
  exact parseUintLoop_digits ds h.2 0 (by norm_num)

theorem parseUint_nondigits (ds : Str) (h : ¬ isDigits ds) :
    parseUint ds = (0, some .errSyntax) ∨ parseUint ds = (maxUint64, some .errRange) := by
  unfold parseUint
  by_cases he : ds = []
  · simp [he]
  · rw [if_neg he]
    exact parseUintLoop_nondigit ds (fun hall => h ⟨he, hall⟩) 0

theorem rangeCheck_ok (neg : Prop) [Decidable neg] (u : Nat)
    (hr : u < 2 ^ 63 ∨ (neg ∧ u ≤ 2 ^ 63)) :
    (if ¬ neg ∧ u ≥ 2 ^ (64 - 1) then (((2 ^ (64 - 1) : Nat) : Int) - 1, some NumError.errRange)
    else
      if neg ∧ u > 2 ^ (64 - 1) then (-((2 ^ (64 - 1) : Nat) : Int), some NumError.errRange)
      else
        (if neg then wrapInt64 (-wrapInt64 (u : Int)) else wrapInt64 (u : Int), none)) =
    (if neg then -(u : Int) else (u : Int), none) := by
  have h63 : (2 : Nat) ^ (64 - 1) = 9223372036854775808 := by norm_num
  have h63' : (2 : Nat) ^ 63 = 9223372036854775808 := by norm_num
  rw [h63]
  rw [h63'] at hr
  by_cases hneg : neg
  · simp only [hneg, true_and] at hr
    simp only [hneg, not_true_eq_false, false_and, if_false, true_and, if_true]
    rw [if_neg (by omega)]
    refine Prod.ext ?_ rfl
    show wrapInt64 (-wrapInt64 (u : Int)) = -(u : Int)
    unfold wrapInt64
    omega
  · simp only [hneg, false_and, or_false] at hr
    simp only [hneg, not_false_eq_true, true_and, false_and, if_false]
    rw [if_neg (by omega)]
    refine Prod.ext ?_ rfl
    show wrapInt64 (u : Int) = (u : Int)
    unfold wrapInt64
    omega

theorem rangeCheck_fail (neg : Prop) [Decidable neg] (u : Nat)
    (hr : ¬ (u < 2 ^ 63 ∨ (neg ∧ u ≤ 2 ^ 63))) :
    IsParseFailure
    (if ¬ neg ∧ u ≥ 2 ^ (64 - 1) then (((2 ^ (64 - 1) : Nat) : Int) - 1, some NumError.errRange)
    else
      if neg ∧ u > 2 ^ (64 - 1) then (-((2 ^ (64 - 1) : Nat) : Int), some NumError.errRange)
      else
        (if neg then wrapInt64 (-wrapInt64 (u : Int)) else wrapInt64 (u : Int), none)) := by
  have h63 : (2 : Nat) ^ (64 - 1) = 9223372036854775808 := by norm_num
  have h63' : (2 : Nat) ^ 63 = 9223372036854775808 := by norm_num
  rw [h63]
  rw [h63'] at hr
  by_cases hneg : neg
  · simp only [hneg, true_and, not_or, not_lt, not_le] at hr
    simp only [hneg, not_true_eq_false, false_and, if_false, true_and]
    rw [if_pos (by omega)]
    exact ⟨.errRange, Or.inr (Or.inr (by norm_num))⟩
  · simp only [hneg, false_and, or_false, not_lt] at hr
    simp only [hneg, not_false_eq_true, true_and]
    rw [if_pos (by omega)]
    exact ⟨.errRange, Or.inr (Or.inl (by norm_num))⟩

/-- The range check of `ParseInt` on the unsigned value of `body`. -/
theorem parseInt_body (c : Char) (cs : Str) (body : Str)
    (hbody : (if c = '+' ∨ c = '-' then cs else c :: cs) = body) :
    (isDigits body → decFold body 0 < 2 ^ 63 ∨ (c = '-' ∧ decFold body 0 ≤ 2 ^ 63) →
      parseInt (c :: cs) = (if c = '-' then -(decFold body 0 : Int) else decFold body 0, none)) ∧
    (¬ (isDigits body ∧ (decFold body 0 < 2 ^ 63 ∨ (c = '-' ∧ decFold body 0 ≤ 2 ^ 63))) →
      IsParseFailure (parseInt (c :: cs))) := by
  constructor
  · intro hd hr
    have hu := parseUint_digits body hd
    have hlt : decFold body 0 < 2 ^ 64 := by omega
    rw [if_pos hlt] at hu
    simp only [parseInt, hbody, hu, intSize]
    exact rangeCheck_ok _ _ hr
  · intro hn
    by_cases hd : isDigits body
    · have hu := parseUint_digits body hd
      have hr : ¬ (decFold body 0 < 2 ^ 63 ∨ (c = '-' ∧ decFold body 0 ≤ 2 ^ 63)) :=
        fun h => hn ⟨hd, h⟩
      by_cases hlt : decFold body 0 < 2 ^ 64
      · rw [if_pos hlt] at hu
        simp only [parseInt, hbody, hu, intSize]
        exact rangeCheck_fail _ _ hr
      · rw [if_neg hlt] at hu
        simp only [parseInt, hbody, hu, intSize]
        exact rangeCheck_fail _ _ (by unfold maxUint64; omega)
    · rcases parseUint_nondigits body hd with hu | hu
      · simp only [parseInt, hbody, hu]
        exact ⟨.errSyntax, Or.inl rfl⟩
      · simp only [parseInt, hbody, hu, intSize]
        exact rangeCheck_fail _ _ (by unfold maxUint64; omega)

theorem signedDecimal?_cons (c : Char) (cs body : Str)
    (hbody : (if c = '+' ∨ c = '-' then cs else c :: cs) = body) :
    signedDecimal? (c :: cs) =
      if isDigits body ∧ (decFold body 0 < 2 ^ 63 ∨ (c = '-' ∧ decFold body 0 ≤ 2 ^ 63)) then
        some (if c = '-' then -(decFold body 0 : Int) else decFold body 0)
      else none := by
  subst hbody
  unfold signedDecimal?
  by_cases h1 : c = '-'
  · subst h1
    have : ∀ u : Nat, (u < 9223372036854775808 ∨ u ≤ 9223372036854775808) ↔
        u ≤ 9223372036854775808 := fun u => by omega
    simp [this]
  · by_cases h2 : c = '+'
    · subst h2
      simp
    · simp [h1, h2]

theorem decFold_lt_of_short (body : Str) (hd : isDigits body) (hlen : body.length < 19) :
    decFold body 0 < 2 ^ 63 := by
  have h := decFold_lt body hd.2 0
  have hp : 10 ^ body.length ≤ 10 ^ 18 := Nat.pow_le_pow_right (by norm_num) (by omega)
  calc decFold body 0 < (0 + 1) * 10 ^ body.length := h
    _ ≤ 10 ^ 18 := by simpa using hp
    _ ≤ 2 ^ 63 := by norm_num

/-- Specification of `strconv.Atoi`: success exactly on the signed decimal
literals of the 64-bit range, with their value. -/
theorem Atoi_spec (s : Str) :
    (∀ v, signedDecimal? s = some v → Atoi s = (v, none)) ∧
    (signedDecimal? s = none → IsParseFailure (Atoi s)) := by
  cases s with
  | nil =>
    refine ⟨fun v h => by simp [signedDecimal?] at h, fun _ => ⟨.errSyntax, Or.inl rfl⟩⟩
  | cons c cs =>
    obtain ⟨body, hbody⟩ : ∃ body, (if c = '+' ∨ c = '-' then cs else c :: cs) = body := ⟨_, rfl⟩
    have hsd := signedDecimal?_cons c cs body hbody
    have hpi := parseInt_body c cs body hbody
    by_cases hfast : 0 < (c :: cs).length ∧ (c :: cs).length < 19
    · -- fast path
      have hbody' : (if c = '-' ∨ c = '+' then cs else c :: cs) = body := by
        rw [← hbody]; simp only [or_comm]
      have hlen : body.length < 19 := by
        rw [← hbody]; split <;> simp only [List.length_cons] at hfast ⊢ <;> omega
      have hA : Atoi (c :: cs) =
          if isDigits body then (if c = '-' then -(decFold body 0 : Int) else decFold body 0, none)
          else (0, some .errSyntax) := by
        have hloop := atoiFastLoop_eq body 0
        simp only [Nat.cast_zero] at hloop
        simp only [Atoi, if_pos hfast, hbody', hloop]
        by_cases hne : body = []
        · simp [hne, isDigits]
        · have : ¬ body.length < 1 := by
            cases body with
            | nil => exact absurd rfl hne
            | cons _ _ => simp
          rw [if_neg this]
          by_cases hall : ∀ x ∈ body, x.isDigit = true
          · rw [if_pos hall, if_pos ⟨hne, hall⟩]
          · rw [if_neg hall, if_neg (fun h => hall h.2)]
      by_cases hd : isDigits body
      · have hlt := decFold_lt_of_short body hd hlen
        rw [if_pos ⟨hd, Or.inl hlt⟩] at hsd
        rw [if_pos hd] at hA
        refine ⟨fun v hv => ?_, fun hn => ?_⟩
        · rw [hsd] at hv
          rw [hA, ← Option.some.inj hv]
        · rw [hsd] at hn; exact absurd hn (by simp)
      · rw [if_neg (fun h => hd h.1)] at hsd
        rw [if_neg hd] at hA
        refine ⟨fun v hv => ?_, fun _ => ?_⟩
        · rw [hsd] at hv; exact absurd hv (by simp)
        · rw [hA]; exact ⟨.errSyntax, Or.inl rfl⟩
    · -- slow path
      have hA : Atoi (c :: cs) = parseInt (c :: cs) := by
        simp only [Atoi, if_neg hfast]
      rw [hA]
      by_cases hc : isDigits body ∧ (decFold body 0 < 2 ^ 63 ∨ (c = '-' ∧ decFold body 0 ≤ 2 ^ 63))
      · rw [if_pos hc] at hsd
        refine ⟨fun v hv => ?_, fun hn => ?_⟩
        · rw [hsd] at hv
          rw [hpi.1 hc.1 hc.2, ← Option.some.inj hv]
        · rw [hsd] at hn; exact absurd hn (by simp)
      · rw [if_neg hc] at hsd
        refine ⟨fun v hv => ?_, fun _ => hpi.2 hc⟩
        rw [hsd] at hv; exact absurd hv (by simp)

/-! ## Properties: the line loop -/

/-- The line loop converts each line on its own, from an empty record, and
appends the records in line order. -/
theorem convertLines_forall₂ (headers : List Str) (lines : List (List Str)) :
    ∀ (acc results : List Record), convertLines headers lines acc = .ok results →
      ∃ recs, results = acc ++ recs ∧
        List.Forall₂ (fun line r => fillLine headers line 0 [] = .ok r) lines recs := by
  induction lines with
  | nil =>
    intro acc results h
    simp only [convertLines, Except.ok.injEq] at h
    exact ⟨[], by simp [h], List.Forall₂.nil⟩
  | cons line lines ih =>
    intro acc results h
    simp only [convertLines] at h
    cases hl : fillLine headers line 0 [] with
    | error p => simp [hl] at h
    | ok r =>
      simp only [hl] at h
      obtain ⟨recs, hrecs, hall⟩ := ih _ _ h
      exact ⟨r :: recs, by simp [hrecs], List.Forall₂.cons hl hall⟩

theorem convertLines_of_forall₂ (headers : List Str) (lines : List (List Str)) :
    ∀ (acc recs : List Record),
      List.Forall₂ (fun line r => fillLine headers line 0 [] = .ok r) lines recs →
      convertLines headers lines acc = .ok (acc ++ recs) := by
  induction lines with
  | nil =>
    intro acc recs h
    cases h
    simp [convertLines]
  | cons line lines ih =>
    intro acc recs h
    cases h with
    | cons h1 h2 =>
      simp only [convertLines, h1]
      rw [ih _ _ h2]
      simp

theorem transformToMap_ok_iff (headers : List Str) (lines : List (List Str))
    (recs : List Record) (err : Option GoError) :
    transformToMap (headers :: lines) = .ok (recs, err) ↔
      err = none ∧ List.Forall₂ (fun line r => fillLine headers line 0 [] = .ok r) lines recs := by
  constructor
  · intro h
    simp only [transformToMap] at h
    cases hc : convertLines headers lines [] with
    | error p => simp [hc] at h
    | ok results =>
      simp only [hc, Except.ok.injEq, Prod.mk.injEq] at h
      obtain ⟨rs, hrs, hall⟩ := convertLines_forall₂ _ _ _ _ hc
      simp only [List.nil_append] at hrs
      subst hrs
      exact ⟨h.2.symm, h.1 ▸ hall⟩
  · rintro ⟨rfl, hall⟩
    simp [transformToMap, convertLines_of_forall₂ _ _ [] _ hall]

/-! ## Properties: strings and `arrayContentMatch` -/

theorem index_of_not_mem (s : Str) (c : Char) (h : c ∉ s) : index s c = -1 := by
  unfold index
  rw [List.indexOf_of_not_mem h]
  simp

theorem index_append_cons (s t : Str) (c : Char) (h : c ∉ s) :
    index (s ++ c :: t) c = (s.length : Int) := by
  unfold index
  rw [List.indexOf_append_of_not_mem h, List.indexOf_cons_self]
  simp

theorem split_of_not_mem (sep : Char) (s : Str) (h : sep ∉ s) : split sep s = [s] := by
  induction s with
  | nil => rfl
  | cons c cs ih =>
    have hc : c ≠ sep := fun e => h (e ▸ List.mem_cons_self _ _)
    have hcs : sep ∉ cs := fun e => h (List.mem_cons_of_mem _ e)
    simp [split, hc, ih hcs]

/-- A segment without `[` has no array marker. -/
theorem arrayContentMatch_no_open (s : Str) (h : '[' ∉ s) :
    arrayContentMatch s = .ok (s, -1) := by
  unfold arrayContentMatch
  simp [index_of_not_mem s _ h]

/-- A segment without `]` has no array marker. -/
theorem arrayContentMatch_no_close (s : Str) (h : ']' ∉ s) :
    arrayContentMatch s = .ok (s, -1) := by
  unfold arrayContentMatch
  simp only [index_of_not_mem s _ h]
  split <;> simp

/-- A segment `key[content]`: the key and whatever `Atoi` makes of the content. -/
theorem arrayContentMatch_bracketed (key content tail : Str)
    (h1 : '[' ∉ key) (h2 : ']' ∉ key) (h3 : ']' ∉ content) :
    arrayContentMatch (key ++ '[' :: (content ++ ']' :: tail)) = .ok (key, (Atoi content).1) := by
  have hi : index (key ++ '[' :: (content ++ ']' :: tail)) '[' = (key.length : Int) :=
    index_append_cons _ _ _ h1
  have hj : index (key ++ '[' :: (content ++ ']' :: tail)) ']' =
      ((key.length + 1 + content.length : Nat) : Int) := by
    have := index_append_cons (key ++ '[' :: content) tail ']' (by
      simp only [List.mem_append, List.mem_cons, not_or]
      exact ⟨h2, by decide, h3⟩)
    rw [List.append_assoc, List.cons_append] at this
    rw [this]
    simp only [List.length_append, List.length_cons]
    congr 1
    omega
  unfold arrayContentMatch
  simp only [hi, hj, Int.toNat_ofNat, slice]
  have hge1 : ((key.length : Nat) : Int) ≥ 0 := Int.natCast_nonneg _
  have hge2 : ((key.length + 1 + content.length : Nat) : Int) ≥ 0 := Int.natCast_nonneg _
  rw [if_pos hge1, if_pos hge2, if_pos (by omega)]
  have hdrop : List.drop (key.length + 1) (key ++ '[' :: (content ++ ']' :: tail)) =
      content ++ ']' :: tail := by
    rw [List.drop_append_eq_append_drop]
    simp
  have htake : List.take key.length (key ++ '[' :: (content ++ ']' :: tail)) = key := by
    simp
  simp only [hdrop, htake]
  have : key.length + 1 + content.length - (key.length + 1) = content.length := by omega
  rw [this]
  simp

/-! ## Properties: scalar coercion -/

theorem IsParseFailure.err_ne_none {r : Int × Option NumError} (h : IsParseFailure r) :
    r.2 ≠ none := by
  obtain ⟨e, h | h | h⟩ := h <;> simp [h]

theorem IsParseFailure.val_ne_neg_one {r : Int × Option NumError} (h : IsParseFailure r) :
    r.1 ≠ -1 := by
  obtain ⟨e, h | h | h⟩ := h <;> simp [h]

/-- The coercion the code inlines at both terminal writes (lines 151-166 and
175-185) applies the specified `coerce` to the field. -/
theorem inline_coercion {β : Type} (X : Value → β) (field : Str) :
    (if (Atoi field).2 = none then X (.int (Atoi field).1)
     else if field = "true".toList ∨ field = "false".toList then X (.bool (ParseBool field).1)
     else X (.str field)) = X (coerce field) := by
  unfold coerce
  cases hsd : signedDecimal? field with
  | some n =>
    have h := (Atoi_spec field).1 n hsd
    simp [h]
  | none =>
    have h := ((Atoi_spec field).2 hsd).err_ne_none
    rw [if_neg h]
    by_cases ht : field = "true".toList
    · subst ht; rfl
    · by_cases hf : field = "false".toList
      · subst hf; rfl
      · rw [if_neg (not_or.2 ⟨ht, hf⟩), if_neg ht, if_neg hf]

theorem coerce_eq_int_iff (field : Str) (n : Int) :
    coerce field = .int n ↔ signedDecimal? field = some n := by
  unfold coerce
  cases hsd : signedDecimal? field with
  | some m => simp
  | none =>
    simp only [reduceCtorEq, iff_false]
    split_ifs <;> simp

/-! ## Properties: single steps of the walk -/

/-- Terminal write at a segment without array marker (lines 174-186). -/
theorem walk_key_terminal (field val key : Str) (internal : Record)
    (h : arrayContentMatch val = .ok (key, -1)) :
    walk field [val] internal = .ok (mapSet internal key (coerce field)) := by
  simp only [walk, h, ne_eq, not_true_eq_false, if_false, if_true]
  exact inline_coercion (fun v => Except.ok (mapSet internal key v)) field

/-- Terminal write at a segment with array marker (lines 146-167): the coerced
field is appended, whatever the index. -/
theorem walk_arr_terminal (field val key : Str) (idx : Int) (internal : Record)
    (xs : List Value)
    (h : arrayContentMatch val = .ok (key, idx)) (hidx : idx ≠ -1)
    (hget : (mapGet internal key).getD (.arr []) = .arr xs) :
    walk field [val] internal = .ok (mapSet internal key (.arr (xs ++ [coerce field]))) := by
  simp only [walk, h, ne_eq, hidx, not_false_eq_true, if_true, hget]
  exact inline_coercion (fun v => Except.ok (mapSet internal key (.arr (xs ++ [v])))) field

/-- A one-column input: the record is what the walk of the header builds from
the empty record. -/
theorem transformToMap_single (header field : Str) (r : Record)
    (h : walk field (split '.' header) [] = .ok r) :
    transformToMap [[header], [field]] = .ok ([r], none) := by
  simp [transformToMap, convertLines, fillLine, h]

theorem transformToMap_plain_key (key field : Str) (hdot : '.' ∉ key)
    (h : arrayContentMatch key = .ok (key, -1)) :
    transformToMap [[key], [field]] = .ok ([[(key, coerce field)]], none) := by
  apply transformToMap_single
  rw [split_of_not_mem _ _ hdot, walk_key_terminal field key key [] h]
  rfl

theorem transformToMap_bracket_key (key content field : Str)
    (hdot : '.' ∉ key) (h1 : '[' ∉ key) (h2 : ']' ∉ key)
    (hcdot : '.' ∉ content) (hc : ']' ∉ content) (hidx : (Atoi content).1 ≠ -1) :
    transformToMap [[key ++ '[' :: (content ++ "]".toList)], [field]] =
      .ok ([[(key, .arr [coerce field])]], none) := by
  apply transformToMap_single
  have hsplit : split '.' (key ++ '[' :: (content ++ "]".toList)) =
      [key ++ '[' :: (content ++ "]".toList)] := by
    apply split_of_not_mem
    simp only [List.mem_append, List.mem_cons, not_or]
    refine ⟨hdot, by decide, hcdot, ?_⟩
    decide
  rw [hsplit]
  exact walk_arr_terminal field _ key (Atoi content).1 [] []
    (arrayContentMatch_bracketed key content [] h1 h2 hc) hidx rfl

/-! ## Properties: rendering -/

theorem digitChar_spec (d : Nat) (h : d < 10) :
    (digitChar d).isDigit = true ∧ digitVal (digitChar d) = d := by
  interval_cases d <;> exact ⟨rfl, rfl⟩

theorem decFold_append_single (xs : Str) (c : Char) (n : Nat) :
    decFold (xs ++ [c]) n = decFold xs n * 10 + digitVal c := by
  simp [decFold, List.foldl_append]

theorem renderNat_spec (n : Nat) :
    isDigits (renderNat n) ∧ decFold (renderNat n) 0 = n := by
  induction n using Nat.strong_induction_on with
  | _ n ih =>
    rw [renderNat]
    by_cases h : n < 10
    · rw [if_pos h]
      obtain ⟨h1, h2⟩ := digitChar_spec n h
      refine ⟨⟨by simp, ?_⟩, ?_⟩
      · intro c hc
        rw [List.mem_singleton.1 hc]; exact h1
      · simp [decFold, h2]
    · rw [if_neg h]
      obtain ⟨⟨_, hall⟩, hval⟩ := ih (n / 10) (by omega)
      obtain ⟨h1, h2⟩ := digitChar_spec (n % 10) (by omega)
      refine ⟨⟨by simp, ?_⟩, ?_⟩
      · intro c hc
        rcases List.mem_append.1 hc with hc | hc
        · exact hall c hc
        · rw [List.mem_singleton.1 hc]; exact h1
      · rw [decFold_append_single, hval, h2]
        omega

/-- A digit string does not start with a sign. -/
theorem signedDecimal?_digits (ds : Str) (h : isDigits ds) :
    signedDecimal? ds = if decFold ds 0 < 2 ^ 63 then some (decFold ds 0 : Int) else none := by
  cases ds with
  | nil => exact absurd rfl h.1
  | cons c cs =>
    have hc : c.isDigit = true := h.2 c (List.mem_cons_self _ _)
    have h1 : c ≠ '-' := by rintro rfl; exact absurd hc (by decide)
    have h2 : c ≠ '+' := by rintro rfl; exact absurd hc (by decide)
    simp only [signedDecimal?, h1, h2, if_false, h, true_and]

theorem signedDecimal?_render (v : Int) (h1 : -(2 ^ 63) ≤ v) (h2 : v < 2 ^ 63) :
    signedDecimal? (render (.int v)) = some v := by
  obtain ⟨hd, hval⟩ := renderNat_spec v.natAbs
  simp only [render]
  by_cases hneg : v < 0
  · rw [if_pos hneg]
    simp only [signedDecimal?, if_true, hd, true_and, hval]
    rw [if_pos (by omega)]
    congr 1
    omega
  · rw [if_neg hneg, signedDecimal?_digits _ hd, hval, if_pos (by omega)]
    congr 1
    omega

theorem signedDecimal?_range (s : Str) (v : Int) (h : signedDecimal? s = some v) :
    -(2 ^ 63) ≤ v ∧ v < 2 ^ 63 := by
  cases s with
  | nil => simp [signedDecimal?] at h
  | cons c cs =>
    simp only [signedDecimal?] at h
    split_ifs at h <;> simp only [Option.some.injEq, reduceCtorEq] at h <;> omega

/-- Coercion is idempotent through the textual form. -/
theorem coerce_render_coerce (x : Str) : coerce (render (coerce x)) = coerce x := by
  cases hsd : signedDecimal? x with
  | some v =>
    have hx : coerce x = .int v := (coerce_eq_int_iff x v).2 hsd
    obtain ⟨h1, h2⟩ := signedDecimal?_range x v hsd
    rw [hx]
    exact (coerce_eq_int_iff _ v).2 (signedDecimal?_render v h1 h2)
  | none =>
    by_cases ht : x = "true".toList
    · subst ht; rfl
    · by_cases hf : x = "false".toList
      · subst hf; rfl
      · have hx : coerce x = .str x := by
          unfold coerce
          rw [hsd]
          simp only [if_neg ht, if_neg hf]
        rw [hx]
        exact hx

/-! ## Properties: maps -/

theorem mapGet_mapSet_self (m : Record) (k : Str) (v : Value) :
    mapGet (mapSet m k v) k = some v := by
  induction m with
  | nil => simp [mapSet, mapGet]
  | cons kv m ih =>
    obtain ⟨k', w⟩ := kv
    by_cases h : k' = k
    · simp [mapSet, mapGet, h]
    · simp [mapSet, mapGet, h, ih]

theorem mapGet_mapSet_ne (m : Record) (k k' : Str) (v : Value) (hne : k ≠ k') :
    mapGet (mapSet m k v) k' = mapGet m k' := by
  induction m with
  | nil => simp [mapSet, mapGet, hne]
  | cons kv m ih =>
    obtain ⟨k0, w⟩ := kv
    by_cases h : k0 = k
    · subst h
      simp [mapSet, mapGet, hne]
    · by_cases h' : k0 = k'
      · subst h'
        simp [mapSet, mapGet, h]
      · simp [mapSet, mapGet, h, h', ih]

/-! ## Properties: walks along plain paths -/

theorem Plain.head {k : Str} {rest : List Str} (h : Plain (k :: rest)) :
    arrayContentMatch k = .ok (k, -1) := h k (List.mem_cons_self _ _)

theorem Plain.tail {k : Str} {rest : List Str} (h : Plain (k :: rest)) : Plain rest :=
  fun s hs => h s (List.mem_cons_of_mem _ hs)

/-- One step of the walk at a non-final segment without array marker (lines 187-190). -/
theorem walk_key_step (field k k2 : Str) (rest : List Str) (m : Record)
    (h : arrayContentMatch k = .ok (k, -1)) :
    walk field (k :: k2 :: rest) m =
      match (mapGet m k).getD (.map []) with
      | .map m1 =>
        match walk field (k2 :: rest) m1 with
        | .error p => .error p
        | .ok m2 => .ok (mapSet m k (.map m2))
      | _ => .error .interfaceConversion := by
  rw [walk]
  simp only [h, ne_eq, not_true_eq_false, if_false, reduceCtorEq]

theorem lookupPath_nil_record (q : List Str) : lookupPath [] q = none := by
  match q with
  | [] => rfl
  | [_] => rfl
  | _ :: _ :: _ => rfl

theorem Walkable_nil_record (q : List Str) : Walkable q [] := by
  match q with
  | [] => trivial
  | [_] => trivial
  | _ :: _ :: _ => simp [Walkable, mapGet]

theorem lookupPath_congr_head (m m' : Record) (k : Str) (rest : List Str)
    (h : mapGet m' k = mapGet m k) : lookupPath m' (k :: rest) = lookupPath m (k :: rest) := by
  cases rest with
  | nil => simpa [lookupPath] using h
  | cons k2 rest => simp only [lookupPath, h]

theorem Walkable_congr_head (m m' : Record) (k : Str) (rest : List Str)
    (h : mapGet m' k = mapGet m k) : Walkable (k :: rest) m' ↔ Walkable (k :: rest) m := by
  cases rest with
  | nil => simp [Walkable]
  | cons k2 rest => simp only [Walkable, h]

/-- A walkable plain path is written without a panic, and the coerced field is
found at the path afterwards. -/
theorem walk_plain_ok (field : Str) (p : List Str) :
    ∀ (m : Record), p ≠ [] → Plain p → Walkable p m →
      ∃ m', walk field p m = .ok m' ∧ lookupPath m' p = some (coerce field) := by
  induction p with
  | nil => intro m h; exact absurd rfl h
  | cons k rest ih =>
    intro m _ hp hw
    cases rest with
    | nil =>
      refine ⟨mapSet m k (coerce field), walk_key_terminal field k k m hp.head, ?_⟩
      simp [lookupPath, mapGet_mapSet_self]
    | cons k2 rest =>
      rw [walk_key_step field k k2 rest m hp.head]
      cases hg : mapGet m k with
      | none =>
        obtain ⟨m2, h2, hl⟩ := ih [] (by simp) hp.tail (Walkable_nil_record _)
        refine ⟨mapSet m k (.map m2), by simp [h2], ?_⟩
        simp [lookupPath, mapGet_mapSet_self, hl]
      | some v =>
        cases v with
        | map m1 =>
          have hw1 : Walkable (k2 :: rest) m1 := by simpa [Walkable, hg] using hw
          obtain ⟨m2, h2, hl⟩ := ih m1 (by simp) hp.tail hw1
          refine ⟨mapSet m k (.map m2), by simp [h2], ?_⟩
          simp [lookupPath, mapGet_mapSet_self, hl]
        | int n => simp [Walkable, hg] at hw
        | bool b => simp [Walkable, hg] at hw
        | str s => simp [Walkable, hg] at hw
        | arr xs => simp [Walkable, hg] at hw

/-- What a successful walk along a plain path `k :: k2 :: rest` returns. -/
theorem walk_key_step_ok (field k k2 : Str) (rest : List Str) (m m' : Record)
    (hk : arrayContentMatch k = .ok (k, -1))
    (h : walk field (k :: k2 :: rest) m = .ok m') :
    ∃ m1 m2, (mapGet m k = none ∧ m1 = [] ∨ mapGet m k = some (.map m1)) ∧
      walk field (k2 :: rest) m1 = .ok m2 ∧ m' = mapSet m k (.map m2) := by
  rw [walk_key_step field k k2 rest m hk] at h
  cases hg : mapGet m k with
  | none =>
    simp only [hg, Option.getD_none] at h
    cases h2 : walk field (k2 :: rest) [] with
    | error p => simp [h2] at h
    | ok m2 =>
      simp only [h2, Except.ok.injEq] at h
      exact ⟨[], m2, Or.inl ⟨rfl, rfl⟩, h2, h.symm⟩
  | some v =>
    cases v with
    | map m1 =>
      simp only [hg, Option.getD_some] at h
      cases h2 : walk field (k2 :: rest) m1 with
      | error p => simp [h2] at h
      | ok m2 =>
        simp only [h2, Except.ok.injEq] at h
        exact ⟨m1, m2, Or.inr rfl, h2, h.symm⟩
    | int n => simp [hg] at h
    | bool b => simp [hg] at h
    | str s => simp [hg] at h
    | arr xs => simp [hg] at h

/-- A walk along a plain path leaves every path alone that neither extends it
nor is extended by it. -/
theorem walk_plain_frame (field : Str) (p : List Str) :
    ∀ (m m' : Record) (q : List Str), Plain p → walk field p m = .ok m' →
      ¬ p <+: q → ¬ q <+: p → lookupPath m' q = lookupPath m q := by
  induction p with
  | nil => intro m m' q _ _ hpq; exact absurd List.nil_prefix hpq
  | cons k rest ih =>
    intro m m' q hp hw hpq hqp
    cases q with
    | nil => exact absurd List.nil_prefix hqp
    | cons k' qrest =>
      by_cases hk : k = k'
      · subst hk
        cases rest with
        | nil => exact absurd ((List.prefix_cons_inj k).2 List.nil_prefix) hpq
        | cons k2 rest =>
          cases qrest with
          | nil => exact absurd ((List.prefix_cons_inj k).2 List.nil_prefix) hqp
          | cons q2 qrest =>
            obtain ⟨m1, m2, hm1, h2, rfl⟩ := walk_key_step_ok field k k2 rest m m' hp.head hw
            have hpq' : ¬ (k2 :: rest) <+: (q2 :: qrest) :=
              fun h => hpq ((List.prefix_cons_inj k).2 h)
            have hqp' : ¬ (q2 :: qrest) <+: (k2 :: rest) :=
              fun h => hqp ((List.prefix_cons_inj k).2 h)
            have hih := ih m1 m2 (q2 :: qrest) hp.tail h2 hpq' hqp'
            simp only [lookupPath, mapGet_mapSet_self, hih]
            rcases hm1 with ⟨hg, rfl⟩ | hg
            · simp [hg, lookupPath_nil_record]
            · simp [hg]
      · have hget : mapGet m' k' = mapGet m k' := by
          cases rest with
          | nil =>
            rw [walk_key_terminal field k k m hp.head] at hw
            rw [← Except.ok.inj hw]
            exact mapGet_mapSet_ne _ _ _ _ hk
          | cons k2 rest =>
            obtain ⟨m1, m2, _, _, rfl⟩ := walk_key_step_ok field k k2 rest m m' hp.head hw
            exact mapGet_mapSet_ne _ _ _ _ hk
        exact lookupPath_congr_head m m' k' qrest hget

/-- A walk along a plain path keeps every path walkable that it is not a
prefix of. -/
theorem walk_plain_walkable (field : Str) (p : List Str) :
    ∀ (m m' : Record) (q : List Str), Plain p → walk field p m = .ok m' →
      ¬ p <+: q → Walkable q m → Walkable q m' := by
  induction p with
  | nil => intro m m' q _ _ hpq; exact absurd List.nil_prefix hpq
  | cons k rest ih =>
    intro m m' q hp hw hpq hq
    cases q with
    | nil => trivial
    | cons k' qrest =>
      by_cases hk : k = k'
      · subst hk
        cases rest with
        | nil => exact absurd ((List.prefix_cons_inj k).2 List.nil_prefix) hpq
        | cons k2 rest =>
          cases qrest with
          | nil => trivial
          | cons q2 qrest =>
            obtain ⟨m1, m2, hm1, h2, rfl⟩ := walk_key_step_ok field k k2 rest m m' hp.head hw
            have hpq' : ¬ (k2 :: rest) <+: (q2 :: qrest) :=
              fun h => hpq ((List.prefix_cons_inj k).2 h)
            have hq1 : Walkable (q2 :: qrest) m1 := by
              rcases hm1 with ⟨_, rfl⟩ | hg
              · exact Walkable_nil_record _
              · simpa [Walkable, hg] using hq
            have hih := ih m1 m2 (q2 :: qrest) hp.tail h2 hpq' hq1
            simpa [Walkable, mapGet_mapSet_self] using hih
      · have hget : mapGet m' k' = mapGet m k' := by
          cases rest with
          | nil =>
            rw [walk_key_terminal field k k m hp.head] at hw
            rw [← Except.ok.inj hw]
            exact mapGet_mapSet_ne _ _ _ _ hk
          | cons k2 rest =>
            obtain ⟨m1, m2, _, _, rfl⟩ := walk_key_step_ok field k k2 rest m m' hp.head hw
            exact mapGet_mapSet_ne _ _ _ _ hk
        exact (Walkable_congr_head m m' k' qrest hget).2 hq

/-! ## Properties: the field loop -/

theorem fillLine_shift (h : Str) (hs : List Str) (fs : List Str) :
    ∀ (i : Nat) (r : Record), fillLine (h :: hs) fs (i + 1) r = fillLine hs fs i r := by
  induction fs with
  | nil => intro i r; rfl
  | cons f fs ih =>
    intro i r
    simp only [fillLine, List.get?_cons_succ]
    cases hs.get? i with
    | none => rfl
    | some header =>
      simp only
      cases walk f (split '.' header) r with
      | error p => rfl
      | ok r1 => exact ih (i + 1) r1

theorem fillLine_cons_cons (h f : Str) (hs fs : List Str) (r : Record) :
    fillLine (h :: hs) (f :: fs) 0 r =
      match walk f (split '.' h) r with
      | .error p => .error p
      | .ok r1 => fillLine hs fs 0 r1 := by
  simp only [fillLine, List.get?_cons_zero]
  cases walk f (split '.' h) r with
  | error p => rfl
  | ok r1 => exact fillLine_shift h hs fs 0 r1

/-- A line no longer than the header row is converted as if the header row
ended with the line. -/
theorem fillLine_take (hs : List Str) :
    ∀ (fs : List Str) (r : Record), fs.length ≤ hs.length →
      fillLine hs fs 0 r = fillLine (hs.take fs.length) fs 0 r := by
  induction hs with
  | nil =>
    intro fs r h
    cases fs with
    | nil => rfl
    | cons f fs => simp at h
  | cons h hs ih =>
    intro fs r hlen
    cases fs with
    | nil => rfl
    | cons f fs =>
      simp only [List.length_cons, List.take_succ_cons, fillLine_cons_cons]
      cases walk f (split '.' h) r with
      | error p => rfl
      | ok r1 => exact ih fs r1 (by simpa using hlen)

/-- A line longer than the header row makes the field loop panic. -/
theorem fillLine_long (hs : List Str) :
    ∀ (fs : List Str) (r : Record), hs.length < fs.length →
      ∃ p, fillLine hs fs 0 r = .error p := by
  induction hs with
  | nil =>
    intro fs r h
    cases fs with
    | nil => simp at h
    | cons f fs => exact ⟨.indexOutOfRange, rfl⟩
  | cons h hs ih =>
    intro fs r hlen
    cases fs with
    | nil => simp at hlen
    | cons f fs =>
      rw [fillLine_cons_cons]
      cases walk f (split '.' h) r with
      | error p => exact ⟨p, rfl⟩
      | ok r1 => exact ih fs r1 (by simpa using hlen)

theorem split_ne_nil (sep : Char) (s : Str) : split sep s ≠ [] := by
  cases s with
  | nil => simp [split]
  | cons c cs =>
    simp only [split]
    split_ifs
    · simp
    · split <;> simp

theorem mem_of_mem_split (sep : Char) (s : Str) :
    ∀ seg ∈ split sep s, ∀ c ∈ seg, c ∈ s := by
  induction s with
  | nil =>
    intro seg hseg c hc
    simp only [split, List.mem_singleton] at hseg
    subst hseg
    exact hc
  | cons x xs ih =>
    intro seg hseg c hc
    simp only [split] at hseg
    split_ifs at hseg with hx
    · rcases List.mem_cons.1 hseg with rfl | hseg
      · simp at hc
      · exact List.mem_cons_of_mem _ (ih seg hseg c hc)
    · cases hsp : split sep xs with
      | nil => exact absurd hsp (split_ne_nil sep xs)
      | cons seg0 rest =>
        rw [hsp] at hseg ih
        rcases List.mem_cons.1 hseg with rfl | hseg
        · rcases List.mem_cons.1 hc with rfl | hc
          · exact List.mem_cons_self _ _
          · exact List.mem_cons_of_mem _ (ih seg0 (List.mem_cons_self _ _) c hc)
        · exact List.mem_cons_of_mem _ (ih seg (List.mem_cons_of_mem _ hseg) c hc)

/-- The segments of a header without `[` carry no array marker. -/
theorem plain_split (h : Str) (hfree : '[' ∉ h) : Plain (split '.' h) :=
  fun seg hseg =>
    arrayContentMatch_no_open seg (fun hc => hfree (mem_of_mem_split '.' h seg hseg _ hc))

/-- Bracket-free headers with prefix-free paths: the field loop succeeds from
any record in which all the paths are walkable, each column is read back at
its path, and unrelated paths keep their value. -/
theorem fillLine_plain (hs : List Str) :
    ∀ (fs : List Str) (r : Record), fs.length ≤ hs.length →
      (∀ h ∈ hs, '[' ∉ h) → PrefixFree (hs.map (split '.')) →
      (∀ h ∈ hs, Walkable (split '.' h) r) →
      ∃ r', fillLine hs fs 0 r = .ok r' ∧
        (∀ i (hi : i < hs.length) (hf : i < fs.length),
          lookupPath r' (split '.' (hs.get ⟨i, hi⟩)) = some (coerce (fs.get ⟨i, hf⟩))) ∧
        (∀ q, (∀ h ∈ hs, ¬ split '.' h <+: q ∧ ¬ q <+: split '.' h) →
          lookupPath r' q = lookupPath r q) := by
  induction hs with
  | nil =>
    intro fs r hlen _ _ _
    cases fs with
    | nil => exact ⟨r, rfl, fun i hi => absurd hi (by simp), fun q _ => rfl⟩
    | cons f fs => simp at hlen
  | cons h hs ih =>
    intro fs r hlen hfree hpf hwalk
    cases fs with
    | nil => exact ⟨r, rfl, fun i _ hf => absurd hf (by simp), fun q _ => rfl⟩
    | cons f fs =>
      have hplain := plain_split h (hfree h (List.mem_cons_self _ _))
      obtain ⟨r1, hw1, hl1⟩ := walk_plain_ok f (split '.' h) r (split_ne_nil _ _) hplain
        (hwalk h (List.mem_cons_self _ _))
      simp only [List.map_cons, PrefixFree, List.pairwise_cons] at hpf
      obtain ⟨hhead, hrest⟩ := hpf
      have hhead' : ∀ h' ∈ hs, ¬ split '.' h <+: split '.' h' ∧ ¬ split '.' h' <+: split '.' h :=
        fun h' hh' => hhead _ (List.mem_map_of_mem _ hh')
      have hwalk1 : ∀ h' ∈ hs, Walkable (split '.' h') r1 := fun h' hh' =>
        walk_plain_walkable f (split '.' h) r r1 _ hplain hw1 (hhead' h' hh').1
          (hwalk h' (List.mem_cons_of_mem _ hh'))
      obtain ⟨r', hfill, hread, hframe⟩ := ih fs r1 (by simpa using hlen)
        (fun h' hh' => hfree h' (List.mem_cons_of_mem _ hh')) hrest hwalk1
      refine ⟨r', ?_, ?_, ?_⟩
      · rw [fillLine_cons_cons, hw1]
        exact hfill
      · intro i hi hf
        cases i with
        | zero =>
          show lookupPath r' (split '.' h) = some (coerce f)
          rw [hframe (split '.' h) (fun h' hh' => ⟨(hhead' h' hh').2, (hhead' h' hh').1⟩)]
          exact hl1
        | succ i =>
          exact hread i (by simpa using hi) (by simpa using hf)
      · intro q hq
        rw [hframe q (fun h' hh' => hq h' (List.mem_cons_of_mem _ hh'))]
        exact walk_plain_frame f (split '.' h) r r1 q hplain hw1
          (hq h (List.mem_cons_self _ _)).1 (hq h (List.mem_cons_self _ _)).2

/-! ## Properties: path-type conflicts -/

/-- One step of the walk at a non-final plain segment, the rest given as a
non-empty list. -/
theorem walk_key_step_of_ne_nil (field k : Str) (rest : List Str) (m : Record)
    (h : arrayContentMatch k = .ok (k, -1)) (hrest : rest ≠ []) :
    walk field (k :: rest) m =
      match (mapGet m k).getD (.map []) with
      | .map m1 =>
        match walk field rest m1 with
        | .error p => .error p
        | .ok m2 => .ok (mapSet m k (.map m2))
      | _ => .error .interfaceConversion := by
  cases rest with
  | nil => exact absurd rfl hrest
  | cons k2 rest => exact walk_key_step field k k2 rest m h

/-- What a successful walk returns when its first segment is plain and not the
last one. -/
theorem walk_key_ok_of_ne_nil (field k : Str) (rest : List Str) (m m' : Record)
    (hk : arrayContentMatch k = .ok (k, -1)) (hrest : rest ≠ [])
    (h : walk field (k :: rest) m = .ok m') :
    ∃ m1 m2, (mapGet m k = none ∧ m1 = [] ∨ mapGet m k = some (.map m1)) ∧
      walk field rest m1 = .ok m2 ∧ m' = mapSet m k (.map m2) := by
  cases rest with
  | nil => exact absurd rfl hrest
  | cons k2 rest => exact walk_key_step_ok field k k2 rest m m' hk h

/-- What a successful walk returns when its first segment carries an array
marker: the key held no value or an array, and holds an array afterwards. -/
theorem walk_arr_ok (field val key : Str) (idx : Int) (rest : List Str) (m m' : Record)
    (hv : arrayContentMatch val = .ok (key, idx)) (hidx : idx ≠ -1)
    (h : walk field (val :: rest) m = .ok m') :
    ∃ xs, m' = mapSet m key (.arr xs) ∧
      (mapGet m key = none ∨ ∃ ys, mapGet m key = some (.arr ys)) := by
  rw [walk] at h
  simp only [hv, ne_eq, hidx, not_false_eq_true, if_true] at h
  have hpre : (mapGet m key = none ∨ ∃ ys, mapGet m key = some (.arr ys)) ∨
      ∃ v, mapGet m key = some v ∧ ∀ ys, v ≠ .arr ys := by
    cases hg : mapGet m key with
    | none => exact Or.inl (Or.inl rfl)
    | some v =>
      cases v with
      | arr ys => exact Or.inl (Or.inr ⟨ys, rfl⟩)
      | int n => exact Or.inr ⟨_, rfl, fun ys => by simp⟩
      | bool b => exact Or.inr ⟨_, rfl, fun ys => by simp⟩
      | str s => exact Or.inr ⟨_, rfl, fun ys => by simp⟩
      | map m1 => exact Or.inr ⟨_, rfl, fun ys => by simp⟩
  rcases hpre with hpre | ⟨v, hg, hv'⟩
  · suffices hx : ∃ xs, m' = mapSet m key (.arr xs) by
      obtain ⟨xs, hx⟩ := hx
      refine ⟨xs, ?_, ?_⟩
      · exact hx
      · exact hpre
    have harr : ∃ ys, (mapGet m key).getD (.arr []) = .arr ys := by
      rcases hpre with hg | ⟨ys, hg⟩
      · exact ⟨[], by simp [hg]⟩
      · exact ⟨ys, by simp [hg]⟩
    obtain ⟨ys, hys⟩ := harr
    simp only [hys] at h
    by_cases hrest : rest = []
    · simp only [hrest, if_true] at h
      split_ifs at h <;> exact ⟨_, (Except.ok.inj h).symm⟩
    · simp only [hrest, if_false] at h
      generalize (if idx ≥ (ys.length : Int) then ys ++ [Value.map []] else ys) = arr2 at h
      split_ifs at h
      split at h
      · split at h
        · cases h
        · exact ⟨_, (Except.ok.inj h).symm⟩
      · cases h
  · exfalso
    simp only [hg, Option.getD_some] at h
    cases v with
    | arr ys => exact hv' ys rfl
    | int n => simp at h
    | bool b => simp at h
    | str s => simp at h
    | map m1 => simp at h

/-- A coerced field is a scalar. -/
theorem coerce_scalar (field : Str) :
    (∃ n, coerce field = .int n) ∨ (∃ b, coerce field = .bool b) ∨
      (∃ s, coerce field = .str s) := by
  unfold coerce
  split
  · exact Or.inl ⟨_, rfl⟩
  · split_ifs
    · exact Or.inr (Or.inl ⟨_, rfl⟩)
    · exact Or.inr (Or.inl ⟨_, rfl⟩)
    · exact Or.inr (Or.inr ⟨_, rfl⟩)

/-- The value a key holds after a successful walk that starts at this key: an
array that replaces nothing or an array, a scalar, or a map that replaces
nothing or a map and is the result of the remaining walk inside it. -/
theorem walk_ok_cases (field val : Str) (rest : List Str) (m m' : Record)
    (h : walk field (val :: rest) m = .ok m') :
    ∃ key v, m' = mapSet m key v ∧
      ((∃ xs, v = .arr xs ∧ (mapGet m key = none ∨ ∃ ys, mapGet m key = some (.arr ys))) ∨
       ((∃ n, v = .int n) ∨ (∃ b, v = .bool b) ∨ (∃ s, v = .str s)) ∨
       (∃ m1 m2, v = .map m2 ∧ (mapGet m key = none ∧ m1 = [] ∨ mapGet m key = some (.map m1)) ∧
          walk field rest m1 = .ok m2)) := by
  cases hv : arrayContentMatch val with
  | error p => rw [walk] at h; simp [hv] at h
  | ok res =>
    obtain ⟨key, idx⟩ := res
    by_cases hidx : idx = -1
    · subst hidx
      by_cases hrest : rest = []
      · subst hrest
        rw [walk_key_terminal field val key m hv] at h
        exact ⟨key, coerce field, (Except.ok.inj h).symm, Or.inr (Or.inl (coerce_scalar field))⟩
      · rw [walk] at h
        simp only [hv, ne_eq, not_true_eq_false, if_false, hrest] at h
        cases hg : mapGet m key with
        | none =>
          simp only [hg, Option.getD_none] at h
          cases h2 : walk field rest [] with
          | error p => simp [h2] at h
          | ok m2 =>
            simp only [h2, Except.ok.injEq] at h
            exact ⟨key, .map m2, h.symm, Or.inr (Or.inr ⟨[], m2, rfl, Or.inl ⟨hg, rfl⟩, h2⟩)⟩
        | some v =>
          cases v with
          | map m1 =>
            simp only [hg, Option.getD_some] at h
            cases h2 : walk field rest m1 with
            | error p => simp [h2] at h
            | ok m2 =>
              simp only [h2, Except.ok.injEq] at h
              exact ⟨key, .map m2, h.symm, Or.inr (Or.inr ⟨m1, m2, rfl, Or.inr hg, h2⟩)⟩
          | int n => simp [hg] at h
          | bool b => simp [hg] at h
          | str s => simp [hg] at h
          | arr xs => simp [hg] at h
    · obtain ⟨xs, hx, hpre⟩ := walk_arr_ok field val key idx rest m m' hv hidx h
      exact ⟨key, .arr xs, hx, Or.inl ⟨xs, rfl, hpre⟩⟩

/-- No successful walk removes a conflict. -/
theorem walk_preserves_conflict (b : Bool) (field : Str) (P : List Str) (k : Str) :
    ∀ (segs : List Str) (m m' : Record), walk field segs m = .ok m' →
      Conflict b P k m → Conflict b P k m' := by
  induction P with
  | nil =>
    intro segs m m' h hc
    cases segs with
    | nil => rw [walk] at h; rw [← Except.ok.inj h]; exact hc
    | cons val rest =>
      obtain ⟨key, v, rfl, hcases⟩ := walk_ok_cases field val rest m m' h
      by_cases hk : key = k
      · subst hk
        simp only [Conflict, mapGet_mapSet_self]
        simp only [Conflict] at hc
        rcases hcases with ⟨xs, rfl, hg | ⟨ys, hg⟩⟩ | ⟨⟨n, rfl⟩ | ⟨b', rfl⟩ | ⟨s, rfl⟩⟩ |
          ⟨m1, m2, rfl, ⟨hg, _⟩ | hg, _⟩
        · simp [hg] at hc
        · simpa [hg] using hc
        · trivial
        · trivial
        · trivial
        · simp [hg] at hc
        · simpa [hg] using hc
      · simp only [Conflict, mapGet_mapSet_ne _ _ _ _ hk]
        exact hc
  | cons p P ih =>
    intro segs m m' h hc
    cases segs with
    | nil => rw [walk] at h; rw [← Except.ok.inj h]; exact hc
    | cons val rest =>
      obtain ⟨key, v, rfl, hcases⟩ := walk_ok_cases field val rest m m' h
      by_cases hk : key = p
      · subst hk
        simp only [Conflict, mapGet_mapSet_self]
        simp only [Conflict] at hc
        rcases hcases with ⟨xs, rfl, hg | ⟨ys, hg⟩⟩ | ⟨⟨n, rfl⟩ | ⟨b', rfl⟩ | ⟨s, rfl⟩⟩ |
          ⟨m1, m2, rfl, ⟨hg, _⟩ | hg, h2⟩
        · trivial
        · trivial
        · trivial
        · trivial
        · trivial
        · simp [hg] at hc
        · simp only [hg] at hc
          exact ih rest m1 m2 h2 hc
      · simp only [Conflict, mapGet_mapSet_ne _ _ _ _ hk]
        exact hc

/-- After a successful walk through the plain keys `P` and an array segment
with key `k`, the key `k` below `P` holds an array: a walk that wants a map
there is in conflict. -/
theorem walk_array_makes_conflict (field : Str) (P : List Str) (seg k : Str) (idx : Int)
    (tail : List Str) (hseg : arrayContentMatch seg = .ok (k, idx)) (hidx : idx ≠ -1) :
    ∀ (m m' : Record), Plain P → walk field (P ++ seg :: tail) m = .ok m' →
      Conflict false P k m' := by
  induction P with
  | nil =>
    intro m m' _ h
    obtain ⟨xs, rfl, _⟩ := walk_arr_ok field seg k idx tail m m' hseg hidx h
    simp [Conflict, mapGet_mapSet_self]
  | cons p P ih =>
    intro m m' hP h
    obtain ⟨m1, m2, _, h2, rfl⟩ := walk_key_ok_of_ne_nil field p (P ++ seg :: tail) m m'
      hP.head (by simp) h
    simp only [Conflict, mapGet_mapSet_self]
    exact ih m1 m2 hP.tail h2

/-- After a successful walk through the plain keys `P` and the plain non-final
key `k`, the key `k` below `P` holds a map: a walk that wants an array there is
in conflict. -/
theorem walk_map_makes_conflict (field : Str) (P : List Str) (k : Str)
    (tail : List Str) (hk : arrayContentMatch k = .ok (k, -1)) (htail : tail ≠ []) :
    ∀ (m m' : Record), Plain P → walk field (P ++ k :: tail) m = .ok m' →
      Conflict true P k m' := by
  induction P with
  | nil =>
    intro m m' _ h
    obtain ⟨m1, m2, _, _, rfl⟩ := walk_key_ok_of_ne_nil field k tail m m' hk htail h
    simp [Conflict, mapGet_mapSet_self]
  | cons p P ih =>
    intro m m' hP h
    obtain ⟨m1, m2, _, h2, rfl⟩ := walk_key_ok_of_ne_nil field p (P ++ k :: tail) m m'
      hP.head (by simp) h
    simp only [Conflict, mapGet_mapSet_self]
    exact ih m1 m2 hP.tail h2

/-- A walk that wants a map at a key in conflict fails its type assertion
(line 190). -/
theorem walk_map_hits_conflict (field : Str) (P : List Str) (k : Str)
    (tail : List Str) (hk : arrayContentMatch k = .ok (k, -1)) (htail : tail ≠ []) :
    ∀ (m : Record), Plain P → Conflict false P k m →
      walk field (P ++ k :: tail) m = .error .interfaceConversion := by
  induction P with
  | nil =>
    intro m _ hc
    rw [List.nil_append, walk_key_step_of_ne_nil field k tail m hk htail]
    simp only [Conflict] at hc
    cases hg : mapGet m k with
    | none => simp [hg] at hc
    | some v =>
      cases v with
      | map m1 => simp [hg] at hc
      | int n => rfl
      | bool b => rfl
      | str s => rfl
      | arr xs => rfl
  | cons p P ih =>
    intro m hP hc
    rw [List.cons_append, walk_key_step_of_ne_nil field p (P ++ k :: tail) m hP.head (by simp)]
    simp only [Conflict] at hc
    cases hg : mapGet m p with
    | none => simp [hg] at hc
    | some v =>
      cases v with
      | map m1 =>
        simp only [hg] at hc
        simp only [Option.getD_some, ih m1 hP.tail hc]
      | int n => rfl
      | bool b => rfl
      | str s => rfl
      | arr xs => rfl

/-- A walk that wants an array at a key in conflict fails its type assertion
(line 149). -/
theorem walk_array_hits_conflict (field : Str) (P : List Str) (seg k : Str) (idx : Int)
    (tail : List Str) (hseg : arrayContentMatch seg = .ok (k, idx)) (hidx : idx ≠ -1) :
    ∀ (m : Record), Plain P → Conflict true P k m →
      walk field (P ++ seg :: tail) m = .error .interfaceConversion := by
  induction P with
  | nil =>
    intro m _ hc
    rw [List.nil_append, walk]
    simp only [hseg, ne_eq, hidx, not_false_eq_true, if_true]
    simp only [Conflict] at hc
    cases hg : mapGet m k with
    | none => simp [hg] at hc
    | some v =>
      cases v with
      | arr xs => simp [hg] at hc
      | int n => rfl
      | bool b => rfl
      | str s => rfl
      | map m1 => rfl
  | cons p P ih =>
    intro m hP hc
    rw [List.cons_append, walk_key_step_of_ne_nil field p (P ++ seg :: tail) m hP.head (by simp)]
    simp only [Conflict] at hc
    cases hg : mapGet m p with
    | none => simp [hg] at hc
    | some v =>
      cases v with
      | map m1 =>
        simp only [hg] at hc
        simp only [Option.getD_some, ih m1 hP.tail hc]
      | int n => rfl
      | bool b => rfl
      | str s => rfl
      | arr xs => rfl

/-- A line on which the field loop panics makes the whole line loop panic. -/
theorem convertLines_error_of_mem (headers : List Str) (lines : List (List Str)) :
    ∀ (acc : List Record) (line : List Str), line ∈ lines →
      (∃ p, fillLine headers line 0 [] = .error p) →
      ∃ p, convertLines headers lines acc = .error p := by
  induction lines with
  | nil => intro acc line h; simp at h
  | cons l lines ih =>
    intro acc line hmem hfail
    simp only [convertLines]
    cases hl : fillLine headers l 0 [] with
    | error p => exact ⟨p, rfl⟩
    | ok r =>
      rcases List.mem_cons.1 hmem with rfl | hmem
      · obtain ⟨p, hp⟩ := hfail
        rw [hl] at hp
        cases hp
      · exact ih _ line hmem hfail

theorem transformToMap_error_of_mem (headers : List Str) (lines : List (List Str))
    (line : List Str) (hmem : line ∈ lines)
    (hfail : ∃ p, fillLine headers line 0 [] = .error p) :
    ∃ p, transformToMap (headers :: lines) = .error p := by
  obtain ⟨p, hp⟩ := convertLines_error_of_mem headers lines [] line hmem hfail
  exact ⟨p, by simp [transformToMap, hp]⟩

/-! ## Properties: well-formed bracketed segments -/

theorem Atoi_renderNat (n : Nat) (h : n < 2 ^ 63) : Atoi (renderNat n) = ((n : Int), none) := by
  obtain ⟨hd, hval⟩ := renderNat_spec n
  apply (Atoi_spec (renderNat n)).1
  rw [signedDecimal?_digits _ hd, hval, if_pos h]

/-- The index read from canonical digits is never the no-index value. -/
theorem Atoi_renderNat_ne (n : Nat) : (Atoi (renderNat n)).1 ≠ -1 := by
  obtain ⟨hd, hval⟩ := renderNat_spec n
  cases hsd : signedDecimal? (renderNat n) with
  | none => exact ((Atoi_spec _).2 hsd).val_ne_neg_one
  | some v =>
    rw [(Atoi_spec _).1 v hsd]
    rw [signedDecimal?_digits _ hd] at hsd
    split_ifs at hsd
    simp only [Option.some.injEq] at hsd
    show v ≠ -1
    omega

theorem not_mem_of_isDigits (ds : Str) (c : Char) (hd : isDigits ds) (hc : c.isDigit = false) :
    c ∉ ds := by
  intro hmem
  rw [hd.2 c hmem] at hc
  exact absurd hc (by simp)

theorem split_append_dot (s t : Str) (h : '.' ∉ s) :
    split '.' (s ++ '.' :: t) = s :: split '.' t := by
  induction s with
  | nil => simp [split]
  | cons c cs ih =>
    have hc : c ≠ '.' := fun e => h (e ▸ List.mem_cons_self _ _)
    have hcs : '.' ∉ cs := fun e => h (List.mem_cons_of_mem _ e)
    simp [split, hc, ih hcs]

/-- A segment `key[digits of n]` parses to the key and an index other than -1,
which is `n` when `n` fits the 64-bit `int`. -/
theorem arrayContentMatch_index (key : Str) (n : Nat) (h1 : '[' ∉ key) (h2 : ']' ∉ key) :
    arrayContentMatch (key ++ '[' :: (renderNat n ++ "]".toList)) =
      .ok (key, (Atoi (renderNat n)).1) :=
  arrayContentMatch_bracketed key (renderNat n) [] h1 h2
    (not_mem_of_isDigits _ _ (renderNat_spec n).1 (by decide))

/-! ## Properties: steps of the walk at array segments -/

/-- One step of the walk at a non-final segment with array marker (lines
146-149 and 168-172), the key holding the array `xs` or nothing (`xs = []`). -/
theorem walk_arr_step (field val key : Str) (idx : Int) (rest : List Str) (m : Record)
    (xs : List Value)
    (hv : arrayContentMatch val = .ok (key, idx)) (hidx : idx ≠ -1) (hrest : rest ≠ [])
    (hget : (mapGet m key).getD (.arr []) = .arr xs) :
    walk field (val :: rest) m =
      if idx < 0 ∨ idx ≥ ((if idx ≥ xs.length then xs ++ [.map []] else xs).length : Int) then
        .error .indexOutOfRange
      else
        match (if idx ≥ xs.length then xs ++ [.map []] else xs).get? idx.toNat with
        | some (.map m1) =>
          match walk field rest m1 with
          | .error p => .error p
          | .ok m2 =>
            .ok (mapSet m key (.arr
              ((if idx ≥ xs.length then xs ++ [.map []] else xs).set idx.toNat (.map m2))))
        | _ => .error .interfaceConversion := by
  rw [walk]
  simp only [hv, ne_eq, hidx, not_false_eq_true, if_true, hget, hrest, if_false]

/-! ## Properties: rows that fill one array -/

theorem mapSet_append_of_not_mem (m : Record) (k : Str) (v : Value)
    (h : k ∉ m.map Prod.fst) : mapSet m k v = m ++ [(k, v)] := by
  induction m with
  | nil => rfl
  | cons kv m ih =>
    obtain ⟨k0, w⟩ := kv
    simp only [List.map_cons, List.mem_cons, not_or] at h
    simp only [mapSet, if_neg (Ne.symm h.1), ih h.2, List.cons_append]

/-- The header `a[n]`, written with the canonical digits of `n`. -/
theorem split_indexed (a : Str) (n : Nat) (hdot : '.' ∉ a) :
    split '.' (a ++ '[' :: (renderNat n ++ "]".toList)) =
      [a ++ '[' :: (renderNat n ++ "]".toList)] := by
  apply split_of_not_mem
  simp only [List.mem_append, List.mem_cons, not_or]
  exact ⟨hdot, by decide, not_mem_of_isDigits _ _ (renderNat_spec n).1 (by decide), by decide⟩

/-- A column with header `a[n]` appends its coerced field to the array at `a`,
whatever `n` is. -/
theorem walk_indexed_append (a field : Str) (n : Nat) (xs : List Value) (r : Record)
    (hdot : '.' ∉ a) (hopen : '[' ∉ a) (hclose : ']' ∉ a)
    (hr : r = [] ∧ xs = [] ∨ r = [(a, .arr xs)]) :
    walk field (split '.' (a ++ '[' :: (renderNat n ++ "]".toList))) r =
      .ok [(a, .arr (xs ++ [coerce field]))] := by
  rw [split_indexed a n hdot]
  rcases hr with ⟨rfl, rfl⟩ | rfl
  · rw [walk_arr_terminal field _ a _ [] [] (arrayContentMatch_index a n hopen hclose)
      (Atoi_renderNat_ne n) rfl]
    rfl
  · rw [walk_arr_terminal field _ a _ [(a, .arr xs)] xs (arrayContentMatch_index a n hopen hclose)
      (Atoi_renderNat_ne n) (by simp [mapGet])]
    simp [mapSet]

theorem fillLine_indexed (a : Str) (hdot : '.' ∉ a) (hopen : '[' ∉ a) (hclose : ']' ∉ a)
    (cols : List (Nat × Str)) :
    ∀ (xs : List Value) (r : Record), (r = [] ∧ xs = [] ∨ r = [(a, .arr xs)]) → cols ≠ [] →
      fillLine (cols.map fun c => a ++ '[' :: (renderNat c.1 ++ "]".toList))
        (cols.map Prod.snd) 0 r =
        .ok [(a, .arr (xs ++ cols.map fun c => coerce c.2))] := by
  induction cols with
  | nil => intro xs r _ h; exact absurd rfl h
  | cons c cols ih =>
    intro xs r hr _
    simp only [List.map_cons, fillLine_cons_cons,
      walk_indexed_append a c.2 c.1 xs r hdot hopen hclose hr]
    by_cases hcols : cols = []
    · subst hcols
      simp [fillLine]
    · rw [ih (xs ++ [coerce c.2]) _ (Or.inr rfl) hcols]
      simp

/-! ## Properties: columns that fill one array element -/

theorem arrayContentMatch_zero (a : Str) (hopen : '[' ∉ a) (hclose : ']' ∉ a) :
    arrayContentMatch (a ++ "[0]".toList) = .ok (a, 0) :=
  arrayContentMatch_bracketed a "0".toList [] hopen hclose (by decide)

theorem split_zero_dot (a k : Str) (hdot : '.' ∉ a) (hk : '.' ∉ k) :
    split '.' (a ++ "[0].".toList ++ k) = [a ++ "[0]".toList, k] := by
  have h : a ++ "[0].".toList ++ k = (a ++ "[0]".toList) ++ '.' :: k := by
    simp [List.append_assoc]
  rw [h, split_append_dot _ _ (by
    simp only [List.mem_append, not_or]
    exact ⟨hdot, by decide⟩), split_of_not_mem _ _ hk]

/-- A column with header `a[0].k` writes its coerced field at `k` in the one
element of the array at `a`, creating the element when the record is empty. -/
theorem walk_zero_key (a k field : Str) (m : Record) (r : Record)
    (hdot : '.' ∉ a) (hopen : '[' ∉ a) (hclose : ']' ∉ a)
    (hkdot : '.' ∉ k) (hkopen : '[' ∉ k)
    (hr : r = [] ∧ m = [] ∨ r = [(a, .arr [.map m])]) :
    walk field (split '.' (a ++ "[0].".toList ++ k)) r =
      .ok [(a, .arr [.map (mapSet m k (coerce field))])] := by
  rw [split_zero_dot a k hdot hkdot]
  have hterm := walk_key_terminal field k k m (arrayContentMatch_no_open k hkopen)
  rcases hr with ⟨rfl, rfl⟩ | rfl
  · rw [walk_arr_step field _ a 0 [k] [] [] (arrayContentMatch_zero a hopen hclose)
      (by decide) (by simp) rfl]
    simp [hterm, mapSet]
  · rw [walk_arr_step field _ a 0 [k] [(a, .arr [.map m])] [.map m]
      (arrayContentMatch_zero a hopen hclose) (by decide) (by simp) (by simp [mapGet])]
    simp [hterm, mapSet]

theorem fillLine_zero_keys (a : Str) (hdot : '.' ∉ a) (hopen : '[' ∉ a) (hclose : ']' ∉ a)
    (cols : List (Str × Str)) :
    ∀ (m : Record) (r : Record), (r = [] ∧ m = [] ∨ r = [(a, .arr [.map m])]) → cols ≠ [] →
      (∀ c ∈ cols, '.' ∉ c.1 ∧ '[' ∉ c.1) →
      (m.map Prod.fst ++ cols.map Prod.fst).Nodup →
      fillLine (cols.map fun c => a ++ "[0].".toList ++ c.1) (cols.map Prod.snd) 0 r =
        .ok [(a, .arr [.map (m ++ cols.map fun c => (c.1, coerce c.2))])] := by
  induction cols with
  | nil => intro m r _ h; exact absurd rfl h
  | cons c cols ih =>
    intro m r hr _ hkeys hnodup
    obtain ⟨hcdot, hcopen⟩ := hkeys c (List.mem_cons_self _ _)
    have hnot : c.1 ∉ m.map Prod.fst := by
      intro hmem
      rw [List.nodup_append] at hnodup
      exact hnodup.2.2 hmem (by simp)
    simp only [List.map_cons, fillLine_cons_cons,
      walk_zero_key a c.1 c.2 m r hdot hopen hclose hcdot hcopen hr,
      mapSet_append_of_not_mem m c.1 _ hnot]
    by_cases hcols : cols = []
    · subst hcols
      simp [fillLine]
    · rw [ih (m ++ [(c.1, coerce c.2)]) _ (Or.inr rfl) hcols
        (fun c' hc' => hkeys c' (List.mem_cons_of_mem _ hc'))
        (by simpa [List.append_assoc] using hnodup)]
      simp

/-! ## Properties: what a successful step of the walk writes -/

/-- A successful walk whose first segment is non-final and carries an array
marker: the element at the index is a map, the rest of the walk runs inside it,
and the array with the rewritten element is stored back. -/
theorem walk_arr_nonfinal_ok (field val key : Str) (idx : Int) (rest : List Str)
    (m m' : Record) (xs : List Value)
    (hv : arrayContentMatch val = .ok (key, idx)) (hidx : idx ≠ -1) (hrest : rest ≠ [])
    (hget : (mapGet m key).getD (.arr []) = .arr xs)
    (h : walk field (val :: rest) m = .ok m') :
    ∃ xs1 m1 m2, xs1 = (if idx ≥ xs.length then xs ++ [.map []] else xs) ∧
      0 ≤ idx ∧ idx.toNat < xs1.length ∧ xs1.get? idx.toNat = some (.map m1) ∧
      walk field rest m1 = .ok m2 ∧
      m' = mapSet m key (.arr (xs1.set idx.toNat (.map m2))) := by
  rw [walk_arr_step field val key idx rest m xs hv hidx hrest hget] at h
  generalize (if idx ≥ (xs.length : Int) then xs ++ [Value.map []] else xs) = xs1 at h ⊢
  by_cases hb : idx < 0 ∨ idx ≥ (xs1.length : Int)
  · rw [if_pos hb] at h
    cases h
  · rw [if_neg hb] at h
    have hb1 : 0 ≤ idx := by omega
    have hb2 : idx.toNat < xs1.length := by omega
    cases hg : xs1.get? idx.toNat with
    | none => simp only [hg, reduceCtorEq] at h
    | some v =>
      cases v with
      | map m1 =>
        simp only [hg] at h
        cases h2 : walk field rest m1 with
        | error p => simp only [h2, reduceCtorEq] at h
        | ok m2 =>
          simp only [h2, Except.ok.injEq] at h
          exact ⟨xs1, m1, m2, rfl, hb1, hb2, hg, h2, h.symm⟩
      | int n => simp only [hg, reduceCtorEq] at h
      | bool b => simp only [hg, reduceCtorEq] at h
      | str s => simp only [hg, reduceCtorEq] at h
      | arr ys => simp only [hg, reduceCtorEq] at h

/-- A successful walk whose first segment is non-final and parses without array
index: the key held nothing or a map, the rest of the walk runs inside it. -/
theorem walk_key_nonfinal_ok (field val key : Str) (rest : List Str) (m m' : Record)
    (hv : arrayContentMatch val = .ok (key, -1)) (hrest : rest ≠ [])
    (h : walk field (val :: rest) m = .ok m') :
    ∃ m1 m2, (mapGet m key = none ∧ m1 = [] ∨ mapGet m key = some (.map m1)) ∧
      walk field rest m1 = .ok m2 ∧ m' = mapSet m key (.map m2) := by
  rw [walk] at h
  simp only [hv, ne_eq, not_true_eq_false, if_false, hrest] at h
  cases hg : mapGet m key with
  | none =>
    simp only [hg, Option.getD_none] at h
    cases h2 : walk field rest [] with
    | error p => simp [h2] at h
    | ok m2 =>
      simp only [h2, Except.ok.injEq] at h
      exact ⟨[], m2, Or.inl ⟨rfl, rfl⟩, h2, h.symm⟩
  | some v =>
    cases v with
    | map m1 =>
      simp only [hg, Option.getD_some] at h
      cases h2 : walk field rest m1 with
      | error p => simp [h2] at h
      | ok m2 =>
        simp only [h2, Except.ok.injEq] at h
        exact ⟨m1, m2, Or.inr rfl, h2, h.symm⟩
    | int n => simp [hg] at h
    | bool b => simp [hg] at h
    | str s => simp [hg] at h
    | arr xs => simp [hg] at h

/-- The array a key holds when a walk reaches it with an array segment and
does not panic. -/
theorem walk_arr_getD (field val key : Str) (idx : Int) (rest : List Str) (m m' : Record)
    (hv : arrayContentMatch val = .ok (key, idx)) (hidx : idx ≠ -1)
    (h : walk field (val :: rest) m = .ok m') :
    ∃ xs, (mapGet m key).getD (.arr []) = .arr xs := by
  obtain ⟨_, _, hpre⟩ := walk_arr_ok field val key idx rest m m' hv hidx h
  rcases hpre with hg | ⟨ys, hg⟩
  · exact ⟨[], by simp [hg]⟩
  · exact ⟨ys, by simp [hg]⟩

/-! ## Properties: reading a header path back -/

/-- After a successful walk of a header whose last segment is bracket-free, the
coerced field is what the header path reads back. -/
theorem walk_lookupHeader (field : Str) (segs : List Str) :
    ∀ (m m' : Record), walk field segs m = .ok m' →
      (∃ s, segs.getLast? = some s ∧ '[' ∉ s) →
      lookupHeader m' segs = some (coerce field) := by
  induction segs with
  | nil => intro m m' _ h; obtain ⟨s, hs, _⟩ := h; simp at hs
  | cons seg rest ih =>
    intro m m' hw hlast
    cases rest with
    | nil =>
      obtain ⟨s, hs, hopen⟩ := hlast
      simp only [List.getLast?_singleton, Option.some.injEq] at hs
      subst hs
      have hv := arrayContentMatch_no_open seg hopen
      rw [walk_key_terminal field seg seg m hv] at hw
      rw [← Except.ok.inj hw]
      simp only [lookupHeader, hv, if_true, mapGet_mapSet_self]
    | cons seg2 rest =>
      have hlast' : ∃ s, (seg2 :: rest).getLast? = some s ∧ '[' ∉ s := by
        obtain ⟨s, hs, hopen⟩ := hlast
        exact ⟨s, by simpa [List.getLast?_cons_cons] using hs, hopen⟩
      cases hv : arrayContentMatch seg with
      | error p => rw [walk] at hw; simp [hv] at hw
      | ok res =>
        obtain ⟨key, idx⟩ := res
        by_cases hidx : idx = -1
        · subst hidx
          obtain ⟨m1, m2, _, h2, rfl⟩ := walk_key_nonfinal_ok field seg key (seg2 :: rest) m m'
            hv (by simp) hw
          simp only [lookupHeader, hv, if_true, mapGet_mapSet_self]
          exact ih m1 m2 h2 hlast'
        · obtain ⟨xs, hxs⟩ := walk_arr_getD field seg key idx (seg2 :: rest) m m' hv hidx hw
          obtain ⟨xs1, m1, m2, _, h0, hlt, _, h2, rfl⟩ := walk_arr_nonfinal_ok field seg key idx
            (seg2 :: rest) m m' xs hv hidx (by simp) hxs hw
          simp only [lookupHeader, hv, if_neg hidx, if_neg (not_lt.2 h0), mapGet_mapSet_self,
            List.get?_eq_getElem?, List.getElem?_set_self hlt]
          exact ih m1 m2 h2 hlast'

/-- A walk along a plain path leaves the path walkable. -/
theorem walk_plain_walkable_self (field : Str) (p : List Str) :
    ∀ (m m' : Record), Plain p → walk field p m = .ok m' → Walkable p m' := by
  induction p with
  | nil => intro m m' _ _; trivial
  | cons k rest ih =>
    intro m m' hp hw
    cases rest with
    | nil => trivial
    | cons k2 rest =>
      obtain ⟨m1, m2, _, h2, rfl⟩ := walk_key_step_ok field k k2 rest m m' hp.head hw
      simp only [Walkable, mapGet_mapSet_self]
      exact ih m1 m2 hp.tail h2

/-- The field loop over a header row and a line that both end with one more
column: the earlier columns are converted first, the last column is walked in
the record they leave. -/
theorem fillLine_snoc (hs : List Str) :
    ∀ (fs : List Str) (h f : Str) (r : Record), hs.length = fs.length →
      fillLine (hs ++ [h]) (fs ++ [f]) 0 r =
        match fillLine hs fs 0 r with
        | .error p => .error p
        | .ok r1 => walk f (split '.' h) r1 := by
  induction hs with
  | nil =>
    intro fs h f r hlen
    cases fs with
    | nil =>
      show fillLine [h] [f] 0 r = _
      rw [fillLine_cons_cons]
      simp only [fillLine]
      cases walk f (split '.' h) r <;> rfl
    | cons _ _ => simp at hlen
  | cons h0 hs ih =>
    intro fs h f r hlen
    cases fs with
    | nil => simp at hlen
    | cons f0 fs =>
      simp only [List.cons_append, fillLine_cons_cons]
      cases walk f0 (split '.' h0) r with
      | error p => rfl
      | ok r1 => exact ih fs h f r1 (by simpa using hlen)

/-! ## Properties: `Convert` -/

/-- The conversion never builds an error value. -/
theorem transformToMap_err_none (src : List (List Str)) (recs : List Record)
    (err : Option GoError) (h : transformToMap src = .ok (recs, err)) : err = none := by
  cases src with
  | nil => simp [transformToMap] at h
  | cons headers lines => exact ((transformToMap_ok_iff _ _ _ _).1 h).1

/-! ## Properties: arrays within one row -/

theorem Grows.refl (xs : List Value) : Grows xs xs :=
  ⟨le_refl _, fun _ _ => Or.inl rfl⟩

theorem Grows.trans {xs ys zs : List Value} (h1 : Grows xs ys) (h2 : Grows ys zs) :
    Grows xs zs := by
  refine ⟨le_trans h1.1 h2.1, ?_⟩
  intro i hi
  rcases h1.2 i hi with e1 | ⟨m1, m2, e1, e1'⟩
  · rcases h2.2 i (lt_of_lt_of_le hi h1.1) with e2 | ⟨m3, m4, e2, e2'⟩
    · exact Or.inl (e2.trans e1)
    · exact Or.inr ⟨m3, m4, e1 ▸ e2, e2'⟩
  · rcases h2.2 i (lt_of_lt_of_le hi h1.1) with e2 | ⟨m3, m4, _, e2'⟩
    · exact Or.inr ⟨m1, m2, e1, e2.trans e1'⟩
    · exact Or.inr ⟨m1, m4, e1, e2'⟩

theorem get?_append_lt (xs zs : List Value) (i : Nat) (hi : i < xs.length) :
    (xs ++ zs).get? i = xs.get? i := by
  simp only [List.get?_eq_getElem?]
  exact List.getElem?_append_left hi

theorem Grows.append (xs zs : List Value) : Grows xs (xs ++ zs) :=
  ⟨by simp, fun i hi => Or.inl (get?_append_lt xs zs i hi)⟩

/-- Rewriting a map element of the array, possibly after one element was
appended, continues the array. -/
theorem Grows.set (xs xs1 : List Value) (idx : Int) (i : Nat) (m1 m2 : Record)
    (hxs1 : xs1 = (if idx ≥ xs.length then xs ++ [.map []] else xs))
    (hget : xs1.get? i = some (.map m1)) :
    Grows xs (xs1.set i (.map m2)) := by
  have hpre : Grows xs xs1 := by
    rw [hxs1]
    split_ifs
    · exact Grows.append xs _
    · exact Grows.refl xs
  refine ⟨by simpa using hpre.1, ?_⟩
  intro j hj
  have hsame : xs1.get? j = xs.get? j := by
    rw [hxs1]
    split_ifs
    · exact get?_append_lt xs _ j hj
    · rfl
  by_cases hij : i = j
  · subst hij
    have hlt : i < xs1.length := lt_of_lt_of_le hj hpre.1
    refine Or.inr ⟨m1, m2, hsame ▸ hget, ?_⟩
    simp only [List.get?_eq_getElem?, List.getElem?_set_self hlt]
  · refine Or.inl ?_
    rw [← hsame]
    simp only [List.get?_eq_getElem?, List.getElem?_set_ne hij]

/-- A successful walk assigns to the key of its first segment and to no other
key of the container. -/
theorem walk_writes_key (field val key : Str) (idx : Int) (rest : List Str) (m m' : Record)
    (hv : arrayContentMatch val = .ok (key, idx))
    (h : walk field (val :: rest) m = .ok m') : ∃ v, m' = mapSet m key v := by
  by_cases hidx : idx = -1
  · subst hidx
    by_cases hrest : rest = []
    · subst hrest
      rw [walk_key_terminal field val key m hv] at h
      exact ⟨_, (Except.ok.inj h).symm⟩
    · obtain ⟨_, m2, _, _, hm'⟩ := walk_key_nonfinal_ok field val key rest m m' hv hrest h
      exact ⟨_, hm'⟩
  · obtain ⟨xs, hm', _⟩ := walk_arr_ok field val key idx rest m m' hv hidx h
    exact ⟨_, hm'⟩

/-- The field loop over two header rows and two lines put end to end, the first
pair of equal length: the first columns are converted first, the others in the
record they leave. -/
theorem fillLine_append (hs1 : List Str) :
    ∀ (fs1 hs2 fs2 : List Str) (r : Record), hs1.length = fs1.length →
      fillLine (hs1 ++ hs2) (fs1 ++ fs2) 0 r =
        match fillLine hs1 fs1 0 r with
        | .error p => .error p
        | .ok r1 => fillLine hs2 fs2 0 r1 := by
  induction hs1 with
  | nil =>
    intro fs1 hs2 fs2 r hlen
    cases fs1 with
    | nil => rfl
    | cons _ _ => simp at hlen
  | cons h0 hs1 ih =>
    intro fs1 hs2 fs2 r hlen
    cases fs1 with
    | nil => simp at hlen
    | cons f0 fs1 =>
      simp only [List.cons_append, fillLine_cons_cons]
      cases walk f0 (split '.' h0) r with
      | error p => rfl
      | ok r1 => exact ih fs1 hs2 fs2 r1 (by simpa using hlen)

/-! ## Properties: what later columns leave of a path -/

theorem continues_refl (v : Value) : Continues v v := by
  cases v with
  | arr xs => exact ⟨xs, rfl, Grows.refl xs⟩
  | map m => exact ⟨m, rfl⟩
  | int n => rfl
  | bool b => rfl
  | str s => rfl

theorem continues_trans {u v w : Value} (h1 : Continues u v) (h2 : Continues v w) :
    Continues u w := by
  cases u with
  | arr xs =>
    obtain ⟨ys, rfl, hg⟩ := h1
    obtain ⟨zs, rfl, hg'⟩ := h2
    exact ⟨zs, rfl, hg.trans hg'⟩
  | map m =>
    obtain ⟨m2, rfl⟩ := h1
    obtain ⟨m3, rfl⟩ := h2
    exact ⟨m3, rfl⟩
  | int n => cases h1; exact h2
  | bool b => cases h1; exact h2
  | str s => cases h1; exact h2

/-- Reading a one-segment path: the segment carries no index and the value is
the one at its key. -/
theorem lookupHeader_single_inv (m : Record) (s key : Str) (idx : Int) (v : Value)
    (hs : arrayContentMatch s = .ok (key, idx)) (hl : lookupHeader m [s] = some v) :
    idx = -1 ∧ mapGet m key = some v := by
  simp only [lookupHeader, hs] at hl
  split_ifs at hl with h
  exact ⟨h, hl⟩

/-- Reading a longer path: its first segment leads into the map at its key, or
into the map that is the element at its index of the array at its key. -/
theorem lookupHeader_cons_inv (m : Record) (s h2 key : Str) (hrest : List Str) (idx : Int)
    (v : Value) (hs : arrayContentMatch s = .ok (key, idx))
    (hl : lookupHeader m (s :: h2 :: hrest) = some v) :
    (idx = -1 ∧ ∃ m1, mapGet m key = some (.map m1) ∧
      lookupHeader m1 (h2 :: hrest) = some v) ∨
    (idx ≠ -1 ∧ 0 ≤ idx ∧ ∃ xs m1, mapGet m key = some (.arr xs) ∧
      xs.get? idx.toNat = some (.map m1) ∧ lookupHeader m1 (h2 :: hrest) = some v) := by
  simp only [lookupHeader, hs] at hl
  by_cases hidx : idx = -1
  · simp only [hidx, if_true] at hl
    refine Or.inl ⟨hidx, ?_⟩
    cases hg : mapGet m key with
    | none => simp only [hg, reduceCtorEq] at hl
    | some w =>
      cases w with
      | map m1 => simp only [hg] at hl; exact ⟨m1, rfl, hl⟩
      | int n => simp only [hg, reduceCtorEq] at hl
      | bool b => simp only [hg, reduceCtorEq] at hl
      | str t => simp only [hg, reduceCtorEq] at hl
      | arr xs => simp only [hg, reduceCtorEq] at hl
  · simp only [if_neg hidx] at hl
    by_cases hneg : idx < 0
    · simp only [if_pos hneg, reduceCtorEq] at hl
    · simp only [if_neg hneg] at hl
      refine Or.inr ⟨hidx, not_lt.1 hneg, ?_⟩
      cases hg : mapGet m key with
      | none => simp only [hg, reduceCtorEq] at hl
      | some w =>
        cases w with
        | arr xs =>
          simp only [hg] at hl
          cases he : xs.get? idx.toNat with
          | none => simp only [he, reduceCtorEq] at hl
          | some e =>
            cases e with
            | map m1 => simp only [he] at hl; exact ⟨xs, m1, rfl, he, hl⟩
            | int n => simp only [he, reduceCtorEq] at hl
            | bool b => simp only [he, reduceCtorEq] at hl
            | str t => simp only [he, reduceCtorEq] at hl
            | arr ys => simp only [he, reduceCtorEq] at hl
        | int n => simp only [hg, reduceCtorEq] at hl
        | bool b => simp only [hg, reduceCtorEq] at hl
        | str t => simp only [hg, reduceCtorEq] at hl
        | map m1 => simp only [hg, reduceCtorEq] at hl

theorem lookupHeader_map_step (m m1 : Record) (s h2 key : Str) (hrest : List Str)
    (hs : arrayContentMatch s = .ok (key, -1)) (hg : mapGet m key = some (.map m1)) :
    lookupHeader m (s :: h2 :: hrest) = lookupHeader m1 (h2 :: hrest) := by
  simp only [lookupHeader, hs, if_true, hg]

theorem lookupHeader_arr_step (m m1 : Record) (s h2 key : Str) (hrest : List Str) (idx : Int)
    (xs : List Value) (hs : arrayContentMatch s = .ok (key, idx)) (hidx : idx ≠ -1)
    (h0 : 0 ≤ idx) (hg : mapGet m key = some (.arr xs))
    (he : xs.get? idx.toNat = some (.map m1)) :
    lookupHeader m (s :: h2 :: hrest) = lookupHeader m1 (h2 :: hrest) := by
  simp only [lookupHeader, hs, if_neg hidx, if_neg (not_lt.2 h0), hg, he]

/-- Reading a path depends on the record only through the value at the key of
the first segment. -/
theorem lookupHeader_congr (m m' : Record) (s key : Str) (idx : Int) (hrest : List Str)
    (hs : arrayContentMatch s = .ok (key, idx)) (hg : mapGet m' key = mapGet m key) :
    lookupHeader m' (s :: hrest) = lookupHeader m (s :: hrest) := by
  cases hrest with
  | nil => simp only [lookupHeader, hs, hg]
  | cons h2 hrest => simp only [lookupHeader, hs, hg]

/-- A column whose header does not end on a path leaves what the path reads:
the same scalar, a continued array, or still a map. -/
theorem walk_continues (field : Str) (path : List Str) :
    ∀ (segs : List Str) (m m' : Record) (v : Value), walk field segs m = .ok m' →
      ¬ Disturbs segs path → lookupHeader m path = some v →
      ∃ v', lookupHeader m' path = some v' ∧ Continues v v' := by
  induction path with
  | nil => intro segs m m' v _ _ hl; simp [lookupHeader] at hl
  | cons s hrest ih =>
    intro segs m m' v hw hnd hl
    cases segs with
    | nil =>
      rw [walk] at hw
      rw [← Except.ok.inj hw]
      exact ⟨v, hl, continues_refl v⟩
    | cons val rest =>
      cases hs : arrayContentMatch s with
      | error p =>
        cases hrest with
        | nil => simp [lookupHeader, hs] at hl
        | cons h2 hr => simp [lookupHeader, hs] at hl
      | ok res =>
        obtain ⟨kh, ih'⟩ := res
        cases hv : arrayContentMatch val with
        | error p => rw [walk] at hw; simp [hv] at hw
        | ok res' =>
          obtain ⟨kx, ix⟩ := res'
          by_cases hkey : kx = kh
          · subst hkey
            by_cases hix : ix = -1
            · subst hix
              by_cases hrest' : rest = []
              · -- the header ends at the key of the first path segment
                subst hrest'
                exact absurd (show Disturbs [val] (s :: hrest) by
                  simp only [Disturbs, hv, hs, and_self]) hnd
              · obtain ⟨m1, m2, hpre, h2, rfl⟩ := walk_key_nonfinal_ok field val kx rest m m'
                  hv hrest' hw
                cases hrest with
                | nil =>
                  obtain ⟨_, hg⟩ := lookupHeader_single_inv m s kx ih' v hs hl
                  rcases hpre with ⟨hn, _⟩ | hm
                  · rw [hg] at hn; cases hn
                  · rw [hg] at hm
                    cases hm
                    refine ⟨.map m2, ?_, ⟨m2, rfl⟩⟩
                    have hidx := (lookupHeader_single_inv m s kx ih' _ hs hl).1
                    subst hidx
                    simp only [lookupHeader, hs, if_true, mapGet_mapSet_self]
                | cons h2' hr =>
                  rcases lookupHeader_cons_inv m s h2' kx hr ih' v hs hl with
                    ⟨hidx, m1', hg, hl1⟩ | ⟨_, _, xs0, m1', hg, _, _⟩
                  · subst hidx
                    rcases hpre with ⟨hn, _⟩ | hm
                    · rw [hg] at hn; cases hn
                    · rw [hg] at hm
                      simp only [Option.some.injEq, Value.map.injEq] at hm
                      subst hm
                      have hnd' : ¬ Disturbs rest (h2' :: hr) := by
                        intro hd
                        apply hnd
                        cases rest with
                        | nil => exact absurd rfl hrest'
                        | cons x2 xr => exact ⟨hv.trans hs.symm, hd⟩
                      obtain ⟨v', hl', hc⟩ := ih rest m1' m2 v h2 hnd' hl1
                      refine ⟨v', ?_, hc⟩
                      rw [lookupHeader_map_step _ m2 s h2' kx hr hs (mapGet_mapSet_self _ _ _)]
                      exact hl'
                  · rcases hpre with ⟨hn, _⟩ | hm
                    · rw [hg] at hn; cases hn
                    · rw [hg] at hm; cases hm
            · obtain ⟨xs, hxs⟩ := walk_arr_getD field val kx ix rest m m' hv hix hw
              by_cases hrest' : rest = []
              · subst hrest'
                rw [walk_arr_terminal field val kx ix m xs hv hix hxs] at hw
                have hm' := (Except.ok.inj hw).symm
                subst hm'
                cases hrest with
                | nil =>
                  obtain ⟨hidx, hg⟩ := lookupHeader_single_inv m s kx ih' v hs hl
                  subst hidx
                  rw [hg] at hxs
                  simp only [Option.getD_some] at hxs
                  subst hxs
                  refine ⟨_, ?_, ⟨_, rfl, Grows.append xs [coerce field]⟩⟩
                  simp only [lookupHeader, hs, if_true, mapGet_mapSet_self]
                | cons h2' hr =>
                  rcases lookupHeader_cons_inv m s h2' kx hr ih' v hs hl with
                    ⟨_, m1', hg, _⟩ | ⟨hidx, h0, xs0, m1', hg, he, hl1⟩
                  · rw [hg] at hxs; simp only [Option.getD_some, reduceCtorEq] at hxs
                  · rw [hg] at hxs
                    simp only [Option.getD_some, Value.arr.injEq] at hxs
                    subst hxs
                    have hlt : ih'.toNat < xs0.length := by
                      by_contra hge
                      rw [List.get?_eq_none.2 (not_lt.1 hge)] at he
                      cases he
                    refine ⟨v, ?_, continues_refl v⟩
                    rw [lookupHeader_arr_step _ m1' s h2' kx hr ih' (xs0 ++ [coerce field]) hs hidx
                      h0 (mapGet_mapSet_self _ _ _)
                      ((get?_append_lt xs0 _ _ hlt).trans he)]
                    exact hl1
              · obtain ⟨xs1, m1, m2, hxs1, hx0, hxlt, hxe, h2, rfl⟩ := walk_arr_nonfinal_ok field
                  val kx ix rest m m' xs hv hix hrest' hxs hw
                cases hrest with
                | nil =>
                  obtain ⟨hidx, hg⟩ := lookupHeader_single_inv m s kx ih' v hs hl
                  subst hidx
                  rw [hg] at hxs
                  simp only [Option.getD_some] at hxs
                  subst hxs
                  refine ⟨_, ?_, ⟨_, rfl, Grows.set xs xs1 ix ix.toNat m1 m2 hxs1 hxe⟩⟩
                  simp only [lookupHeader, hs, if_true, mapGet_mapSet_self]
                | cons h2' hr =>
                  rcases lookupHeader_cons_inv m s h2' kx hr ih' v hs hl with
                    ⟨_, m1', hg, _⟩ | ⟨hidx, h0, xs0, m1', hg, he, hl1⟩
                  · rw [hg] at hxs; simp only [Option.getD_some, reduceCtorEq] at hxs
                  · rw [hg] at hxs
                    simp only [Option.getD_some, Value.arr.injEq] at hxs
                    subst hxs
                    have hlt : ih'.toNat < xs0.length := by
                      by_contra hge
                      rw [List.get?_eq_none.2 (not_lt.1 hge)] at he
                      cases he
                    have hsame : xs1.get? ih'.toNat = some (.map m1') := by
                      rw [hxs1]
                      split_ifs
                      · exact (get?_append_lt xs0 _ _ hlt).trans he
                      · exact he
                    by_cases hij : ix.toNat = ih'.toNat
                    · have hixeq : ix = ih' := by omega
                      subst hixeq
                      rw [hsame] at hxe
                      simp only [Option.some.injEq, Value.map.injEq] at hxe
                      subst hxe
                      have hnd' : ¬ Disturbs rest (h2' :: hr) := by
                        intro hd
                        apply hnd
                        cases rest with
                        | nil => exact absurd rfl hrest'
                        | cons x2 xr => exact ⟨hv.trans hs.symm, hd⟩
                      obtain ⟨v', hl', hc⟩ := ih rest m1' m2 v h2 hnd' hl1
                      refine ⟨v', ?_, hc⟩
                      rw [lookupHeader_arr_step _ m2 s h2' kx hr ix _ hs hidx h0
                        (mapGet_mapSet_self _ _ _)
                        (by simp only [List.get?_eq_getElem?, List.getElem?_set_self hxlt])]
                      exact hl'
                    · refine ⟨v, ?_, continues_refl v⟩
                      rw [lookupHeader_arr_step _ m1' s h2' kx hr ih' _ hs hidx h0
                        (mapGet_mapSet_self _ _ _)
                        (by
                          simp only [List.get?_eq_getElem?, List.getElem?_set_ne hij]
                          simpa only [List.get?_eq_getElem?] using hsame)]
                      exact hl1
          · obtain ⟨w, rfl⟩ := walk_writes_key field val kx ix rest m m' hv hw
            refine ⟨v, ?_, continues_refl v⟩
            rw [lookupHeader_congr m _ s kh ih' hrest hs (mapGet_mapSet_ne _ _ _ _ hkey)]
            exact hl

/-- Later columns none of whose headers ends on a path leave what the path
reads: the same scalar, a continued array, or still a map. -/
theorem fillLine_continues (path : List Str) (hs : List Str) :
    ∀ (fs : List Str) (r r' : Record) (v : Value),
      (∀ x ∈ hs, ¬ Disturbs (split '.' x) path) → fillLine hs fs 0 r = .ok r' →
      lookupHeader r path = some v →
      ∃ v', lookupHeader r' path = some v' ∧ Continues v v' := by
  induction hs with
  | nil =>
    intro fs r r' v _ hfill hl
    cases fs with
    | nil =>
      rw [fillLine] at hfill
      rw [← Except.ok.inj hfill]
      exact ⟨v, hl, continues_refl v⟩
    | cons f fs => simp [fillLine] at hfill
  | cons h hs ih =>
    intro fs r r' v hno hfill hl
    cases fs with
    | nil =>
      rw [fillLine] at hfill
      rw [← Except.ok.inj hfill]
      exact ⟨v, hl, continues_refl v⟩
    | cons f fs =>
      rw [fillLine_cons_cons] at hfill
      cases hw : walk f (split '.' h) r with
      | error p => simp [hw] at hfill
      | ok r1 =>
        simp only [hw] at hfill
        obtain ⟨v1, hl1, hc1⟩ := walk_continues f path (split '.' h) r r1 v hw
          (hno h (List.mem_cons_self _ _)) hl
        obtain ⟨v2, hl2, hc2⟩ := ih fs r1 r' v1
          (fun x hx => hno x (List.mem_cons_of_mem _ hx)) hfill hl1
        exact ⟨v2, hl2, continues_trans hc1 hc2⟩

theorem Continues.coerce_eq (field : Str) (v : Value) (h : Continues (coerce field) v) :
    v = coerce field := by
  rcases coerce_scalar field with ⟨n, hn⟩ | ⟨b, hb⟩ | ⟨s, hs⟩
  · rw [hn] at h ⊢; exact h
  · rw [hb] at h ⊢; exact h
  · rw [hs] at h ⊢; exact h

/-- The record of a one-line conversion is what the field loop builds. -/
theorem fillLine_of_transformToMap (headers line : List Str) (r : Record)
    (err : Option GoError) (h : transformToMap [headers, line] = .ok ([r], err)) :
    fillLine headers line 0 [] = .ok r := by
  have hall := ((transformToMap_ok_iff _ _ _ _).1 h).2
  cases hall with
  | cons h1 _ => exact h1

/-! ## Properties: path-type conflicts in any container -/

theorem stepInto_key (s key : Str) (m : Record) (hs : arrayContentMatch s = .ok (key, -1)) :
    stepInto s m =
      match mapGet m key with
      | none => .absent
      | some (.map m1) => .into m1
      | some _ => .blocked := by
  simp only [stepInto, hs, if_true]
  cases mapGet m key with
  | none => rfl
  | some v => cases v <;> rfl

theorem stepInto_idx (s key : Str) (idx : Int) (m : Record)
    (hs : arrayContentMatch s = .ok (key, idx)) (hidx : idx ≠ -1) :
    stepInto s m =
      match mapGet m key with
      | none => .absent
      | some (.arr xs) =>
        if idx < 0 then .blocked
        else
          match xs.get? idx.toNat with
          | none => .absent
          | some (.map m1) => .into m1
          | some _ => .blocked
      | some _ => .blocked := by
  simp only [stepInto, hs, if_neg hidx]
  cases mapGet m key with
  | none => rfl
  | some v => cases v <;> rfl

theorem stepInto_congr (s key : Str) (idx : Int) (m m' : Record)
    (hs : arrayContentMatch s = .ok (key, idx)) (hg : mapGet m' key = mapGet m key) :
    stepInto s m' = stepInto s m := by
  simp only [stepInto, hs, hg]

/-- A successful walk whose first segment is not the last one descends where
the segment leads, and the segment leads into the rewritten map afterwards. -/
theorem walk_step_ok (field s : Str) (rest : List Str) (m m' : Record)
    (hrest : rest ≠ []) (hw : walk field (s :: rest) m = .ok m') :
    ∃ m1 m2, walk field rest m1 = .ok m2 ∧ stepInto s m' = .into m2 ∧
      (stepInto s m = .absent ∨ stepInto s m = .into m1) := by
  cases hs : arrayContentMatch s with
  | error p => rw [walk] at hw; simp [hs] at hw
  | ok res =>
    obtain ⟨key, idx⟩ := res
    by_cases hidx : idx = -1
    · subst hidx
      obtain ⟨m1, m2, hpre, h2, rfl⟩ := walk_key_nonfinal_ok field s key rest m m' hs hrest hw
      refine ⟨m1, m2, h2, ?_, ?_⟩
      · rw [stepInto_key s key _ hs, mapGet_mapSet_self]
      · rw [stepInto_key s key _ hs]
        rcases hpre with ⟨hn, _⟩ | hm
        · exact Or.inl (by rw [hn])
        · exact Or.inr (by rw [hm])
    · obtain ⟨xs, hxs⟩ := walk_arr_getD field s key idx rest m m' hs hidx hw
      obtain ⟨xs1, m1, m2, hxs1, h0, hlt, he, h2, rfl⟩ := walk_arr_nonfinal_ok field s key idx
        rest m m' xs hs hidx hrest hxs hw
      refine ⟨m1, m2, h2, ?_, ?_⟩
      · rw [stepInto_idx s key idx _ hs hidx, mapGet_mapSet_self]
        simp only [if_neg (not_lt.2 h0), List.get?_eq_getElem?, List.getElem?_set_self hlt]
      · rw [stepInto_idx s key idx _ hs hidx]
        cases hg : mapGet m key with
        | none => exact Or.inl rfl
        | some v =>
          rw [hg] at hxs
          simp only [Option.getD_some] at hxs
          subst hxs
          simp only [if_neg (not_lt.2 h0)]
          by_cases hin : idx.toNat < xs.length
          · have hsame : xs.get? idx.toNat = some (.map m1) := by
              rw [← he, hxs1]
              split_ifs
              · exact (get?_append_lt xs _ _ hin).symm
              · rfl
            rw [hsame]
            exact Or.inr rfl
          · rw [List.get?_eq_none.2 (not_lt.1 hin)]
            exact Or.inl rfl

theorem StepKept.of_eq (field : Str) {st st' : Step} (h : st' = st) : StepKept field st st' := by
  subst h
  unfold StepKept
  exact ⟨fun h => h, fun m1 h => Or.inr ⟨[], m1, rfl, h⟩⟩

theorem StepKept.of_absent (field : Str) {st st' : Step} (h : st = .absent) :
    StepKept field st st' := by
  subst h
  unfold StepKept
  exact ⟨fun h => (by cases h), fun m1 h => (by cases h)⟩

theorem StepKept.of_blocked (field : Str) {st st' : Step} (h : st' = .blocked) :
    StepKept field st st' :=
  ⟨fun _ => h, fun _ _ => Or.inl h⟩

/-- A segment is blocked at a key that holds a scalar. -/
theorem stepInto_coerce (s key field : Str) (idx : Int) (m : Record)
    (hs : arrayContentMatch s = .ok (key, idx)) (hg : mapGet m key = some (coerce field)) :
    stepInto s m = .blocked := by
  by_cases hidx : idx = -1
  · subst hidx
    rw [stepInto_key s key m hs, hg]
    rcases coerce_scalar field with ⟨n, hn⟩ | ⟨b, hb⟩ | ⟨t, ht⟩
    · rw [hn]
    · rw [hb]
    · rw [ht]
  · rw [stepInto_idx s key idx m hs hidx, hg]
    rcases coerce_scalar field with ⟨n, hn⟩ | ⟨b, hb⟩ | ⟨t, ht⟩
    · rw [hn]
    · rw [hb]
    · rw [ht]

theorem walk_keeps_step (field s : Str) (segs : List Str) (m m' : Record)
    (hw : walk field segs m = .ok m') :
    StepKept field (stepInto s m) (stepInto s m') := by
  cases segs with
  | nil =>
    rw [walk] at hw
    rw [← Except.ok.inj hw]
    exact StepKept.of_eq field rfl
  | cons val rest =>
    cases hs : arrayContentMatch s with
    | error p => exact StepKept.of_eq field (by simp only [stepInto, hs])
    | ok res =>
      obtain ⟨kh, ih⟩ := res
      cases hv : arrayContentMatch val with
      | error p => rw [walk] at hw; simp [hv] at hw
      | ok res' =>
        obtain ⟨kx, ix⟩ := res'
        by_cases hkey : kx = kh
        · subst hkey
          by_cases hix : ix = -1
          · subst hix
            by_cases hrest : rest = []
            · subst hrest
              rw [walk_key_terminal field val kx m hv] at hw
              rw [← Except.ok.inj hw]
              exact StepKept.of_blocked field
                (stepInto_coerce s kx field ih _ hs (mapGet_mapSet_self _ _ _))
            · obtain ⟨m1, m2, hpre, h2, rfl⟩ := walk_key_nonfinal_ok field val kx rest m m'
                hv hrest hw
              rcases hpre with ⟨hn, _⟩ | hm
              · exact StepKept.of_absent field (by simp only [stepInto, hs, hn])
              · by_cases hih : ih = -1
                · subst hih
                  rw [stepInto_key s kx m hs, stepInto_key s kx _ hs, mapGet_mapSet_self, hm]
                  unfold StepKept
                  refine ⟨fun h => (by cases h), fun m1' h => ?_⟩
                  cases h
                  exact Or.inr ⟨rest, m2, h2, rfl⟩
                · apply StepKept.of_blocked
                  rw [stepInto_idx s kx ih _ hs hih, mapGet_mapSet_self]
          · obtain ⟨xs, hxs⟩ := walk_arr_getD field val kx ix rest m m' hv hix hw
            cases hg : mapGet m kx with
            | none => exact StepKept.of_absent field (by simp only [stepInto, hs, hg])
            | some v0 =>
              rw [hg] at hxs
              simp only [Option.getD_some] at hxs
              subst hxs
              by_cases hih : ih = -1
              · -- the path segment wants a map, the key holds an array and keeps one
                subst hih
                obtain ⟨ys, rfl, _⟩ := walk_arr_ok field val kx ix rest m m' hv hix hw
                apply StepKept.of_blocked
                rw [stepInto_key s kx _ hs, mapGet_mapSet_self]
              · by_cases hneg : ih < 0
                · obtain ⟨ys, rfl, _⟩ := walk_arr_ok field val kx ix rest m m' hv hix hw
                  apply StepKept.of_blocked
                  rw [stepInto_idx s kx ih _ hs hih, mapGet_mapSet_self]
                  simp only [if_pos hneg]
                · by_cases hin : ih.toNat < xs.length
                  · by_cases hrest : rest = []
                    · subst hrest
                      rw [walk_arr_terminal field val kx ix m xs hv hix (by simp [hg])] at hw
                      rw [← Except.ok.inj hw]
                      apply StepKept.of_eq
                      simp only [fun r => stepInto_idx s kx ih r hs hih, mapGet_mapSet_self, hg,
                        if_neg hneg, get?_append_lt xs _ _ hin]
                    · obtain ⟨xs1, m1, m2, hxs1, _, hxlt, hxe, h2, rfl⟩ :=
                        walk_arr_nonfinal_ok field val kx ix rest m m' xs hv hix hrest
                          (by simp [hg]) hw
                      have hsame : xs1.get? ih.toNat = xs.get? ih.toNat := by
                        rw [hxs1]
                        split_ifs
                        · exact get?_append_lt xs _ _ hin
                        · rfl
                      simp only [fun r => stepInto_idx s kx ih r hs hih, mapGet_mapSet_self, hg,
                        if_neg hneg]
                      by_cases hij : ix.toNat = ih.toNat
                      · rw [hij] at hxe hxlt
                        rw [← hsame, hxe, hij]
                        simp only [List.get?_eq_getElem?, List.getElem?_set_self hxlt]
                        unfold StepKept
                        refine ⟨fun h => (by cases h), fun m1' h => ?_⟩
                        cases h
                        exact Or.inr ⟨rest, m2, h2, rfl⟩
                      · apply StepKept.of_eq
                        rw [← hsame]
                        simp only [List.get?_eq_getElem?, List.getElem?_set_ne hij]
                  · apply StepKept.of_absent
                    rw [stepInto_idx s kx ih m hs hih, hg]
                    simp only [if_neg hneg, List.get?_eq_none.2 (not_lt.1 hin)]
        · obtain ⟨w, rfl⟩ := walk_writes_key field val kx ix rest m m' hv hw
          exact StepKept.of_eq field
            (stepInto_congr s kh ih m _ hs (mapGet_mapSet_ne _ _ _ _ hkey))

/-- No successful walk removes a conflict, in whatever container it is. -/
theorem walk_preserves_path_conflict (b : Bool) (field : Str) (P : List Str) (k : Str) :
    ∀ (segs : List Str) (m m' : Record), walk field segs m = .ok m' →
      PathConflict b P k m → PathConflict b P k m' := by
  induction P with
  | nil =>
    intro segs m m' hw hc
    exact walk_preserves_conflict b field [] k segs m m' hw hc
  | cons s P ih =>
    intro segs m m' hw hc
    have hk := walk_keeps_step field s segs m m' hw
    simp only [PathConflict] at hc ⊢
    cases hst : stepInto s m with
    | absent => rw [hst] at hc; exact hc.elim
    | blocked => rw [hk.1 hst]; trivial
    | into m1 =>
      rw [hst] at hc
      rcases hk.2 m1 hst with hb | ⟨rest, m2, h2, hi⟩
      · rw [hb]; trivial
      · rw [hi]
        exact ih rest m1 m2 h2 hc

/-- After a successful walk through any segments `P` and an array segment with
key `k`, a walk that wants a map at `k` below `P` is in conflict. -/
theorem walk_array_makes_path_conflict (field : Str) (P : List Str) (seg k : Str) (idx : Int)
    (tail : List Str) (hseg : arrayContentMatch seg = .ok (k, idx)) (hidx : idx ≠ -1) :
    ∀ (m m' : Record), walk field (P ++ seg :: tail) m = .ok m' →
      PathConflict false P k m' := by
  induction P with
  | nil =>
    intro m m' h
    exact walk_array_makes_conflict field [] seg k idx tail hseg hidx m m'
      (fun _ hs => by simp at hs) h
  | cons s P ih =>
    intro m m' h
    obtain ⟨m1, m2, h2, hi, _⟩ := walk_step_ok field s (P ++ seg :: tail) m m' (by simp) h
    simp only [PathConflict, hi]
    exact ih m1 m2 h2

/-- After a successful walk through any segments `P` and the plain non-final
key `k`, a walk that wants an array at `k` below `P` is in conflict. -/
theorem walk_map_makes_path_conflict (field : Str) (P : List Str) (k : Str)
    (tail : List Str) (hk : arrayContentMatch k = .ok (k, -1)) (htail : tail ≠ []) :
    ∀ (m m' : Record), walk field (P ++ k :: tail) m = .ok m' →
      PathConflict true P k m' := by
  induction P with
  | nil =>
    intro m m' h
    exact walk_map_makes_conflict field [] k tail hk htail m m' (fun _ hs => by simp at hs) h
  | cons s P ih =>
    intro m m' h
    obtain ⟨m1, m2, h2, hi, _⟩ := walk_step_ok field s (P ++ k :: tail) m m' (by simp) h
    simp only [PathConflict, hi]
    exact ih m1 m2 h2

/-- A walk that wants a map at a key in conflict does not succeed. -/
theorem walk_map_hits_path_conflict (field : Str) (P : List Str) (k : Str)
    (tail : List Str) (hk : arrayContentMatch k = .ok (k, -1)) (htail : tail ≠ []) :
    ∀ (m m' : Record), PathConflict false P k m →
      walk field (P ++ k :: tail) m ≠ .ok m' := by
  induction P with
  | nil =>
    intro m m' hc h
    rw [walk_map_hits_conflict field [] k tail hk htail m (fun _ hs => by simp at hs) hc] at h
    cases h
  | cons s P ih =>
    intro m m' hc h
    obtain ⟨m1, m2, h2, _, hst⟩ := walk_step_ok field s (P ++ k :: tail) m m' (by simp) h
    simp only [PathConflict] at hc
    rcases hst with hst | hst
    · rw [hst] at hc; exact hc
    · rw [hst] at hc; exact ih m1 m2 hc h2

/-- A walk that wants an array at a key in conflict does not succeed. -/
theorem walk_array_hits_path_conflict (field : Str) (P : List Str) (seg k : Str) (idx : Int)
    (tail : List Str) (hseg : arrayContentMatch seg = .ok (k, idx)) (hidx : idx ≠ -1) :
    ∀ (m m' : Record), PathConflict true P k m →
      walk field (P ++ seg :: tail) m ≠ .ok m' := by
  induction P with
  | nil =>
    intro m m' hc h
    rw [walk_array_hits_conflict field [] seg k idx tail hseg hidx m
      (fun _ hs => by simp at hs) hc] at h
    cases h
  | cons s P ih =>
    intro m m' hc h
    obtain ⟨m1, m2, h2, _, hst⟩ := walk_step_ok field s (P ++ seg :: tail) m m' (by simp) h
    simp only [PathConflict] at hc
    rcases hst with hst | hst
    · rw [hst] at hc; exact hc
    · rw [hst] at hc; exact ih m1 m2 hc h2

/-- Where a segment leads depends on how it is read only. -/
theorem stepInto_seg_congr (s s1 : Str) (m : Record)
    (h : arrayContentMatch s = arrayContentMatch s1) : stepInto s m = stepInto s1 m := by
  simp only [stepInto, h]

/-- A conflict below segments depends on how the segments are read only. -/
theorem PathConflict_congr (b : Bool) (k : Str) :
    ∀ (P P1 : List Str) (m : Record), P1.map arrayContentMatch = P.map arrayContentMatch →
      (PathConflict b P1 k m ↔ PathConflict b P k m) := by
  intro P
  induction P with
  | nil =>
    intro P1 m h
    cases P1 with
    | nil => exact Iff.rfl
    | cons s P1 => simp at h
  | cons s P ih =>
    intro P1 m h
    cases P1 with
    | nil => simp at h
    | cons s1 P1 =>
      simp only [List.map_cons, List.cons.injEq] at h
      simp only [PathConflict, stepInto_seg_congr s1 s m h.1]
      cases stepInto s m with
      | absent => exact Iff.rfl
      | blocked => exact Iff.rfl
      | into m1 => exact ih P1 m1 h.2

/-- Through a segment that leads into a map, a walk of further segments fails
the way the walk of those segments fails in that map. -/
theorem walk_into_error (field s : Str) (rest : List Str) (m m1 : Record) (p : Panic)
    (hrest : rest ≠ []) (hst : stepInto s m = .into m1)
    (hw : walk field rest m1 = .error p) : walk field (s :: rest) m = .error p := by
  cases hs : arrayContentMatch s with
  | error q => simp only [stepInto, hs] at hst; cases hst
  | ok res =>
    obtain ⟨key, idx⟩ := res
    by_cases hidx : idx = -1
    · subst hidx
      rw [stepInto_key s key m hs] at hst
      cases hg : mapGet m key with
      | none => rw [hg] at hst; cases hst
      | some v =>
        rw [hg] at hst
        cases v with
        | map m0 =>
          simp only [Step.into.injEq] at hst
          subst hst
          rw [walk]
          simp only [hs, hg, Option.getD_some, hw, if_neg hrest, ne_eq, not_true_eq_false,
            if_false]
        | int n => cases hst
        | bool b => cases hst
        | str t => cases hst
        | arr xs => cases hst
    · rw [stepInto_idx s key idx m hs hidx] at hst
      cases hg : mapGet m key with
      | none => rw [hg] at hst; cases hst
      | some v =>
        rw [hg] at hst
        cases v with
        | arr xs =>
          by_cases hneg : idx < 0
          · simp only [if_pos hneg] at hst; cases hst
          · simp only [if_neg hneg] at hst
            cases he : xs.get? idx.toNat with
            | none => rw [he] at hst; cases hst
            | some e =>
              rw [he] at hst
              cases e with
              | map m0 =>
                simp only [Step.into.injEq] at hst
                subst hst
                have hlt : idx.toNat < xs.length := by
                  by_contra hcon
                  rw [List.get?_eq_none.2 (not_lt.1 hcon)] at he
                  cases he
                have hlt1 : ¬ idx ≥ (xs.length : Int) := by omega
                rw [walk]
                simp only [hs, hg, Option.getD_some, if_neg hrest, ne_eq, hidx,
                  not_false_eq_true, if_true, if_neg hlt1, hneg, false_or, he, hw]
              | int n => cases hst
              | bool b => cases hst
              | str t => cases hst
              | arr ys => cases hst
        | int n => cases hst
        | bool b => cases hst
        | str t => cases hst
        | map m0 => cases hst

/-- After a successful walk that reaches `k` below `P` as an array, a walk that
reaches `k` below segments read like `P` as a map fails its type assertion. -/
theorem walk_array_then_map (f1 f2 seg k : Str) (idx : Int) (tA tM : List Str)
    (hseg : arrayContentMatch seg = .ok (k, idx)) (hidx : idx ≠ -1)
    (hk : arrayContentMatch k = .ok (k, -1)) (htM : tM ≠ []) :
    ∀ (P1 P2 : List Str) (m m' : Record),
      P1.map arrayContentMatch = P2.map arrayContentMatch →
      walk f1 (P1 ++ seg :: tA) m = .ok m' →
      walk f2 (P2 ++ k :: tM) m' = .error .interfaceConversion := by
  intro P1
  induction P1 with
  | nil =>
    intro P2 m m' hP h
    cases P2 with
    | cons s P2 => simp at hP
    | nil =>
      exact walk_map_hits_conflict f2 [] k tM hk htM m' (fun _ hs => by simp at hs)
        (walk_array_makes_conflict f1 [] seg k idx tA hseg hidx m m'
          (fun _ hs => by simp at hs) h)
  | cons s P1 ih =>
    intro P2 m m' hP h
    cases P2 with
    | nil => simp at hP
    | cons s2 P2 =>
      simp only [List.map_cons, List.cons.injEq] at hP
      obtain ⟨m1, m2, h2, hi, _⟩ := walk_step_ok f1 s (P1 ++ seg :: tA) m m' (by simp) h
      rw [stepInto_seg_congr s s2 m' hP.1] at hi
      exact walk_into_error f2 s2 (P2 ++ k :: tM) m' m2 _ (by simp) hi (ih P2 m1 m2 hP.2 h2)

/-- After a successful walk that reaches `k` below `P` as a map, a walk that
reaches `k` below segments read like `P` as an array fails its type assertion. -/
theorem walk_map_then_array (f1 f2 seg k : Str) (idx : Int) (tA tM : List Str)
    (hseg : arrayContentMatch seg = .ok (k, idx)) (hidx : idx ≠ -1)
    (hk : arrayContentMatch k = .ok (k, -1)) (htM : tM ≠ []) :
    ∀ (P1 P2 : List Str) (m m' : Record),
      P1.map arrayContentMatch = P2.map arrayContentMatch →
      walk f1 (P1 ++ k :: tM) m = .ok m' →
      walk f2 (P2 ++ seg :: tA) m' = .error .interfaceConversion := by
  intro P1
  induction P1 with
  | nil =>
    intro P2 m m' hP h
    cases P2 with
    | cons s P2 => simp at hP
    | nil =>
      exact walk_array_hits_conflict f2 [] seg k idx tA hseg hidx m' (fun _ hs => by simp at hs)
        (walk_map_makes_conflict f1 [] k tM hk htM m m' (fun _ hs => by simp at hs) h)
  | cons s P1 ih =>
    intro P2 m m' hP h
    cases P2 with
    | nil => simp at hP
    | cons s2 P2 =>
      simp only [List.map_cons, List.cons.injEq] at hP
      obtain ⟨m1, m2, h2, hi, _⟩ := walk_step_ok f1 s (P1 ++ k :: tM) m m' (by simp) h
      rw [stepInto_seg_congr s s2 m' hP.1] at hi
      exact walk_into_error f2 s2 (P2 ++ seg :: tA) m' m2 _ (by simp) hi (ih P2 m1 m2 hP.2 h2)

/-- A header cannot reach the same key below the same segments in both shapes. -/
theorem not_array_and_map (P : List Str) (k header : Str)
    (hk : arrayContentMatch k = .ok (k, -1))
    (ha : ArrayAt P k header) (hm : MapAt P k header) : False := by
  obtain ⟨P1, seg, idx, tail, hsplit, hP1, hseg, hidx⟩ := ha
  obtain ⟨P2, tail2, _, hsplit2, hP2⟩ := hm
  rw [hsplit] at hsplit2
  have hlen : P1.length = P2.length := by
    have := congrArg List.length (hP1.trans hP2.symm)
    simpa using this
  have h := List.append_inj hsplit2 hlen
  simp only [List.cons.injEq] at h
  rw [h.2.1, hk] at hseg
  simp only [Except.ok.injEq, Prod.mk.injEq] at hseg
  exact hidx hseg.2.symm

theorem header_makes_path_conflict (asArr : Bool) (field : Str) (P : List Str) (k header : Str)
    (hk : arrayContentMatch k = .ok (k, -1))
    (hr : Reaches asArr P k header) (m m' : Record)
    (h : walk field (split '.' header) m = .ok m') : PathConflict (!asArr) P k m' := by
  cases asArr with
  | true =>
    obtain ⟨P1, seg, idx, tail, hsplit, hP1, hseg, hidx⟩ := hr
    rw [hsplit] at h
    exact (PathConflict_congr _ k P P1 m' hP1).1
      (walk_array_makes_path_conflict field P1 seg k idx tail hseg hidx m m' h)
  | false =>
    obtain ⟨P1, tail, htail, hsplit, hP1⟩ := hr
    rw [hsplit] at h
    exact (PathConflict_congr _ k P P1 m' hP1).1
      (walk_map_makes_path_conflict field P1 k tail hk htail m m' h)

theorem header_hits_path_conflict (asArr : Bool) (field : Str) (P : List Str) (k header : Str)
    (hk : arrayContentMatch k = .ok (k, -1))
    (hr : Reaches asArr P k header) (m m' : Record) (hc : PathConflict asArr P k m) :
    walk field (split '.' header) m ≠ .ok m' := by
  cases asArr with
  | true =>
    obtain ⟨P1, seg, idx, tail, hsplit, hP1, hseg, hidx⟩ := hr
    rw [hsplit]
    exact walk_array_hits_path_conflict field P1 seg k idx tail hseg hidx m m'
      ((PathConflict_congr _ k P P1 m hP1).2 hc)
  | false =>
    obtain ⟨P1, tail, htail, hsplit, hP1⟩ := hr
    rw [hsplit]
    exact walk_map_hits_path_conflict field P1 k tail hk htail m m'
      ((PathConflict_congr _ k P P1 m hP1).2 hc)

/-- From a record in conflict, a line that has a field for a column whose
header wants the other shape makes the field loop panic. -/
theorem fillLine_hits_path_conflict (asArr : Bool) (P : List Str) (k : Str)
    (hk : arrayContentMatch k = .ok (k, -1)) (hs : List Str) :
    ∀ (fs : List Str) (r : Record) (j : Nat) (hj : Str), PathConflict asArr P k r →
      hs.get? j = some hj → j < fs.length → Reaches asArr P k hj →
      ∃ p, fillLine hs fs 0 r = .error p := by
  induction hs with
  | nil => intro fs r j hj _ hget; simp at hget
  | cons h hs ih =>
    intro fs r j hj hc hget hlt hr
    cases fs with
    | nil => simp at hlt
    | cons f fs =>
      rw [fillLine_cons_cons]
      cases hw : walk f (split '.' h) r with
      | error p => exact ⟨p, rfl⟩
      | ok r1 =>
        cases j with
        | zero =>
          simp only [List.get?_cons_zero, Option.some.injEq] at hget
          subst hget
          exact absurd hw (header_hits_path_conflict asArr f P k h hk hr r r1 hc)
        | succ j =>
          exact ih fs r1 j hj (walk_preserves_path_conflict asArr f P k _ r r1 hw hc)
            (by simpa using hget) (by simpa using hlt) hr

/-- A line with fields for two columns whose headers reach the same key of the
same container in the two shapes makes the field loop panic. -/
theorem fillLine_path_conflict (asArr : Bool) (P : List Str) (k : Str)
    (hk : arrayContentMatch k = .ok (k, -1)) (hs : List Str) :
    ∀ (fs : List Str) (r : Record) (i j : Nat) (hi hj : Str), i < j →
      hs.get? i = some hi → hs.get? j = some hj → j < fs.length →
      Reaches (!asArr) P k hi → Reaches asArr P k hj →
      ∃ p, fillLine hs fs 0 r = .error p := by
  induction hs with
  | nil => intro fs r i j hi hj _ hget; simp at hget
  | cons h hs ih =>
    intro fs r i j hi hj hij hgi hgj hlt hri hrj
    cases fs with
    | nil => simp at hlt
    | cons f fs =>
      rw [fillLine_cons_cons]
      cases hw : walk f (split '.' h) r with
      | error p => exact ⟨p, rfl⟩
      | ok r1 =>
        cases j with
        | zero => omega
        | succ j =>
          have hgj' : hs.get? j = some hj := by simpa using hgj
          have hlt' : j < fs.length := by simpa using hlt
          cases i with
          | zero =>
            simp only [List.get?_cons_zero, Option.some.injEq] at hgi
            subst hgi
            have hc := header_makes_path_conflict (!asArr) f P k h hk hri r r1 hw
            rw [Bool.not_not] at hc
            exact fillLine_hits_path_conflict asArr P k hk hs fs r1 j hj hc hgj' hlt' hrj
          | succ i =>
            exact ih fs r1 i j hi hj (by omega) (by simpa using hgi) hgj' hlt' hri hrj

/-! ## The claims -/

/-- C1: whenever `transformToMap` succeeds on a header row followed by data
rows, it returns exactly one record per data row, with a nil error; a header row
alone yields the empty sequence and no error. -/
theorem transformToMap_length (headers : List Str) (lines : List (List Str)) :
    (∀ recs err, transformToMap (headers :: lines) = .ok (recs, err) →
      recs.length = lines.length ∧ err = none) ∧
    transformToMap [headers] = .ok ([], none) := by
  refine ⟨?_, rfl⟩
  intro recs err h
  obtain ⟨he, hall⟩ := (transformToMap_ok_iff _ _ _ _).1 h
  exact ⟨hall.length_eq.symm, he⟩

theorem transformToMap_length_witness :
    transformToMap ["a[0]".toList :: ["b.c".toList], ["x".toList, "1".toList],
        ["y".toList, "true".toList]] =
      .ok ([[("a".toList, .arr [.str "x".toList]), ("b".toList, .map [("c".toList, .int 1)])],
            [("a".toList, .arr [.str "y".toList]),
             ("b".toList, .map [("c".toList, .bool true)])]], none) ∧
    (2 = [["x".toList, "1".toList], ["y".toList, "true".toList]].length ∧
      (none : Option GoError) = none) :=
  ⟨rfl, (transformToMap_length ["a[0]".toList, "b.c".toList]
    [["x".toList, "1".toList], ["y".toList, "true".toList]]).1
    [[("a".toList, .arr [.str "x".toList]), ("b".toList, .map [("c".toList, .int 1)])],
     [("a".toList, .arr [.str "y".toList]), ("b".toList, .map [("c".toList, .bool true)])]]
    none rfl⟩

/-- C2: records are built per row and in row order: when `transformToMap`
succeeds on a header row and data rows, the `i`-th record it returns is the
single record `transformToMap` returns for the header row with the `i`-th data
row alone. -/
theorem transformToMap_rowwise (headers : List Str) (lines : List (List Str))
    (recs : List Record) (err : Option GoError)
    (h : transformToMap (headers :: lines) = .ok (recs, err)) :
    recs.length = lines.length ∧
    ∀ i (hi : i < lines.length) (hr : i < recs.length),
      transformToMap [headers, lines.get ⟨i, hi⟩] = .ok ([recs.get ⟨i, hr⟩], none) := by
  obtain ⟨_, hall⟩ := (transformToMap_ok_iff _ _ _ _).1 h
  refine ⟨hall.length_eq.symm, ?_⟩
  intro i hi hr
  have := List.Forall₂.get hall hi hr
  exact (transformToMap_ok_iff _ _ _ _).2 ⟨rfl, List.Forall₂.cons this List.Forall₂.nil⟩

theorem transformToMap_rowwise_witness :
    transformToMap [["a[0]".toList], ["x".toList], ["y".toList]] =
      .ok ([[("a".toList, .arr [.str "x".toList])], [("a".toList, .arr [.str "y".toList])]],
        none) ∧
    transformToMap [["a[0]".toList], ["y".toList]] =
      .ok ([[("a".toList, .arr [.str "y".toList])]], none) :=
  ⟨rfl, (transformToMap_rowwise ["a[0]".toList] [["x".toList], ["y".toList]]
    [[("a".toList, .arr [.str "x".toList])], [("a".toList, .arr [.str "y".toList])]] none rfl).2 1
    (by decide) (by decide)⟩

/-- C3: round trip for dotted headers: for bracket-free headers whose dotted
key paths are pairwise distinct and not prefixes of one another, and a data row
with as many fields as there are headers, the conversion succeeds and following
the keys of header `i` through the nested maps of the record reaches exactly the
coerced value of field `i`. -/
theorem dotted_round_trip (headers fields : List Str)
    (hlen : fields.length = headers.length)
    (hfree : ∀ h ∈ headers, '[' ∉ h ∧ ']' ∉ h)
    (hpre : PrefixFree (headers.map (split '.'))) :
    ∃ r, transformToMap [headers, fields] = .ok ([r], none) ∧
      ∀ i (hi : i < headers.length) (hf : i < fields.length),
        lookupPath r (split '.' (headers.get ⟨i, hi⟩)) = some (coerce (fields.get ⟨i, hf⟩)) := by
  obtain ⟨r, hfill, hread, _⟩ := fillLine_plain headers fields [] (le_of_eq hlen)
    (fun h hh => (hfree h hh).1) hpre (fun h _ => Walkable_nil_record _)
  exact ⟨r, (transformToMap_ok_iff _ _ _ _).2 ⟨rfl, List.Forall₂.cons hfill List.Forall₂.nil⟩,
    hread⟩

theorem dotted_round_trip_witness :
    (["x".toList, "007".toList, "true".toList].length =
      ["a.b".toList, "a.c".toList, "d".toList].length ∧
     (∀ h ∈ ["a.b".toList, "a.c".toList, "d".toList], '[' ∉ h ∧ ']' ∉ h) ∧
     PrefixFree (["a.b".toList, "a.c".toList, "d".toList].map (split '.'))) ∧
    ∃ r, transformToMap [["a.b".toList, "a.c".toList, "d".toList],
        ["x".toList, "007".toList, "true".toList]] = .ok ([r], none) ∧
      ∀ i (hi : i < ["a.b".toList, "a.c".toList, "d".toList].length)
        (hf : i < ["x".toList, "007".toList, "true".toList].length),
        lookupPath r (split '.' (["a.b".toList, "a.c".toList, "d".toList].get ⟨i, hi⟩)) =
          some (coerce (["x".toList, "007".toList, "true".toList].get ⟨i, hf⟩)) :=
  ⟨⟨rfl, by decide, by unfold PrefixFree; decide⟩,
    dotted_round_trip ["a.b".toList, "a.c".toList, "d".toList]
      ["x".toList, "007".toList, "true".toList] rfl (by decide) (by unfold PrefixFree; decide)⟩

/-- C4, the claim fails: a data row with fewer fields than the header row is
converted without any error, and its record lacks the key of the missing
column. -/
theorem short_row_accepted :
    transformToMap [["a".toList, "b".toList], ["1".toList]] =
      .ok ([[("a".toList, .int 1)]], none) := rfl

/-- C4 as amended: `transformToMap` makes no field-count check and returns no
error value.  When every data row has at most as many fields as the header row,
the conversion returns records exactly when each row, converted on its own
against the header row cut to the length of that row, returns its record: a
short row yields the record of the columns it has. -/
theorem short_rows_truncate_header (headers : List Str) (lines : List (List Str))
    (hshort : ∀ line ∈ lines, line.length ≤ headers.length)
    (recs : List Record) (err : Option GoError) :
    transformToMap (headers :: lines) = .ok (recs, err) ↔
      err = none ∧
      List.Forall₂ (fun line r =>
        transformToMap [headers.take line.length, line] = .ok ([r], none)) lines recs := by
  rw [transformToMap_ok_iff]
  have key : ∀ line ∈ lines, ∀ r,
      (fillLine headers line 0 [] = .ok r ↔
        transformToMap [headers.take line.length, line] = .ok ([r], none)) := by
    intro line hl r
    rw [transformToMap_ok_iff, fillLine_take headers line [] (hshort line hl)]
    constructor
    · intro h
      exact ⟨rfl, List.Forall₂.cons h List.Forall₂.nil⟩
    · rintro ⟨_, h⟩
      cases h with
      | cons h _ => exact h
  constructor
  · rintro ⟨he, hall⟩
    refine ⟨he, ?_⟩
    clear he
    induction hall with
    | nil => exact List.Forall₂.nil
    | @cons line r lines recs h _ ih =>
      exact List.Forall₂.cons ((key line (List.mem_cons_self _ _) r).1 h)
        (ih (fun l hl => hshort l (List.mem_cons_of_mem _ hl))
          (fun l hl => key l (List.mem_cons_of_mem _ hl)))
  · rintro ⟨he, hall⟩
    refine ⟨he, ?_⟩
    clear he
    induction hall with
    | nil => exact List.Forall₂.nil
    | @cons line r lines recs h _ ih =>
      exact List.Forall₂.cons ((key line (List.mem_cons_self _ _) r).2 h)
        (ih (fun l hl => hshort l (List.mem_cons_of_mem _ hl))
          (fun l hl => key l (List.mem_cons_of_mem _ hl)))

theorem short_rows_truncate_header_witness :
    (∀ line ∈ [["1".toList], ["x".toList, "y".toList]],
      line.length ≤ ["a".toList, "b".toList].length) ∧
    (transformToMap [["a".toList, "b".toList], ["1".toList], ["x".toList, "y".toList]] =
        .ok ([[("a".toList, .int 1)],
              [("a".toList, .str "x".toList), ("b".toList, .str "y".toList)]], none) ↔
      (none : Option GoError) = none ∧
      List.Forall₂ (fun line r =>
        transformToMap [["a".toList, "b".toList].take line.length, line] = .ok ([r], none))
        [["1".toList], ["x".toList, "y".toList]]
        [[("a".toList, .int 1)],
         [("a".toList, .str "x".toList), ("b".toList, .str "y".toList)]]) :=
  ⟨by decide, short_rows_truncate_header ["a".toList, "b".toList]
    [["1".toList], ["x".toList, "y".toList]] (by decide) _ _⟩

/-- C5, the claim fails: on each of the inputs the claim lists the conversion
aborts with a run-time panic (no header row, a data row longer than the header
row, a sparse first index, a negative index, the segment `]a[`, and a path-type
conflict in either order). -/
theorem transformToMap_panics :
    transformToMap [] = .error .indexOutOfRange ∧
    transformToMap [["a".toList], ["1".toList, "2".toList]] = .error .indexOutOfRange ∧
    transformToMap [["a[1].b".toList], ["1".toList]] = .error .indexOutOfRange ∧
    transformToMap [["a[-2].b".toList], ["1".toList]] = .error .indexOutOfRange ∧
    transformToMap [["]a[".toList], ["1".toList]] = .error .sliceBounds ∧
    transformToMap [["a[0]".toList, "a.b".toList], ["1".toList, "2".toList]] =
      .error .interfaceConversion ∧
    transformToMap [["a.b".toList, "a[0]".toList], ["1".toList, "2".toList]] =
      .error .interfaceConversion :=
  ⟨rfl, rfl, rfl, rfl, rfl, rfl, rfl⟩

/-- C5 as amended: `transformToMap` returns no error value, so a conversion
that returns at all returns the records with a nil error; and it does complete
normally for every input that has a header row of `[`-free headers whose dotted
paths are pairwise distinct and not prefixes of one another, and data rows with
at most as many fields as the header row. -/
theorem transformToMap_completes :
    (∀ src recs err, transformToMap src = .ok (recs, err) → err = none) ∧
    (∀ (headers : List Str) (lines : List (List Str)),
      (∀ h ∈ headers, '[' ∉ h) → PrefixFree (headers.map (split '.')) →
      (∀ line ∈ lines, line.length ≤ headers.length) →
      ∃ recs, transformToMap (headers :: lines) = .ok (recs, none)) := by
  constructor
  · intro src recs err h
    cases src with
    | nil => simp [transformToMap] at h
    | cons headers lines => exact ((transformToMap_ok_iff _ _ _ _).1 h).1
  · intro headers lines hfree hpre hshort
    have : ∃ recs, List.Forall₂ (fun line r => fillLine headers line 0 [] = .ok r) lines recs := by
      induction lines with
      | nil => exact ⟨[], List.Forall₂.nil⟩
      | cons line lines ih =>
        obtain ⟨recs, hrecs⟩ := ih (fun l hl => hshort l (List.mem_cons_of_mem _ hl))
        obtain ⟨r, hr, _⟩ := fillLine_plain headers line []
          (hshort line (List.mem_cons_self _ _)) hfree hpre (fun h _ => Walkable_nil_record _)
        exact ⟨r :: recs, List.Forall₂.cons hr hrecs⟩
    obtain ⟨recs, hrecs⟩ := this
    exact ⟨recs, (transformToMap_ok_iff _ _ _ _).2 ⟨rfl, hrecs⟩⟩

theorem transformToMap_completes_witness :
    ((∀ h ∈ ["a.b".toList, "c".toList], '[' ∉ h) ∧
      PrefixFree (["a.b".toList, "c".toList].map (split '.')) ∧
      (∀ line ∈ [["1".toList, "x".toList], ["true".toList]],
        line.length ≤ ["a.b".toList, "c".toList].length)) ∧
    ∃ recs, transformToMap [["a.b".toList, "c".toList], ["1".toList, "x".toList],
      ["true".toList]] = .ok (recs, none) :=
  ⟨⟨by decide, by unfold PrefixFree; decide, by decide⟩,
    transformToMap_completes.2 ["a.b".toList, "c".toList]
      [["1".toList, "x".toList], ["true".toList]] (by decide) (by unfold PrefixFree; decide)
      (by decide)⟩

/-- C6: scalar coercion follows the ordered rules integer, boolean, string and
never fails: for a header that is a single plain key, the conversion of any
field succeeds and stores `coerce field` at the key, where `coerce` is the
integer value when the field is a base-10 integer, else the boolean for exactly
`true` or `false`, else the field itself; so `007` is stored as the integer 7,
and `True`, `abc`, `3.14` and the empty string stay strings. -/
theorem scalar_coercion_rules (key : Str) (hdot : '.' ∉ key) (hopen : '[' ∉ key) :
    (∀ field, transformToMap [[key], [field]] = .ok ([[(key, coerce field)]], none)) ∧
    (∀ field n, signedDecimal? field = some n → coerce field = .int n) ∧
    (∀ field, signedDecimal? field = none → field = "true".toList → coerce field = .bool true) ∧
    (∀ field, signedDecimal? field = none → field = "false".toList →
      coerce field = .bool false) ∧
    (∀ field, signedDecimal? field = none → field ≠ "true".toList → field ≠ "false".toList →
      coerce field = .str field) ∧
    transformToMap [[key], ["007".toList]] = .ok ([[(key, .int 7)]], none) ∧
    transformToMap [[key], ["true".toList]] = .ok ([[(key, .bool true)]], none) ∧
    transformToMap [[key], ["false".toList]] = .ok ([[(key, .bool false)]], none) ∧
    transformToMap [[key], ["True".toList]] = .ok ([[(key, .str "True".toList)]], none) ∧
    transformToMap [[key], ["abc".toList]] = .ok ([[(key, .str "abc".toList)]], none) ∧
    transformToMap [[key], ["3.14".toList]] = .ok ([[(key, .str "3.14".toList)]], none) ∧
    transformToMap [[key], ["".toList]] = .ok ([[(key, .str [])]], none) := by
  have hall := fun field =>
    transformToMap_plain_key key field hdot (arrayContentMatch_no_open key hopen)
  refine ⟨hall, ?_, ?_, ?_, ?_, hall _, hall _, hall _, hall _, hall _, hall _, hall _⟩
  · intro field n h
    exact (coerce_eq_int_iff field n).2 h
  · intro field h ht
    subst ht
    rfl
  · intro field h hf
    subst hf
    rfl
  · intro field h ht hf
    simp only [coerce, h, if_neg ht, if_neg hf]

theorem scalar_coercion_rules_witness :
    ('.' ∉ "n".toList ∧ '[' ∉ "n".toList) ∧
    transformToMap [["n".toList], ["-12".toList]] = .ok ([[("n".toList, .int (-12))]], none) :=
  ⟨by decide, (scalar_coercion_rules "n".toList (by decide) (by decide)).1 "-12".toList⟩

/-- C7, the claim fails: the field `+5` is not of the form "optional `-`, then
digits", yet it is stored as the integer 5. -/
theorem plus_sign_stored_as_integer :
    minusDecimal? "+5".toList = none ∧
    transformToMap [["a".toList], ["+5".toList]] = .ok ([[("a".toList, .int 5)]], none) ∧
    transformToMap [["a[0]".toList], ["+5".toList]] =
      .ok ([[("a".toList, .arr [.int 5])]], none) :=
  ⟨rfl, rfl, rfl⟩

/-- C7 as amended: the stored scalar is the integer `n` exactly when the field
is an optional leading `-` or `+` followed by one or more decimal digits whose
signed value `n` lies within the 64-bit range `-2^63 .. 2^63-1`; this holds for
the write at a plain key and for the append at a bracketed final segment. -/
theorem stored_integer_iff (key field : Str) (n : Int)
    (hdot : '.' ∉ key) (hopen : '[' ∉ key) (hclose : ']' ∉ key) :
    (transformToMap [[key], [field]] = .ok ([[(key, .int n)]], none) ↔
      signedDecimal? field = some n) ∧
    (transformToMap [[key ++ "[0]".toList], [field]] = .ok ([[(key, .arr [.int n])]], none) ↔
      signedDecimal? field = some n) := by
  have h1 := transformToMap_plain_key key field hdot (arrayContentMatch_no_open key hopen)
  have h2 := transformToMap_bracket_key key "0".toList field hdot hopen hclose
    (by decide) (by decide) (by decide)
  have h2' : transformToMap [[key ++ "[0]".toList], [field]] =
      .ok ([[(key, .arr [coerce field])]], none) := h2
  rw [h1, h2', ← coerce_eq_int_iff]
  constructor
  · constructor
    · intro h
      simpa using h
    · intro h
      rw [h]
  · constructor
    · intro h
      simpa using h
    · intro h
      rw [h]

theorem stored_integer_iff_witness :
    ('.' ∉ "a".toList ∧ '[' ∉ "a".toList ∧ ']' ∉ "a".toList) ∧
    (transformToMap [["a".toList], ["+5".toList]] = .ok ([[("a".toList, .int 5)]], none) ↔
      signedDecimal? "+5".toList = some 5) ∧
    (transformToMap [["a".toList ++ "[0]".toList], ["+5".toList]] =
        .ok ([[("a".toList, .arr [.int 5])]], none) ↔
      signedDecimal? "+5".toList = some 5) :=
  ⟨by decide, stored_integer_iff "a".toList "+5".toList 5 (by decide) (by decide) (by decide)⟩

/-- C8: coercion is idempotent through its textual form: for every raw string
`x` and plain key, converting `x` stores `coerce x`, converting the rendered
text of that value stores the same value again, and
`coerce (render (coerce x)) = coerce x`. -/
theorem coercion_idempotent (x : Str) :
    coerce (render (coerce x)) = coerce x ∧
    ∀ key, '.' ∉ key → '[' ∉ key →
      transformToMap [[key], [x]] = .ok ([[(key, coerce x)]], none) ∧
      transformToMap [[key], [render (coerce x)]] = .ok ([[(key, coerce x)]], none) := by
  refine ⟨coerce_render_coerce x, ?_⟩
  intro key hdot hopen
  have h := fun field =>
    transformToMap_plain_key key field hdot (arrayContentMatch_no_open key hopen)
  refine ⟨h x, ?_⟩
  rw [h (render (coerce x)), coerce_render_coerce]

theorem coercion_idempotent_witness :
    ('.' ∉ "a".toList ∧ '[' ∉ "a".toList) ∧
    transformToMap [["a".toList], ["007".toList]] =
      .ok ([[("a".toList, coerce "007".toList)]], none) ∧
    transformToMap [["a".toList], [render (coerce "007".toList)]] =
      .ok ([[("a".toList, coerce "007".toList)]], none) :=
  ⟨by decide, (coercion_idempotent "007".toList).2 "a".toList (by decide) (by decide)⟩

/-- C9, the claim fails: headers with malformed bracket syntax (`a[x]`, `a[]`,
`b[`, `c]`) are converted without any error; the non-integer bracket contents
are read as an index and the unmatched brackets stay part of the key. -/
theorem malformed_brackets_accepted :
    transformToMap [["a[x]".toList, "a[]".toList, "b[".toList, "c]".toList],
        ["1".toList, "2".toList, "3".toList, "4".toList]] =
      .ok ([[("a".toList, .arr [.int 1, .int 2]), ("b[".toList, .int 3),
             ("c]".toList, .int 4)]], none) := rfl

/-- C9 as amended: no parse error exists.  A header `key[content]` whose bracket
content is not an integer is treated as an array segment (the failed parse
leaves an index other than -1), so as a whole header it makes the conversion
append the coerced field to the array at `key`; a header with only one kind of
bracket is taken whole as a plain key. -/
theorem malformed_brackets_converted (key content field : Str)
    (hdot : '.' ∉ key) (hopen : '[' ∉ key) (hclose : ']' ∉ key)
    (hcdot : '.' ∉ content) (hcclose : ']' ∉ content)
    (hbad : signedDecimal? content = none) :
    transformToMap [[key ++ '[' :: (content ++ "]".toList)], [field]] =
      .ok ([[(key, .arr [coerce field])]], none) ∧
    transformToMap [[key ++ '[' :: content], [field]] =
      .ok ([[(key ++ '[' :: content, coerce field)]], none) ∧
    transformToMap [[key ++ "]".toList], [field]] =
      .ok ([[(key ++ "]".toList, coerce field)]], none) := by
  refine ⟨?_, ?_, ?_⟩
  · exact transformToMap_bracket_key key content field hdot hopen hclose hcdot hcclose
      ((Atoi_spec content).2 hbad).val_ne_neg_one
  · apply transformToMap_plain_key
    · simp only [List.mem_append, List.mem_cons, not_or]
      exact ⟨hdot, by decide, hcdot⟩
    · apply arrayContentMatch_no_close
      simp only [List.mem_append, List.mem_cons, not_or]
      exact ⟨hclose, by decide, hcclose⟩
  · apply transformToMap_plain_key
    · simp only [List.mem_append, not_or]
      exact ⟨hdot, by decide⟩
    · apply arrayContentMatch_no_open
      simp only [List.mem_append, not_or]
      exact ⟨hopen, by decide⟩

theorem malformed_brackets_converted_witness :
    (('.' ∉ "a".toList ∧ '[' ∉ "a".toList ∧ ']' ∉ "a".toList) ∧
      ('.' ∉ "x".toList ∧ ']' ∉ "x".toList) ∧ signedDecimal? "x".toList = none) ∧
    transformToMap [["a".toList ++ '[' :: ("x".toList ++ "]".toList)], ["v".toList]] =
      .ok ([[("a".toList, .arr [coerce "v".toList])]], none) ∧
    transformToMap [["a".toList ++ '[' :: "x".toList], ["v".toList]] =
      .ok ([[("a".toList ++ '[' :: "x".toList, coerce "v".toList)]], none) ∧
    transformToMap [["a".toList ++ "]".toList], ["v".toList]] =
      .ok ([[("a".toList ++ "]".toList, coerce "v".toList)]], none) :=
  ⟨⟨by decide, by decide, rfl⟩,
    malformed_brackets_converted "a".toList "x".toList "v".toList (by decide) (by decide)
      (by decide) (by decide) (by decide) rfl⟩

/-- C10, the claim fails: a path-type conflict produces no type-conflict error.
With the headers `items[0]` and `items.name`, in either column order, and with
the headers `x[0].a[0]` and `x[00].a.b`, which reach the key `a` of the same
array element, `transformToMap` ends in the run-time panic of a failed type
assertion: it returns nothing, neither records nor an error value.  And the
bracketed segment `a[-1]` is read as the plain key `a` (the slip of
`arrayContentMatch` on the index -1), so the headers `a[-1].c` and `a.b` do not
fail at all. -/
theorem type_conflict_is_panic :
    transformToMap [["items[0]".toList, "items.name".toList], ["1".toList, "2".toList]] =
      .error .interfaceConversion ∧
    transformToMap [["items.name".toList, "items[0]".toList], ["1".toList, "2".toList]] =
      .error .interfaceConversion ∧
    transformToMap [["x[0].a[0]".toList, "x[00].a.b".toList], ["1".toList, "2".toList]] =
      .error .interfaceConversion ∧
    transformToMap [["a[-1].c".toList, "a.b".toList], ["1".toList, "2".toList]] =
      .ok ([[("a".toList, .map [("c".toList, .int 1), ("b".toList, .int 2)])]], none) :=
  ⟨rfl, rfl, rfl, rfl⟩

/-- C10 as amended: a path-type conflict aborts the conversion with a run-time
panic; there is no type-conflict error value.  Let `k` be a key without `[`
and `P` any segments.  A header reaches `k` below `P` as an array when its
segments are read like `P`, segment by segment with the same keys and indexes,
and then comes a bracketed segment read with key `k` and an index other than
-1; it reaches `k` below `P` as a map when its segments are read like `P` and
then come `k` and at least one further segment.  Whenever a data row has fields
for two columns, one whose header reaches `k` below `P` as an array and one
whose header reaches `k` below `P` as a map, in either column order,
`transformToMap` ends in a run-time panic: it returns neither records nor an
error value, so no record is returned in which one shape replaced the other.
When the two headers are the only columns and the first one converts on its
own, the panic is the failed type assertion (`interface conversion`), in both
orders.  The segment `k[-1]`, which is read as the plain key `k`, is left out:
neither promised nor denied. -/
theorem path_type_conflict_panics (P : List Str) (k : Str) (hk : '[' ∉ k) :
    (∀ (headers : List Str) (lines : List (List Str)) (line : List Str) (a b : Nat)
        (hA hM : Str),
      line ∈ lines → headers.get? a = some hA → headers.get? b = some hM →
      a < line.length → b < line.length → ArrayAt P k hA → MapAt P k hM →
      ∃ p, transformToMap (headers :: lines) = .error p) ∧
    (∀ (hA hM f1 f2 : Str) (r : Record), ArrayAt P k hA → MapAt P k hM →
      transformToMap [[hA], [f1]] = .ok ([r], none) →
      transformToMap [[hA, hM], [f1, f2]] = .error .interfaceConversion) ∧
    (∀ (hA hM f1 f2 : Str) (r : Record), ArrayAt P k hA → MapAt P k hM →
      transformToMap [[hM], [f1]] = .ok ([r], none) →
      transformToMap [[hM, hA], [f1, f2]] = .error .interfaceConversion) := by
  have hk' : arrayContentMatch k = .ok (k, -1) := arrayContentMatch_no_open k hk
  have single : ∀ (h f : Str) (r : Record), transformToMap [[h], [f]] = .ok ([r], none) →
      walk f (split '.' h) [] = .ok r := by
    intro h f r hok
    have hall := ((transformToMap_ok_iff _ _ _ _).1 hok).2
    cases hall with
    | cons h1 _ =>
      rw [fillLine_cons_cons] at h1
      cases hw : walk f (split '.' h) [] with
      | error p => simp [hw] at h1
      | ok r1 =>
        simp only [hw, fillLine, Except.ok.injEq] at h1
        rw [h1]
  have pair : ∀ (h1 h2 f1 f2 : Str) (r : Record), walk f1 (split '.' h1) [] = .ok r →
      walk f2 (split '.' h2) r = .error .interfaceConversion →
      transformToMap [[h1, h2], [f1, f2]] = .error .interfaceConversion := by
    intro h1 h2 f1 f2 r hw1 hw2
    simp [transformToMap, convertLines, fillLine_cons_cons, hw1, hw2]
  refine ⟨?_, ?_, ?_⟩
  · intro headers lines line a b hA hM hmem hga hgb hal hbl harr hmap
    apply transformToMap_error_of_mem headers lines line hmem
    rcases Nat.lt_trichotomy a b with hab | hab | hab
    · exact fillLine_path_conflict false P k hk' headers line [] a b hA hM hab hga hgb hbl
        harr hmap
    · subst hab
      rw [hga] at hgb
      rw [Option.some.inj hgb] at harr
      exact (not_array_and_map P k hM hk' harr hmap).elim
    · exact fillLine_path_conflict true P k hk' headers line [] b a hM hA hab hgb hga hal
        hmap harr
  · intro hA hM f1 f2 r harr hmap hok
    have hw := single hA f1 r hok
    obtain ⟨P1, seg, idx, tA, hsA, hP1, hseg, hidx⟩ := harr
    obtain ⟨P2, tM, htM, hsM, hP2⟩ := hmap
    apply pair hA hM f1 f2 r hw
    rw [hsA] at hw
    rw [hsM]
    exact walk_array_then_map f1 f2 seg k idx tA tM hseg hidx hk' htM P1 P2 [] r
      (hP1.trans hP2.symm) hw
  · intro hA hM f1 f2 r harr hmap hok
    have hw := single hM f1 r hok
    obtain ⟨P1, seg, idx, tA, hsA, hP1, hseg, hidx⟩ := harr
    obtain ⟨P2, tM, htM, hsM, hP2⟩ := hmap
    apply pair hM hA f1 f2 r hw
    rw [hsM] at hw
    rw [hsA]
    exact walk_map_then_array f1 f2 seg k idx tA tM hseg hidx hk' htM P2 P1 [] r
      (hP2.trans hP1.symm) hw

theorem path_type_conflict_panics_witness :
    '[' ∉ "a".toList ∧
    (ArrayAt ["x[0]".toList] "a".toList "x[00].a[1]".toList ∧
      MapAt ["x[0]".toList] "a".toList "x[0].a.b".toList) ∧
    (∃ p, transformToMap [["id".toList, "x[0].a.b".toList, "n".toList, "x[00].a[1]".toList],
      ["7".toList, "1".toList], ["7".toList, "1".toList, "z".toList, "2".toList]] = .error p) ∧
    transformToMap [["x[00].a[1]".toList, "x[0].a.b".toList], ["1".toList, "2".toList]] =
      .error .interfaceConversion ∧
    transformToMap [["x[0].a.b".toList, "x[00].a[1]".toList], ["1".toList, "2".toList]] =
      .error .interfaceConversion :=
  ⟨by decide,
    ⟨⟨["x[00]".toList], "a[1]".toList, 1, [], rfl, rfl, rfl, by decide⟩,
      ⟨["x[0]".toList], ["b".toList], by decide, rfl, rfl⟩⟩,
    (path_type_conflict_panics ["x[0]".toList] "a".toList (by decide)).1
      ["id".toList, "x[0].a.b".toList, "n".toList, "x[00].a[1]".toList]
      [["7".toList, "1".toList], ["7".toList, "1".toList, "z".toList, "2".toList]]
      ["7".toList, "1".toList, "z".toList, "2".toList] 3 1
      "x[00].a[1]".toList "x[0].a.b".toList (by decide) rfl rfl (by decide) (by decide)
      ⟨["x[00]".toList], "a[1]".toList, 1, [], rfl, rfl, rfl, by decide⟩
      ⟨["x[0]".toList], ["b".toList], by decide, rfl, rfl⟩,
    (path_type_conflict_panics ["x[0]".toList] "a".toList (by decide)).2.1
      "x[00].a[1]".toList "x[0].a.b".toList "1".toList "2".toList
      [("x".toList, .arr [.map [("a".toList, .arr [.int 1])]])]
      ⟨["x[00]".toList], "a[1]".toList, 1, [], rfl, rfl, rfl, by decide⟩
      ⟨["x[0]".toList], ["b".toList], by decide, rfl, rfl⟩ rfl,
    (path_type_conflict_panics ["x[0]".toList] "a".toList (by decide)).2.2
      "x[00].a[1]".toList "x[0].a.b".toList "1".toList "2".toList
      [("x".toList, .arr [.map [("a".toList, .map [("b".toList, .int 1)])]])]
      ⟨["x[00]".toList], "a[1]".toList, 1, [], rfl, rfl, rfl, by decide⟩
      ⟨["x[0]".toList], ["b".toList], by decide, rfl, rfl⟩ rfl⟩

/-- C11: same-element coalescing: for a key `a` and columns whose keys `k_1 .. k_n`
(`n ≥ 1`) are pairwise distinct, bracket-free and dot-free, the row with headers
`a[0].k_1 .. a[0].k_n` and fields `v_1 .. v_n` yields the record whose array at
`a` has exactly one element, the map of the keys `k_i` to the coerced `v_i`. -/
theorem same_element_coalescing (a : Str) (cols : List (Str × Str))
    (hdot : '.' ∉ a) (hopen : '[' ∉ a) (hclose : ']' ∉ a) (hne : cols ≠ [])
    (hkeys : ∀ c ∈ cols, '.' ∉ c.1 ∧ '[' ∉ c.1 ∧ ']' ∉ c.1)
    (hnodup : (cols.map Prod.fst).Nodup) :
    transformToMap [cols.map fun c => a ++ "[0].".toList ++ c.1, cols.map Prod.snd] =
      .ok ([[(a, .arr [.map (cols.map fun c => (c.1, coerce c.2))])]], none) := by
  have h := fillLine_zero_keys a hdot hopen hclose cols [] [] (Or.inl ⟨rfl, rfl⟩) hne
    (fun c hc => ⟨(hkeys c hc).1, (hkeys c hc).2.1⟩) (by simpa using hnodup)
  rw [List.nil_append] at h
  exact (transformToMap_ok_iff _ _ _ _).2 ⟨rfl, List.Forall₂.cons h List.Forall₂.nil⟩

theorem same_element_coalescing_witness :
    (('.' ∉ "a".toList ∧ '[' ∉ "a".toList ∧ ']' ∉ "a".toList) ∧
      [("b".toList, "1".toList), ("c".toList, "x".toList)] ≠ [] ∧
      (∀ c ∈ [("b".toList, "1".toList), ("c".toList, "x".toList)],
        '.' ∉ c.1 ∧ '[' ∉ c.1 ∧ ']' ∉ c.1) ∧
      ([("b".toList, "1".toList), ("c".toList, "x".toList)].map Prod.fst).Nodup) ∧
    transformToMap [["a[0].b".toList, "a[0].c".toList], ["1".toList, "x".toList]] =
      .ok ([[("a".toList,
        .arr [.map [("b".toList, coerce "1".toList), ("c".toList, coerce "x".toList)]])]],
        none) :=
  ⟨⟨by decide, by decide, by decide, by decide⟩,
    same_element_coalescing "a".toList [("b".toList, "1".toList), ("c".toList, "x".toList)]
      (by decide) (by decide) (by decide) (by decide) (by decide) (by decide)⟩

/-- C12, the claim fails: the header `a.b` occurs in two columns with the fields
`1` and `2`, a later column `a` assigns to the key the path leads through, and
the record holds no value at the path of `a.b`. -/
theorem later_column_overwrites_path :
    transformToMap [["a.b".toList, "a.b".toList, "a".toList],
        ["1".toList, "2".toList, "3".toList]] = .ok ([[("a".toList, .int 3)]], none) ∧
    lookupHeader [("a".toList, .int 3)] (split '.' "a.b".toList) = none ∧
    lookupPath [("a".toList, .int 3)] (split '.' "a.b".toList) = none :=
  ⟨rfl, rfl, rfl⟩

/-- C12 as amended: duplicate headers overwrite in field order.  Let `h` be a
header whose final segment is bracket-free, occurring in two columns of a row
with the fields `v` (earlier) and `w` (later), whatever the other columns
before the later occurrence are.  When the row converts and no column after the
later occurrence has a header that ends on the path of `h`, the value read back
at the path of `h` is `coerce w` alone.  A header ends on the path when its
segments before the last one are read like the first segments of the path (same
key, same index) and its last segment is read with the index -1 (as a
bracket-free segment is, or a segment `k[-1]`) and with the key of the path
segment at its position: its terminal write assigns to a key the path leads
through.  The row of the two columns `h`, `h` converts for every `h` without
`[`. -/
theorem later_duplicate_wins (h v w : Str) :
    (∀ (p1 f1 p2 f2 post fpost : List Str) (r : Record),
      p1.length = f1.length → p2.length = f2.length →
      (∃ s, (split '.' h).getLast? = some s ∧ '[' ∉ s ∧ ']' ∉ s) →
      (∀ x ∈ post, ¬ Disturbs (split '.' x) (split '.' h)) →
      transformToMap [p1 ++ h :: (p2 ++ h :: post), f1 ++ v :: (f2 ++ w :: fpost)] =
        .ok ([r], none) →
      lookupHeader r (split '.' h) = some (coerce w)) ∧
    ('[' ∉ h →
      ∃ r, transformToMap [[h, h], [v, w]] = .ok ([r], none) ∧
        lookupHeader r (split '.' h) = some (coerce w)) := by
  have general : ∀ (pre fpre post fpost : List Str) (r : Record), pre.length = fpre.length →
      (∃ s, (split '.' h).getLast? = some s ∧ '[' ∉ s) →
      (∀ x ∈ post, ¬ Disturbs (split '.' x) (split '.' h)) →
      transformToMap [pre ++ h :: post, fpre ++ w :: fpost] = .ok ([r], none) →
      lookupHeader r (split '.' h) = some (coerce w) := by
    intro pre fpre post fpost r hlen hlast hno hok
    have hfill := fillLine_of_transformToMap _ _ r none hok
    rw [fillLine_append pre fpre (h :: post) (w :: fpost) [] hlen] at hfill
    cases h1 : fillLine pre fpre 0 [] with
    | error p => simp [h1] at hfill
    | ok r1 =>
      simp only [h1, fillLine_cons_cons] at hfill
      cases h2 : walk w (split '.' h) r1 with
      | error p => simp [h2] at hfill
      | ok r2 =>
        simp only [h2] at hfill
        have hl := walk_lookupHeader w (split '.' h) r1 r2 h2 hlast
        obtain ⟨v', hl', hc⟩ := fillLine_continues (split '.' h) post fpost r2 r _ hno hfill hl
        rw [hl', hc.coerce_eq]
  constructor
  · intro p1 f1 p2 f2 post fpost r hl1 hl2 ⟨s, hs, hopen, _⟩ hno hok
    have hlen : (p1 ++ h :: p2).length = (f1 ++ v :: f2).length := by
      simp [hl1, hl2]
    have hok' : transformToMap [(p1 ++ h :: p2) ++ h :: post, (f1 ++ v :: f2) ++ w :: fpost] =
        .ok ([r], none) := by
      simpa [List.append_assoc] using hok
    exact general _ _ post fpost r hlen ⟨s, hs, hopen⟩ hno hok'
  · intro hfree
    have hplain := plain_split h hfree
    obtain ⟨r1, hw1, _⟩ := walk_plain_ok v (split '.' h) [] (split_ne_nil _ _) hplain
      (Walkable_nil_record _)
    obtain ⟨r, hw2, _⟩ := walk_plain_ok w (split '.' h) r1 (split_ne_nil _ _) hplain
      (walk_plain_walkable_self v (split '.' h) [] r1 hplain hw1)
    have hok : transformToMap [[h, h], [v, w]] = .ok ([r], none) := by
      simp [transformToMap, convertLines, fillLine_cons_cons, hw1, hw2, fillLine]
    refine ⟨r, hok, general [h] [v] [] [] r rfl ?_ (fun x hx => by simp at hx) hok⟩
    refine ⟨(split '.' h).getLast (split_ne_nil _ _), List.getLast?_eq_getLast _ _, ?_⟩
    intro hmem
    exact hfree (mem_of_mem_split '.' h _ (List.getLast_mem _) _ hmem)

theorem later_duplicate_wins_witness :
    ((∃ s, (split '.' "a[0].b".toList).getLast? = some s ∧ '[' ∉ s ∧ ']' ∉ s) ∧
      (∀ x ∈ ["a[0].c".toList, "x".toList],
        ¬ Disturbs (split '.' x) (split '.' "a[0].b".toList)) ∧
      transformToMap [[] ++ "a[0].b".toList :: (["n".toList] ++ "a[0].b".toList ::
            ["a[0].c".toList, "x".toList]),
          [] ++ "1".toList :: (["7".toList] ++ "y".toList :: ["true".toList, "z".toList])] =
        .ok ([[("a".toList,
            .arr [.map [("b".toList, .str "y".toList), ("c".toList, .bool true)]]),
          ("n".toList, .int 7), ("x".toList, .str "z".toList)]], none)) ∧
    lookupHeader [("a".toList,
          .arr [.map [("b".toList, .str "y".toList), ("c".toList, .bool true)]]),
        ("n".toList, .int 7), ("x".toList, .str "z".toList)]
      (split '.' "a[0].b".toList) = some (coerce "y".toList) :=
  have hno : ∀ x ∈ ["a[0].c".toList, "x".toList],
      ¬ Disturbs (split '.' x) (split '.' "a[0].b".toList) := by
    intro x hx
    simp only [List.mem_cons, List.mem_singleton, List.not_mem_nil, or_false] at hx
    rcases hx with rfl | rfl
    · exact fun hd => absurd hd.2.2 (by decide)
    · exact fun hd => absurd hd.2 (by decide)
  ⟨⟨⟨"b".toList, rfl, by decide, by decide⟩, hno, rfl⟩,
    (later_duplicate_wins "a[0].b".toList "1".toList "y".toList).1 [] [] ["n".toList]
      ["7".toList] ["a[0].c".toList, "x".toList] ["true".toList, "z".toList] _ rfl rfl
      ⟨"b".toList, rfl, by decide, by decide⟩ hno rfl⟩

/-- C13: path parsing of well-formed segments: for a key without `.`, `[`, `]`
and a natural number `n` that fits the 64-bit `int`, `arrayContentMatch` of the
key followed by `[`, the canonical digits of `n` and `]` returns the key and
`n`, and of the key alone returns the key and the no-index value -1; the header
`a.b[0].c` splits and parses into `(a, -1)`, `(b, 0)`, `(c, -1)`, in that order. -/
theorem segment_parsing (key : Str) (n : Nat)
    (hdot : '.' ∉ key) (hopen : '[' ∉ key) (hclose : ']' ∉ key) (hn : n < 2 ^ 63) :
    arrayContentMatch (key ++ '[' :: (renderNat n ++ "]".toList)) = .ok (key, (n : Int)) ∧
    arrayContentMatch key = .ok (key, -1) ∧
    split '.' (key ++ '[' :: (renderNat n ++ "]".toList)) =
      [key ++ '[' :: (renderNat n ++ "]".toList)] ∧
    (split '.' "a.b[0].c".toList).map arrayContentMatch =
      [.ok ("a".toList, -1), .ok ("b".toList, 0), .ok ("c".toList, -1)] := by
  refine ⟨?_, arrayContentMatch_no_open key hopen, split_indexed key n hdot, rfl⟩
  rw [arrayContentMatch_index key n hopen hclose, Atoi_renderNat n hn]

theorem segment_parsing_witness :
    (('.' ∉ "key".toList ∧ '[' ∉ "key".toList ∧ ']' ∉ "key".toList) ∧ 42 < 2 ^ 63) ∧
    arrayContentMatch ("key".toList ++ '[' :: (renderNat 42 ++ "]".toList)) =
      .ok ("key".toList, ((42 : Nat) : Int)) :=
  ⟨⟨by decide, by norm_num⟩,
    (segment_parsing "key".toList 42 (by decide) (by decide) (by decide) (by norm_num)).1⟩

/-- C14: in-memory conversion without a destination: for a `[][]string` source
and the empty `dest`, `Convert` returns exactly the records and the error that
`transformToMap` returns (and panics when it panics) and makes no call of
`os.WriteFile`; with a non-empty `dest` and a successful save it writes the
file and returns nil records and a nil error. -/
theorem convert_in_memory (env : Collaborators) (data : List (List Str))
    (writes : List FileWrite) :
    Convert env (.rows data) [] writes =
      (writes,
        match transformToMap data with
        | .error p => .error (.runtime p)
        | .ok (recs, err) => .ok (recs, err)) ∧
    (∀ (dest bytes : Str) (recs : List Record) (err : Option GoError), dest ≠ [] →
      transformToMap data = .ok (recs, err) →
      env.marshalIndent recs = .ok bytes → env.writeFile dest bytes = none →
      Convert env (.rows data) dest writes = (writes ++ [(dest, bytes)], .ok ([], none))) := by
  constructor
  · simp only [Convert, convertRows]
    cases h : transformToMap data with
    | error p => rfl
    | ok res =>
      obtain ⟨recs, err⟩ := res
      have he := transformToMap_err_none data recs err h
      subst he
      simp
  · intro dest bytes recs err hdest h hm hw
    have he := transformToMap_err_none data recs err h
    subst he
    simp [Convert, convertRows, h, hdest, saveToFile, hm, hw]

theorem convert_in_memory_witness :
    ("out.json".toList ≠ [] ∧
      transformToMap [["a".toList], ["1".toList]] = .ok ([[("a".toList, .int 1)]], none)) ∧
    Convert
      { marshalIndent := fun _ => .ok "json".toList
        writeFile := fun _ _ => none
        httpGet := fun _ => .ok []
        openFile := fun _ => .ok []
        readAll := fun _ => .ok [] }
      (.rows [["a".toList], ["1".toList]]) "out.json".toList [] =
      ([] ++ [("out.json".toList, "json".toList)], .ok ([], none)) :=
  ⟨⟨by decide, rfl⟩,
    (convert_in_memory
      { marshalIndent := fun _ => .ok "json".toList
        writeFile := fun _ _ => none
        httpGet := fun _ => .ok []
        openFile := fun _ => .ok []
        readAll := fun _ => .ok [] }
      [["a".toList], ["1".toList]] []).2 "out.json".toList "json".toList
      [[("a".toList, .int 1)]] none (by decide) rfl rfl rfl⟩

/-- C15: final bracketed segments append and ignore the index: for a key `a`
and a row whose headers are all of the form `a[n_i]`, with arbitrary natural
numbers `n_i` (sparse, out of order, repeated, even beyond the `int` range),
the array at `a` is exactly the list of the coerced fields in column order, so
its length is the number of columns. -/
theorem final_bracket_appends (a : Str) (cols : List (Nat × Str))
    (hdot : '.' ∉ a) (hopen : '[' ∉ a) (hclose : ']' ∉ a) (hne : cols ≠ []) :
    transformToMap [cols.map fun c => a ++ '[' :: (renderNat c.1 ++ "]".toList),
        cols.map Prod.snd] =
      .ok ([[(a, .arr (cols.map fun c => coerce c.2))]], none) ∧
    (cols.map fun c => coerce c.2).length = cols.length := by
  have h := fillLine_indexed a hdot hopen hclose cols [] [] (Or.inl ⟨rfl, rfl⟩) hne
  rw [List.nil_append] at h
  exact ⟨(transformToMap_ok_iff _ _ _ _).2 ⟨rfl, List.Forall₂.cons h List.Forall₂.nil⟩,
    List.length_map _ _⟩

theorem final_bracket_appends_witness :
    (('.' ∉ "a".toList ∧ '[' ∉ "a".toList ∧ ']' ∉ "a".toList) ∧
      [(5, "x".toList), (2, "1".toList), (2, "true".toList)] ≠ []) ∧
    transformToMap [[(5, "x".toList), (2, "1".toList), (2, "true".toList)].map
          fun c => "a".toList ++ '[' :: (renderNat c.1 ++ "]".toList),
        [(5, "x".toList), (2, "1".toList), (2, "true".toList)].map Prod.snd] =
      .ok ([[("a".toList,
        .arr ([(5, "x".toList), (2, "1".toList), (2, "true".toList)].map
          fun c => coerce c.2))]], none) :=
  ⟨⟨by decide, by decide⟩,
    (final_bracket_appends "a".toList [(5, "x".toList), (2, "1".toList), (2, "true".toList)]
      (by decide) (by decide) (by decide) (by decide)).1⟩

/-- C16, the code at the failing input: a non-final segment `a[k]` whose index
is strictly beyond the length of the array (`a[1].b`, `a[5].b` as the first
reference to `a`) makes the conversion panic at `internalArray[arrayIndex]`
after the one element was appended; only `k` equal to the length converts
(`a[0].b`, and `a[1].c` after it). -/
theorem sparse_index_panics :
    transformToMap [["a[1].b".toList], ["1".toList]] = .error .indexOutOfRange ∧
    transformToMap [["a[5].b".toList], ["1".toList]] = .error .indexOutOfRange ∧
    transformToMap [["a[0].b".toList, "a[2].c".toList], ["1".toList, "2".toList]] =
      .error .indexOutOfRange ∧
    transformToMap [["a[0].b".toList, "a[1].c".toList], ["1".toList, "2".toList]] =
      .ok ([[("a".toList, .arr [.map [("b".toList, .int 1)], .map [("c".toList, .int 2)]])]],
        none) :=
  ⟨rfl, rfl, rfl, rfl⟩

/-- C17, the claim fails: the column `a[0]` creates an array at `a` and the later
column `a` of the same row replaces it by a scalar; the column `x.a[0]` creates
an array at the nested key `a` and the later column `x.a`, or `x`, replaces it
or the map that holds it; and the later column `a[-1]`, which is read as the
plain key `a`, replaces the array at `a` as the column `a` does.  The
conversions succeed. -/
theorem array_replaced_by_scalar :
    transformToMap [["a[0]".toList], ["1".toList]] =
      .ok ([[("a".toList, .arr [.int 1])]], none) ∧
    transformToMap [["a[0]".toList, "a".toList], ["1".toList, "2".toList]] =
      .ok ([[("a".toList, .int 2)]], none) ∧
    transformToMap [["x.a[0]".toList, "x.a".toList], ["1".toList, "2".toList]] =
      .ok ([[("x".toList, .map [("a".toList, .int 2)])]], none) ∧
    transformToMap [["x.a[0]".toList, "x".toList], ["1".toList, "2".toList]] =
      .ok ([[("x".toList, .int 2)]], none) ∧
    transformToMap [["a[0]".toList, "a[-1]".toList], ["1".toList, "2".toList]] =
      .ok ([[("a".toList, .int 2)]], none) := ⟨rfl, rfl, rfl, rfl, rfl⟩

/-- C17 as amended: arrays only grow within one row unless a later column
assigns on their path.  Let `path` lead to a key of the record or of a nested
container (its segments are read like header segments, the last one naming the
key), and let the columns converted so far have left an array at that key.
When the row with further columns converts and none of their headers ends on
the path, the key still holds an array that continues the old one: it is at
least as long, and every earlier element is unchanged or is still a map at its
position.  A header ends on the path when its segments before the last one are
read like the first segments of the path (same key, same index) and its last
segment is read with the index -1 (as a bracket-free segment is, or a segment
`k[-1]`) and with the key of the path segment at its position: its terminal
write assigns to a key the path leads through, replacing the array or a
container that holds it. -/
theorem arrays_grow_unless_overwritten (path hpre fpre : List Str) (r : Record)
    (xs : List Value) (hlen : hpre.length = fpre.length)
    (hr : transformToMap [hpre, fpre] = .ok ([r], none))
    (hk : lookupHeader r path = some (.arr xs))
    (hpost fpost : List Str) (r' : Record)
    (hno : ∀ x ∈ hpost, ¬ Disturbs (split '.' x) path)
    (hok : transformToMap [hpre ++ hpost, fpre ++ fpost] = .ok ([r'], none)) :
    ∃ ys, lookupHeader r' path = some (.arr ys) ∧ Grows xs ys := by
  have hfill := fillLine_of_transformToMap _ _ r none hr
  have hfill' := fillLine_of_transformToMap _ _ r' none hok
  rw [fillLine_append hpre fpre hpost fpost [] hlen, hfill] at hfill'
  obtain ⟨v', hl', ys, rfl, hg⟩ := fillLine_continues path hpost fpost r r' _ hno hfill' hk
  exact ⟨ys, hl', hg⟩

theorem arrays_grow_unless_overwritten_witness :
    (["x.a[0].b".toList].length = ["1".toList].length ∧
      transformToMap [["x.a[0].b".toList], ["1".toList]] =
        .ok ([[("x".toList, .map [("a".toList, .arr [.map [("b".toList, .int 1)]])])]],
          none) ∧
      lookupHeader [("x".toList, .map [("a".toList, .arr [.map [("b".toList, .int 1)]])])]
        ["x".toList, "a".toList] = some (.arr [.map [("b".toList, .int 1)]]) ∧
      (∀ h ∈ ["x.a[0].c".toList, "x.a[1]".toList],
        ¬ Disturbs (split '.' h) ["x".toList, "a".toList]) ∧
      transformToMap [["x.a[0].b".toList] ++ ["x.a[0].c".toList, "x.a[1]".toList],
          ["1".toList] ++ ["2".toList, "z".toList]] =
        .ok ([[("x".toList, .map [("a".toList,
          .arr [.map [("b".toList, .int 1), ("c".toList, .int 2)], .str "z".toList])])]],
          none)) ∧
    ∃ ys, lookupHeader [("x".toList, .map [("a".toList,
          .arr [.map [("b".toList, .int 1), ("c".toList, .int 2)], .str "z".toList])])]
        ["x".toList, "a".toList] = some (.arr ys) ∧
      Grows [.map [("b".toList, .int 1)]] ys :=
  have hno : ∀ h ∈ ["x.a[0].c".toList, "x.a[1]".toList],
      ¬ Disturbs (split '.' h) ["x".toList, "a".toList] := by
    intro h hh
    simp only [List.mem_cons, List.mem_singleton, List.not_mem_nil, or_false] at hh
    rcases hh with rfl | rfl
    · exact fun hd => hd.2
    · exact fun hd => absurd hd.2.1 (by decide)
  ⟨⟨rfl, rfl, rfl, hno, rfl⟩,
    arrays_grow_unless_overwritten ["x".toList, "a".toList] ["x.a[0].b".toList] ["1".toList]
      _ _ rfl rfl rfl ["x.a[0].c".toList, "x.a[1]".toList] ["2".toList, "z".toList] _ hno rfl⟩

/-- C18, the code at the failing input: a segment whose first `]` stands before
its first `[` (`]a[`) makes `arrayContentMatch` panic at `str[i+1 : j]`; a
segment without bracket, with an unmatched `[` or with a lone `]` is returned
whole with -1. -/
theorem close_before_open_panics :
    arrayContentMatch "]a[".toList = .error .sliceBounds ∧
    arrayContentMatch "abc".toList = .ok ("abc".toList, -1) ∧
    arrayContentMatch "a[".toList = .ok ("a[".toList, -1) ∧
    arrayContentMatch "a]".toList = .ok ("a]".toList, -1) :=
  ⟨rfl, rfl, rfl, rfl⟩

/-- C19, the code at the failing inputs: `a[-1]` and `a[-2]` are turned into the
stripped key `a` with the negative index read from the brackets; the index -1
coincides with the no-index value, so the row with header `a[-1]` stores its
field at the plain key `a`. -/
theorem negative_index_returned :
    arrayContentMatch "a[-1]".toList = .ok ("a".toList, -1) ∧
    arrayContentMatch "a[-2]".toList = .ok ("a".toList, -2) ∧
    transformToMap [["a[-1]".toList], ["x".toList]] =
      .ok ([[("a".toList, .str "x".toList)]], none) :=
  ⟨rfl, rfl, rfl⟩

/-- C20: the two inlined copies of the scalar coercion agree: for a key `a` and
any field, the one element appended to the array by the row with header `a[0]`
is the value stored at `a` by the row with header `a`, namely the coerced
field. -/
theorem coercion_copies_agree (a field : Str)
    (hdot : '.' ∉ a) (hopen : '[' ∉ a) (hclose : ']' ∉ a) :
    ∃ v, transformToMap [[a ++ "[0]".toList], [field]] = .ok ([[(a, .arr [v])]], none) ∧
      transformToMap [[a], [field]] = .ok ([[(a, v)]], none) ∧ v = coerce field :=
  ⟨coerce field,
    transformToMap_bracket_key a "0".toList field hdot hopen hclose (by decide) (by decide)
      (by decide),
    transformToMap_plain_key a field hdot (arrayContentMatch_no_open a hopen), rfl⟩

theorem coercion_copies_agree_witness :
    ('.' ∉ "a".toList ∧ '[' ∉ "a".toList ∧ ']' ∉ "a".toList) ∧
    ∃ v, transformToMap [["a".toList ++ "[0]".toList], ["007".toList]] =
        .ok ([[("a".toList, .arr [v])]], none) ∧
      transformToMap [["a".toList], ["007".toList]] = .ok ([[("a".toList, v)]], none) ∧
      v = coerce "007".toList :=
  ⟨by decide, coercion_copies_agree "a".toList "007".toList (by decide) (by decide) (by decide)⟩

end Csv2json
